import Mathlib

/-! SimpleVector over ArrayPtr: a shallow embedding

The development follows `array_ptr.h` and `simple_vector.h`.

* A heap block is a list of slots; `ArrayPtr.raw_ptr_` is `none` for `nullptr`
  and `some b` for a block of `b.length` slots. `new Type[size]` yields `size`
  slots with the arbitrary contents `Fresh.junk`.
* Iterators and pointers into a block are offsets from its first slot; pointer
  arithmetic is arithmetic on offsets.
* `size_t` is a natural number below `SIZE_MOD = 2 ^ 64`; the arithmetic of the
  source on the fields `size_` and `capacity_` (`capacity_ * 2`, `size_ + 1`,
  `--size_`) is reduced modulo `SIZE_MOD`.
* An operation ends either with a result or with a `Fault`: a failed `assert`,
  the `std::out_of_range` exception of `At`, or an access that leaves the held
  block (a null dereference included), which is undefined behaviour in C++.
  Allocation itself does not fail.
* `assert` is compiled out under `NDEBUG`; operations that contain one take the
  flag `ndebug`.
* Moving an element is modelled as copying it: the moved-from slot keeps its
  value.
* The reference parameter of `Insert` is a `Ref`: it may point into the buffer
  of the vector itself and is read at the point where the source reads it.
* Copy construction and copy assignment are embedded a second time over a
  free store (`Heap`, `StoredVector`), where two vectors can hold the same
  address; `StoredVector.view` relates the two embeddings.
-/

namespace SimpleVec

/-- Number of values of `size_t`. -/
def SIZE_MOD : Nat := 18446744073709551616

/-- Reduction of an arithmetic result to `size_t`. -/
def wrap (n : Nat) : Nat := n % SIZE_MOD

/-- Ways an operation ends without a result. -/
inductive Fault where
  | assertion
  | out_of_range
  | undefined
deriving DecidableEq, Repr

deriving instance DecidableEq for Except

/-- Outcome of an operation. -/
abbrev Res (α : Type) : Type := Except Fault α

/-- The statement `assert(cond)`: nothing under `NDEBUG`, otherwise a check. -/
def assert_ (ndebug : Bool) (cond : Bool) : Res Unit :=
  if ndebug then .ok () else if cond then .ok () else .error Fault.assertion

/-- The contents of freshly allocated storage. `new Type[size]`
default-initialises its slots, which leaves the slots of a scalar `Type`
indeterminate: `Fresh.junk i` is what slot `i` of a block returned by
`new Type[size]` holds before the program writes to it. The statements below
hold for every `Fresh T`; the choice `junk i = Type()` is that of a class type
with a default constructor. -/
class Fresh (T : Type) where
  junk : Nat → T

/-- The block returned by `new Type[size]`. -/
def fresh_block {T : Type} [Fresh T] (size : Nat) : List T :=
  (List.range size).map Fresh.junk

/-- The fresh storage used in the closed examples over `Nat`. -/
instance : Fresh Nat where
  junk := fun i => 100 + i

/-! ## ArrayPtr -/

/-- Class `ArrayPtr<Type>`: the single field `raw_ptr_`. -/
structure ArrayPtr (T : Type) where
  raw_ptr_ : Option (List T) := none
deriving DecidableEq, Repr

namespace ArrayPtr

variable {T : Type}

/-- `ArrayPtr() = default`: holds `nullptr`. -/
def ctor_default : ArrayPtr T := { raw_ptr_ := none }

/-- `explicit ArrayPtr(size_t size)`: `nullptr` for `size == 0`, otherwise
`new Type[size]`. -/
def ctor_size [Fresh T] (size : Nat) : ArrayPtr T :=
  if size = 0 then { raw_ptr_ := none }
  else { raw_ptr_ := some (fresh_block size) }

/-- `explicit ArrayPtr(Type* raw_ptr)`. -/
def ctor_raw (raw_ptr : Option (List T)) : ArrayPtr T := { raw_ptr_ := raw_ptr }

/-- `Release()`: returns the held pointer and the `ArrayPtr` after the call. -/
def Release (a : ArrayPtr T) : Option (List T) × ArrayPtr T :=
  let p := a.raw_ptr_
  (p, { raw_ptr_ := none })

/-- `Get()`. -/
def Get (a : ArrayPtr T) : Option (List T) := a.raw_ptr_

/-- `explicit operator bool()`. -/
def toBool (a : ArrayPtr T) : Bool :=
  match a.raw_ptr_ with
  | some _ => true
  | none => false

/-- `swap(ArrayPtr& other)`: the pair is `(*this, other)` after the call. -/
def swap (a other : ArrayPtr T) : ArrayPtr T × ArrayPtr T := (other, a)

/-- The slots of the held block (none for `nullptr`). -/
def cells (a : ArrayPtr T) : List T :=
  match a.raw_ptr_ with
  | some b => b
  | none => []

/-- Number of slots of the held block (`0` for `nullptr`). -/
def slots (a : ArrayPtr T) : Nat :=
  match a.raw_ptr_ with
  | some b => b.length
  | none => 0

/-- Reading `raw_ptr_[index]`. -/
def read (a : ArrayPtr T) (index : Nat) : Res T :=
  match a.raw_ptr_ with
  | none => .error Fault.undefined
  | some b =>
    match b[index]? with
    | some x => .ok x
    | none => .error Fault.undefined

/-- Assigning `raw_ptr_[index] = x`. -/
def write (a : ArrayPtr T) (index : Nat) (x : T) : Res (ArrayPtr T) :=
  match a.raw_ptr_ with
  | none => .error Fault.undefined
  | some b =>
    if index < b.length then .ok { raw_ptr_ := some (b.set index x) }
    else .error Fault.undefined

end ArrayPtr

/-- What a parameter `const Type& value` or `Type&& value` refers to: an object
outside the buffer of the vector, holding `x`, or slot `k` of the buffer of the
vector itself, as in `v.Insert(v.begin(), v[2])`. -/
inductive Ref (T : Type) where
  | outside (x : T)
  | slot (k : Nat)
deriving DecidableEq, Repr

/-- Reading through a reference at a moment when the buffer it may point into
is `a`. -/
def Ref.get {T : Type} (value : Ref T) (a : ArrayPtr T) : Res T :=
  match value with
  | .outside x => .ok x
  | .slot k => a.read k

/-! ## The algorithms of the standard library used by the source -/

section Algorithms

variable {T : Type}

/-- Loop of `std::copy` / `std::move` from one block into another: `n`
elements, ascending, `*d++ = *first++`. -/
def copy_loop (src : ArrayPtr T) : Nat → Nat → ArrayPtr T → Nat → Res (ArrayPtr T)
  | 0, _, dst, _ => .ok dst
  | n + 1, first, dst, d => do
    let x ← src.read first
    let dst1 ← dst.write d x
    copy_loop src n (first + 1) dst1 (d + 1)

/-- `std::copy(first, last, d_first)` and `std::move(first, last, d_first)`
between two blocks; the range `[first, last)` is given by offsets into `src`. -/
def std_copy (src : ArrayPtr T) (first last : Nat) (dst : ArrayPtr T) (d_first : Nat) :
    Res (ArrayPtr T) :=
  if last < first then .error Fault.undefined
  else copy_loop src (last - first) first dst d_first

/-- Loop of `std::move(first, last, d_first)` inside one block. -/
def move_loop : Nat → ArrayPtr T → Nat → Nat → Res (ArrayPtr T)
  | 0, a, _, _ => .ok a
  | n + 1, a, first, d => do
    let x ← a.read first
    let a1 ← a.write d x
    move_loop n a1 (first + 1) (d + 1)

/-- `std::move(first, last, d_first)` with source and destination in the same
block. -/
def std_move_within (a : ArrayPtr T) (first last d_first : Nat) : Res (ArrayPtr T) :=
  if last < first then .error Fault.undefined
  else move_loop (last - first) a first d_first

/-- Loop of `std::copy_backward`: `*(--d_last) = *(--last)`, `n` times. -/
def copy_backward_loop : Nat → ArrayPtr T → Nat → Nat → Res (ArrayPtr T)
  | 0, a, _, _ => .ok a
  | n + 1, a, last, d_last =>
    if last = 0 ∨ d_last = 0 then .error Fault.undefined
    else do
      let x ← a.read (last - 1)
      let a1 ← a.write (d_last - 1) x
      copy_backward_loop n a1 (last - 1) (d_last - 1)

/-- `std::copy_backward(first, last, d_last)` inside one block. -/
def std_copy_backward (a : ArrayPtr T) (first last d_last : Nat) : Res (ArrayPtr T) :=
  if last < first then .error Fault.undefined
  else copy_backward_loop (last - first) a last d_last

/-- Loop of `std::generate(first, last, [] { return Type(); })`. -/
def generate_loop [Inhabited T] : Nat → ArrayPtr T → Nat → Res (ArrayPtr T)
  | 0, a, _ => .ok a
  | n + 1, a, first => do
    let a1 ← a.write first default
    generate_loop n a1 (first + 1)

/-- `std::generate(first, last, [] { return Type(); })` on one block. -/
def std_generate [Inhabited T] (a : ArrayPtr T) (first last : Nat) : Res (ArrayPtr T) :=
  if last < first then .error Fault.undefined
  else generate_loop (last - first) a first

/-- Loop of `std::equal(first1, last1, first2)` with `n` elements left; `eqT`
is `operator==` of the element type. -/
def equal_loop (eqT : T → T → Bool) (a b : ArrayPtr T) : Nat → Nat → Nat → Res Bool
  | 0, _, _ => .ok true
  | n + 1, first1, first2 => do
    let x ← a.read first1
    let y ← b.read first2
    if !(eqT x y) then .ok false
    else equal_loop eqT a b n (first1 + 1) (first2 + 1)

/-- `std::equal(first1, last1, first2)` on two blocks. -/
def std_equal (eqT : T → T → Bool) (a : ArrayPtr T) (first1 last1 : Nat) (b : ArrayPtr T)
    (first2 : Nat) : Res Bool :=
  if last1 < first1 then .error Fault.undefined
  else equal_loop eqT a b (last1 - first1) first1 first2

/-- Loop of `std::lexicographical_compare` with `n1` and `n2` elements left in
the two ranges; `ltT` is `operator<` of the element type. The loop runs while
both ranges are non-empty, and afterwards the result is
`first1 == last1 && first2 != last2`. -/
def lexicographical_loop (ltT : T → T → Bool) (a b : ArrayPtr T) :
    Nat → Nat → Nat → Nat → Res Bool
  | 0, n2, _, _ => .ok (decide (n2 ≠ 0))
  | _ + 1, 0, _, _ => .ok false
  | n1 + 1, n2 + 1, first1, first2 => do
    let x ← a.read first1
    let y ← b.read first2
    if ltT x y then .ok true
    else if ltT y x then .ok false
    else lexicographical_loop ltT a b n1 n2 (first1 + 1) (first2 + 1)

/-- `std::lexicographical_compare(first1, last1, first2, last2)` on two
blocks. -/
def std_lexicographical_compare (ltT : T → T → Bool) (a : ArrayPtr T) (first1 last1 : Nat)
    (b : ArrayPtr T) (first2 last2 : Nat) : Res Bool :=
  if last1 < first1 ∨ last2 < first2 then .error Fault.undefined
  else lexicographical_loop ltT a b (last1 - first1) (last2 - first2) first1 first2

end Algorithms

/-! ## SimpleVector -/

/-- Class `SimpleVector<Type>`: the fields `array_ptr_`, `size_`, `capacity_`
with their default member initialisers. -/
structure SimpleVector (T : Type) where
  array_ptr_ : ArrayPtr T := { raw_ptr_ := none }
  size_ : Nat := 0
  capacity_ : Nat := 0
deriving DecidableEq, Repr

namespace SimpleVector

variable {T : Type}

/-- `SimpleVector() noexcept = default`. -/
def ctor_default : SimpleVector T := {}

/-- `GetSize()`. -/
def GetSize (v : SimpleVector T) : Nat := v.size_

/-- `GetCapacity()`. -/
def GetCapacity (v : SimpleVector T) : Nat := v.capacity_

/-- `IsEmpty()`. -/
def IsEmpty (v : SimpleVector T) : Bool := v.size_ == 0

/-- `begin()` as an offset. -/
def begin_ (_v : SimpleVector T) : Nat := 0

/-- `end()` as an offset. -/
def end_ (v : SimpleVector T) : Nat := v.size_

/-- `operator[](size_t index)`. -/
def index (ndebug : Bool) (v : SimpleVector T) (i : Nat) : Res T := do
  assert_ ndebug (decide (i < v.size_))
  v.array_ptr_.read i

/-- `At(size_t index)`. -/
def At (v : SimpleVector T) (i : Nat) : Res T :=
  if i ≥ v.size_ then .error Fault.out_of_range
  else v.array_ptr_.read i

/-- `Clear()`. -/
def Clear (v : SimpleVector T) : SimpleVector T := { v with size_ := 0 }

/-- `Reserve(size_t new_capacity)`. -/
def Reserve [Fresh T] (v : SimpleVector T) (new_capacity : Nat) : Res (SimpleVector T) :=
  if new_capacity > v.capacity_ then do
    let tmp : ArrayPtr T := ArrayPtr.ctor_size new_capacity
    let tmp ← std_copy v.array_ptr_ v.begin_ v.end_ tmp 0
    let (a, _) := v.array_ptr_.swap tmp
    .ok { v with array_ptr_ := a, capacity_ := new_capacity }
  else .ok v

/-- `SimpleVector(ReserveProxyObj other)`. -/
def ctor_reserve [Fresh T] (capacity_to_reserve : Nat) : Res (SimpleVector T) :=
  Reserve ctor_default capacity_to_reserve

/-- `explicit SimpleVector(size_t size)`. -/
def ctor_size [Inhabited T] [Fresh T] (size : Nat) : Res (SimpleVector T) := do
  let a : ArrayPtr T := ArrayPtr.ctor_size size
  let a ← std_generate a 0 (0 + size)
  .ok { array_ptr_ := a, size_ := size, capacity_ := size }

/-- Loop `for (size_t i = 0; i < size; i++) array_ptr_[i] = value;`, with `n`
iterations left. -/
def fill_loop (value : T) : Nat → ArrayPtr T → Nat → Res (ArrayPtr T)
  | 0, a, _ => .ok a
  | n + 1, a, i => do
    let a1 ← a.write i value
    fill_loop value n a1 (i + 1)

/-- `SimpleVector(size_t size, const Type& value)`. -/
def ctor_size_value [Fresh T] (size : Nat) (value : T) : Res (SimpleVector T) := do
  let a : ArrayPtr T := ArrayPtr.ctor_size size
  let a ← fill_loop value size a 0
  .ok { array_ptr_ := a, size_ := size, capacity_ := size }

/-- `SimpleVector(std::initializer_list<Type> init)`. -/
def ctor_init [Fresh T] (init : List T) : Res (SimpleVector T) := do
  let a : ArrayPtr T := ArrayPtr.ctor_size init.length
  let a ← std_copy { raw_ptr_ := some init } 0 init.length a 0
  .ok { array_ptr_ := a, size_ := init.length, capacity_ := init.length }

/-- `swap(SimpleVector& other)` and `swap(SimpleVector&& other)`: the pair is
`(*this, other)` after the call. -/
def swap (v other : SimpleVector T) : SimpleVector T × SimpleVector T :=
  let (a, b) := v.array_ptr_.swap other.array_ptr_
  ({ array_ptr_ := a, size_ := other.size_, capacity_ := other.capacity_ },
   { array_ptr_ := b, size_ := v.size_, capacity_ := v.capacity_ })

/-- `SimpleVector(const SimpleVector& other)`. -/
def ctor_copy [Inhabited T] [Fresh T] (other : SimpleVector T) : Res (SimpleVector T) :=
  if !other.IsEmpty then do
    let tmp ← (ctor_size other.size_ : Res (SimpleVector T))
    let a ← std_copy other.array_ptr_ other.begin_ other.end_ tmp.array_ptr_ 0
    let tmp := { tmp with array_ptr_ := a }
    .ok (swap ctor_default tmp).1
  else .ok ctor_default

/-- `SimpleVector(SimpleVector&& other)`: the pair is `(*this, other)` after the
call. -/
def ctor_move (other : SimpleVector T) : SimpleVector T × SimpleVector T :=
  swap ctor_default other

/-- `Resize(size_t new_size)`. -/
def Resize [Inhabited T] [Fresh T] (v : SimpleVector T) (new_size : Nat) : Res
    (SimpleVector T) := do
  let v1 ←
    if new_size > v.size_ then
      if new_size ≤ v.capacity_ then do
        let a ← std_generate v.array_ptr_ v.end_ new_size
        .ok { v with array_ptr_ := a }
      else do
        let v0 ← v.Reserve new_size
        let a ← std_generate v0.array_ptr_ v0.end_ new_size
        .ok { v0 with array_ptr_ := a }
    else .ok v
  .ok { v1 with size_ := new_size }

/-- `operator=(const SimpleVector& rhs)` for `this != &rhs`. -/
def assign_copy [Inhabited T] [Fresh T] (v rhs : SimpleVector T) : Res (SimpleVector T) := do
  let tmp ← ctor_copy rhs
  .ok (swap v tmp).1

/-- `operator=(const SimpleVector& rhs)` for `this == &rhs`. -/
def assign_copy_self (v : SimpleVector T) : SimpleVector T := v

/-- `operator=(SimpleVector&& rhs)` for `this != &rhs`: the pair is
`(*this, rhs)` after the call. -/
def assign_move [Fresh T] (v rhs : SimpleVector T) :
    Res (SimpleVector T × SimpleVector T) := do
  let (_, a0) := v.array_ptr_.Release
  let newptr : ArrayPtr T := ArrayPtr.ctor_size rhs.size_
  let newptr ← std_copy rhs.array_ptr_ rhs.begin_ rhs.end_ newptr 0
  let (a1, _) := a0.swap newptr
  let size1 := rhs.size_
  let rhs1 := { rhs with size_ := 0 }
  .ok ({ array_ptr_ := a1, size_ := size1, capacity_ := size1 }, rhs1)

/-- `PushBack(const Type& item)`. -/
def PushBack_copy [Fresh T] (v : SimpleVector T) (item : T) : Res (SimpleVector T) :=
  if v.IsEmpty then do
    let v1 ← if v.capacity_ = 0 then v.Reserve (wrap (v.capacity_ * 2)) else .ok v
    let a ← v1.array_ptr_.write 0 item
    .ok { v1 with array_ptr_ := a, size_ := 1 }
  else if v.size_ < v.capacity_ then do
    let a ← v.array_ptr_.write v.size_ item
    .ok { v with array_ptr_ := a, size_ := wrap (v.size_ + 1) }
  else do
    let tmp : ArrayPtr T := ArrayPtr.ctor_size (wrap (v.capacity_ * 2))
    let tmp ← std_copy v.array_ptr_ 0 (0 + v.size_) tmp 0
    let tmp ← tmp.write v.size_ item
    let (a, _) := v.array_ptr_.swap tmp
    .ok { array_ptr_ := a, size_ := wrap (v.size_ + 1), capacity_ := wrap (v.capacity_ * 2) }

/-- `PushBack(Type&& item)`. -/
def PushBack_move [Fresh T] (v : SimpleVector T) (item : T) : Res (SimpleVector T) :=
  if v.IsEmpty then do
    let v1 ← if v.capacity_ = 0 then v.Reserve 10 else .ok v
    let a ← v1.array_ptr_.write 0 item
    .ok { v1 with array_ptr_ := a, size_ := 1 }
  else if v.size_ < v.capacity_ then do
    let a ← v.array_ptr_.write v.size_ item
    .ok { v with array_ptr_ := a, size_ := wrap (v.size_ + 1) }
  else do
    let tmp : ArrayPtr T := ArrayPtr.ctor_size (wrap (v.capacity_ * 2))
    let tmp ← std_copy v.array_ptr_ 0 (0 + v.size_) tmp 0
    let tmp ← tmp.write v.size_ item
    let (a, _) := v.array_ptr_.swap tmp
    .ok { array_ptr_ := a, size_ := wrap (v.size_ + 1), capacity_ := wrap (v.capacity_ * 2) }

/-- `Insert(ConstIterator pos, const Type& value)`: the returned iterator (an
offset into the buffer held after the call) and the vector after the call.
`value` is a reference and is read where the source reads it: in the branch
with room after `std::copy_backward` has shifted the buffer, in the growing
branch from the old buffer, which is still untouched. `PushBack` reads its
argument before it changes a slot of the old buffer, so it receives the value
read on entry. -/
def Insert_copy [Inhabited T] [Fresh T] (ndebug : Bool) (v : SimpleVector T) (pos : Nat)
    (value : Ref T) : Res (Nat × SimpleVector T) := do
  assert_ ndebug (decide (pos ≥ v.begin_ ∧ pos ≤ v.end_))
  if pos = v.end_ then do
    let x ← value.get v.array_ptr_
    let v1 ← v.PushBack_copy x
    if v1.end_ = 0 then .error Fault.undefined else .ok (v1.end_ - 1, v1)
  else if v.size_ < v.capacity_ then do
    let a ← std_copy_backward v.array_ptr_ pos v.end_ (v.end_ + 1)
    let x ← value.get a
    let a ← a.write pos x
    .ok (pos, { v with array_ptr_ := a, size_ := wrap (v.size_ + 1) })
  else do
    let swap_ptr ← (ctor_size (wrap (2 * v.capacity_)) : Res (SimpleVector T))
    let b ← std_copy v.array_ptr_ v.begin_ pos swap_ptr.array_ptr_ swap_ptr.begin_
    let b ← std_copy v.array_ptr_ pos v.end_ b (swap_ptr.begin_ + (pos - v.begin_ + 1))
    let return_it := swap_ptr.begin_ + (pos - v.begin_)
    let x ← value.get v.array_ptr_
    let b ← b.write return_it x
    let (a, _) := v.array_ptr_.swap b
    .ok (return_it,
      { array_ptr_ := a, size_ := wrap (v.size_ + 1), capacity_ := wrap (2 * v.capacity_) })

/-- Loop `for (auto p = end(); p != pos; p = std::prev(p)) *p = std::move(*std::prev(p));`
with `n` iterations left and `p` the current offset. -/
def shift_loop : Nat → ArrayPtr T → Nat → Res (ArrayPtr T)
  | 0, a, _ => .ok a
  | n + 1, a, p =>
    if p = 0 then .error Fault.undefined
    else do
      let x ← a.read (p - 1)
      let a1 ← a.write p x
      shift_loop n a1 (p - 1)

/-- `Insert(ConstIterator pos, Type&& value)`: the returned iterator (an offset
into the buffer held after the call) and the vector after the call. `value` is
a reference, read where the source reads it, as in the copy overload. -/
def Insert_move [Inhabited T] [Fresh T] (ndebug : Bool) (v : SimpleVector T) (pos : Nat)
    (value : Ref T) : Res (Nat × SimpleVector T) := do
  assert_ ndebug (decide (pos ≥ v.begin_ ∧ pos ≤ v.end_))
  if pos = v.end_ then do
    let x ← value.get v.array_ptr_
    let v1 ← v.PushBack_move x
    if v1.end_ = 0 then .error Fault.undefined else .ok (v1.end_ - 1, v1)
  else if v.size_ < v.capacity_ then do
    let a ←
      if v.end_ < pos then (.error Fault.undefined : Res (ArrayPtr T))
      else shift_loop (v.end_ - pos) v.array_ptr_ v.end_
    let x ← value.get a
    let a ← a.write pos x
    .ok (pos, { v with array_ptr_ := a, size_ := wrap (v.size_ + 1) })
  else do
    let swap_ptr ← (ctor_size (wrap (2 * v.capacity_)) : Res (SimpleVector T))
    let b ← std_copy v.array_ptr_ v.begin_ pos swap_ptr.array_ptr_ swap_ptr.begin_
    let b ← std_copy v.array_ptr_ pos v.end_ b (swap_ptr.begin_ + (pos - v.begin_ + 1))
    let return_it := swap_ptr.begin_ + (pos - v.begin_)
    let x ← value.get v.array_ptr_
    let b ← b.write return_it x
    let (a, _) := v.array_ptr_.swap b
    .ok (return_it,
      { array_ptr_ := a, size_ := wrap (v.size_ + 1), capacity_ := wrap (2 * v.capacity_) })

/-- `PopBack()`. -/
def PopBack (ndebug : Bool) (v : SimpleVector T) : Res (SimpleVector T) := do
  assert_ ndebug v.IsEmpty
  .ok { v with size_ := wrap (v.size_ + SIZE_MOD - 1) }

/-- `Erase(ConstIterator pos)`: the returned iterator and the vector after the
call. -/
def Erase (ndebug : Bool) (v : SimpleVector T) (pos : Nat) : Res (Nat × SimpleVector T) := do
  assert_ ndebug (decide (pos ≥ v.begin_ ∧ pos < v.end_))
  let a ← std_move_within v.array_ptr_ (pos + 1) v.end_ pos
  .ok (pos, { v with array_ptr_ := a, size_ := wrap (v.size_ + SIZE_MOD - 1) })

/-! ### The relational operators

`eqT` and `ltT` are `operator==` and `operator<` of the element type. -/

/-- `operator==(lhs, rhs)`: the size test, and `std::equal` only when it
holds. -/
def op_eq (eqT : T → T → Bool) (lhs rhs : SimpleVector T) : Res Bool :=
  if lhs.GetSize = rhs.GetSize then
    std_equal eqT lhs.array_ptr_ lhs.begin_ lhs.end_ rhs.array_ptr_ rhs.begin_
  else .ok false

/-- `operator!=(lhs, rhs)`. -/
def op_ne (eqT : T → T → Bool) (lhs rhs : SimpleVector T) : Res Bool := do
  let e ← op_eq eqT lhs rhs
  .ok (!e)

/-- `operator<(lhs, rhs)`. -/
def op_lt (ltT : T → T → Bool) (lhs rhs : SimpleVector T) : Res Bool :=
  std_lexicographical_compare ltT lhs.array_ptr_ lhs.begin_ lhs.end_
    rhs.array_ptr_ rhs.begin_ rhs.end_

/-- `operator<=(lhs, rhs)`: `operator<` is evaluated only when `operator==`
is false. -/
def op_le (eqT ltT : T → T → Bool) (lhs rhs : SimpleVector T) : Res Bool := do
  let e ← op_eq eqT lhs rhs
  if e then .ok true else op_lt ltT lhs rhs

/-- `operator>(lhs, rhs)`. -/
def op_gt (eqT ltT : T → T → Bool) (lhs rhs : SimpleVector T) : Res Bool := do
  let le ← op_le eqT ltT lhs rhs
  .ok (!le)

/-- `operator>=(lhs, rhs)`: `operator>` is evaluated only when `operator==`
is false. -/
def op_ge (eqT ltT : T → T → Bool) (lhs rhs : SimpleVector T) : Res Bool := do
  let e ← op_eq eqT lhs rhs
  if e then .ok true else op_gt eqT ltT lhs rhs

/-! ### Observations used by the statements -/

/-- The logical sequence: the first `size_` slots of the buffer. -/
def elems (v : SimpleVector T) : List T :=
  match v.array_ptr_.raw_ptr_ with
  | some b => b.take v.size_
  | none => []

/-- The representation invariant: `size <= capacity`, the buffer holds exactly
`capacity` slots, a zero capacity means an empty (null) buffer, and the
capacity is a `size_t` value. -/
def Inv (v : SimpleVector T) : Prop :=
  v.size_ ≤ v.capacity_ ∧ v.array_ptr_.slots = v.capacity_ ∧
    (v.capacity_ = 0 → v.array_ptr_.raw_ptr_ = none) ∧ v.capacity_ < SIZE_MOD

instance (v : SimpleVector T) [DecidableEq T] : Decidable (Inv v) :=
  inferInstanceAs (Decidable (v.size_ ≤ v.capacity_ ∧ v.array_ptr_.slots = v.capacity_ ∧
    (v.capacity_ = 0 → v.array_ptr_.raw_ptr_ = none) ∧ v.capacity_ < SIZE_MOD))

/-- Ordinary equality of two sequences, as the specification words it: the
sizes match and every corresponding pair of elements compares equal, in index
order. -/
def seq_equal (eqT : T → T → Bool) : List T → List T → Bool
  | [], [] => true
  | x :: xs, y :: ys => eqT x y && seq_equal eqT xs ys
  | _, _ => false

/-- Ordinary lexicographic order of two sequences, as the specification words
it: the first position where one element is less than the other decides, and a
proper prefix is less than the longer sequence. -/
def seq_less (ltT : T → T → Bool) : List T → List T → Bool
  | [], [] => false
  | [], _ :: _ => true
  | _ :: _, [] => false
  | x :: xs, y :: ys =>
    if ltT x y then true else if ltT y x then false else seq_less ltT xs ys

end SimpleVector

/-! ## The free store

To tell a copy that owns its block from one that shares the block of its
source, the copy operations are embedded a second time over a store in which
`raw_ptr_` is an address. -/

/-- The free store: `blocks[p]` is the array that `new Type[n]` returned at
address `p`, and `none` once `delete[]` has released it. -/
structure Heap (T : Type) where
  blocks : List (Option (List T)) := []
deriving DecidableEq, Repr

namespace Heap

variable {T : Type}

/-- `new Type[size]`: a block with fresh contents at an address that no other
block has; the address and the store after the call. -/
def new_array [Fresh T] (h : Heap T) (size : Nat) : Nat × Heap T :=
  (h.blocks.length, { blocks := h.blocks ++ [some (fresh_block size)] })

/-- `delete[] p`: nothing for `nullptr`, otherwise the block at `p` is
released; releasing what is not a live block is undefined behaviour. -/
def delete_array (h : Heap T) (p : Option Nat) : Res (Heap T) :=
  match p with
  | none => .ok h
  | some a =>
    match h.blocks[a]? with
    | some (some _) => .ok { blocks := h.blocks.set a none }
    | _ => .error Fault.undefined

/-- The array a pointer points to; `none` for `nullptr` and for an address
that holds no live block. -/
def deref (h : Heap T) (p : Option Nat) : Option (List T) :=
  match p with
  | none => none
  | some a =>
    match h.blocks[a]? with
    | some (some b) => some b
    | _ => none

/-- Reading `p[index]`. -/
def read (h : Heap T) (p : Option Nat) (index : Nat) : Res T :=
  (ArrayPtr.mk (h.deref p)).read index

/-- Assigning `p[index] = x`. -/
def write (h : Heap T) (p : Option Nat) (index : Nat) (x : T) : Res (Heap T) :=
  match p with
  | none => .error Fault.undefined
  | some a => do
    let b ← (ArrayPtr.mk (h.deref p)).write index x
    .ok { blocks := h.blocks.set a b.raw_ptr_ }

/-- Loop of `std::copy`: `n` elements, ascending, `*d++ = *first++`, from
offset `first` of the block at `src` to offset `d` of the block at `dst`. -/
def copy_loop : Nat → Heap T → Option Nat → Nat → Option Nat → Nat → Res (Heap T)
  | 0, h, _, _, _, _ => .ok h
  | n + 1, h, src, first, dst, d => do
    let x ← h.read src first
    let h1 ← h.write dst d x
    copy_loop n h1 src (first + 1) dst (d + 1)

/-- `std::copy(src + first, src + last, dst + d_first)`. -/
def std_copy (h : Heap T) (src : Option Nat) (first last : Nat) (dst : Option Nat)
    (d_first : Nat) : Res (Heap T) :=
  if last < first then .error Fault.undefined
  else copy_loop (last - first) h src first dst d_first

/-- Loop of `std::generate(first, last, [] { return Type(); })` on the block at
`p`. -/
def generate_loop [Inhabited T] : Nat → Heap T → Option Nat → Nat → Res (Heap T)
  | 0, h, _, _ => .ok h
  | n + 1, h, p, first => do
    let h1 ← h.write p first default
    generate_loop n h1 p (first + 1)

/-- `std::generate(p + first, p + last, [] { return Type(); })`. -/
def std_generate [Inhabited T] (h : Heap T) (p : Option Nat) (first last : Nat) :
    Res (Heap T) :=
  if last < first then .error Fault.undefined
  else generate_loop (last - first) h p first

end Heap

/-- A `SimpleVector` object whose `array_ptr_.raw_ptr_` is an address in the
free store. -/
structure StoredVector where
  raw_ptr_ : Option Nat := none
  size_ : Nat := 0
  capacity_ : Nat := 0
deriving DecidableEq, Repr

namespace StoredVector

variable {T : Type}

/-- `SimpleVector() noexcept = default`. -/
def ctor_default : StoredVector := {}

/-- `IsEmpty()`. -/
def IsEmpty (v : StoredVector) : Bool := v.size_ == 0

/-- `explicit SimpleVector(size_t size)`: `array_ptr_(size)`, then
`std::generate` over `[Get(), Get() + size_)`. -/
def ctor_size [Inhabited T] [Fresh T] (h : Heap T) (size : Nat) :
    Res (Heap T × StoredVector) := do
  let (p, h1) : Option Nat × Heap T :=
    if size = 0 then (none, h) else ((some (h.new_array size).1), (h.new_array size).2)
  let h2 ← h1.std_generate p 0 (0 + size)
  .ok (h2, { raw_ptr_ := p, size_ := size, capacity_ := size })

/-- `swap(SimpleVector& other)`: the pair is `(*this, other)` after the call. -/
def swap (v other : StoredVector) : StoredVector × StoredVector := (other, v)

/-- The destructor: `~ArrayPtr()` runs `delete[] raw_ptr_`. -/
def dtor (h : Heap T) (v : StoredVector) : Res (Heap T) := h.delete_array v.raw_ptr_

/-- `SimpleVector(const SimpleVector& other)`: the store and `*this` after the
call; the local `tmp` is destroyed at the end of its block. -/
def ctor_copy [Inhabited T] [Fresh T] (h : Heap T) (other : StoredVector) :
    Res (Heap T × StoredVector) :=
  if !other.IsEmpty then do
    let (h1, tmp) ← ctor_size h other.size_
    let h2 ← h1.std_copy other.raw_ptr_ 0 other.size_ tmp.raw_ptr_ 0
    let (this, tmp) := swap ctor_default tmp
    let h3 ← dtor h2 tmp
    .ok (h3, this)
  else .ok (h, ctor_default)

/-- `operator=(const SimpleVector& rhs)` for `this != &rhs`: the store and
`*this` after the call; the local `tmp`, which holds the former buffer of
`*this` after the swap, is destroyed on return. -/
def assign_copy [Inhabited T] [Fresh T] (h : Heap T) (v rhs : StoredVector) :
    Res (Heap T × StoredVector) := do
  let (h1, tmp) ← ctor_copy h rhs
  let (this, tmp) := swap v tmp
  let h2 ← dtor h1 tmp
  .ok (h2, this)

/-- The vector as a value: the block its pointer points to in the store `h`,
with its size and capacity. -/
def view (h : Heap T) (v : StoredVector) : SimpleVector T :=
  { array_ptr_ := { raw_ptr_ := h.deref v.raw_ptr_ }, size_ := v.size_, capacity_ := v.capacity_ }

end StoredVector

/-! ## Lemmas on blocks and on the loops of the standard algorithms -/

section Lemmas

open SimpleVector

variable {T : Type}

theorem read_some (b : List T) (i : Nat) (h : i < b.length) :
    ArrayPtr.read { raw_ptr_ := some b } i = .ok b[i] := by
  simp [ArrayPtr.read, List.getElem?_eq_getElem h]

theorem read_none (i : Nat) :
    ArrayPtr.read ({ raw_ptr_ := none } : ArrayPtr T) i = .error Fault.undefined := rfl

theorem write_some (b : List T) (i : Nat) (x : T) (h : i < b.length) :
    ArrayPtr.write { raw_ptr_ := some b } i x = .ok { raw_ptr_ := some (b.set i x) } := by
  simp [ArrayPtr.write, h]

theorem write_none (i : Nat) (x : T) :
    ArrayPtr.write ({ raw_ptr_ := none } : ArrayPtr T) i x = .error Fault.undefined := rfl

theorem write_out (b : List T) (i : Nat) (x : T) (h : b.length ≤ i) :
    ArrayPtr.write { raw_ptr_ := some b } i x = .error Fault.undefined := by
  simp [ArrayPtr.write, Nat.not_lt.mpr h]

theorem copy_loop_spec (s : List T) : ∀ (n first : Nat) (b : List T) (d : Nat),
    first + n ≤ s.length → d + n ≤ b.length →
    ∃ b1, copy_loop { raw_ptr_ := some s } n first { raw_ptr_ := some b } d
        = .ok { raw_ptr_ := some b1 } ∧ b1.length = b.length ∧
      ∀ i, b1[i]? = if d ≤ i ∧ i < d + n then s[first + (i - d)]? else b[i]?
  | 0, first, b, d, _, _ => ⟨b, rfl, rfl, fun i => by
      have : ¬ (d ≤ i ∧ i < d + 0) := by omega
      rw [if_neg this]⟩
  | n + 1, first, b, d, hs, hb => by
    have hf : first < s.length := by omega
    have hd : d < b.length := by omega
    obtain ⟨b1, h1, h2, h3⟩ := copy_loop_spec s n (first + 1) (b.set d s[first]) (d + 1)
      (by omega) (by simp; omega)
    refine ⟨b1, ?_, by simpa using h2, fun i => ?_⟩
    · simp only [copy_loop, read_some s first hf, write_some b d _ hd]
      exact h1
    · rw [h3 i, List.getElem?_set]
      by_cases hi : d = i
      · subst hi
        simp [hd, List.getElem?_eq_getElem hf]
      · by_cases h4 : d + 1 ≤ i ∧ i < d + 1 + n
        · have h5 : d ≤ i ∧ i < d + (n + 1) := by omega
          have h6 : first + 1 + (i - (d + 1)) = first + (i - d) := by omega
          simp [h4, h5, h6]
        · have h5 : ¬ (d ≤ i ∧ i < d + (n + 1)) := by omega
          simp [h4, h5, hi]

theorem move_loop_spec : ∀ (n : Nat) (b : List T) (first d : Nat),
    d ≤ first → first + n ≤ b.length →
    ∃ b1, move_loop n { raw_ptr_ := some b } first d = .ok { raw_ptr_ := some b1 } ∧
      b1.length = b.length ∧
      ∀ i, b1[i]? = if d ≤ i ∧ i < d + n then b[first + (i - d)]? else b[i]?
  | 0, b, first, d, _, _ => ⟨b, rfl, rfl, fun i => by
      have : ¬ (d ≤ i ∧ i < d + 0) := by omega
      rw [if_neg this]⟩
  | n + 1, b, first, d, hdf, hb => by
    have hf : first < b.length := by omega
    have hd : d < b.length := by omega
    obtain ⟨b1, h1, h2, h3⟩ := move_loop_spec n (b.set d b[first]) (first + 1) (d + 1)
      (by omega) (by simp; omega)
    refine ⟨b1, ?_, by simpa using h2, fun i => ?_⟩
    · simp only [move_loop, read_some b first hf, write_some b d _ hd]
      exact h1
    · rw [h3 i]
      by_cases hi : d = i
      · subst hi
        have h4 : ¬ (d + 1 ≤ d ∧ d < d + 1 + n) := by omega
        have h5 : d ≤ d ∧ d < d + (n + 1) := by omega
        simp [h4, h5, hd, List.getElem?_eq_getElem hf]
      · by_cases h4 : d + 1 ≤ i ∧ i < d + 1 + n
        · have h5 : d ≤ i ∧ i < d + (n + 1) := by omega
          have h6 : first + 1 + (i - (d + 1)) = first + (i - d) := by omega
          have h7 : d ≠ first + (i - d) := by omega
          rw [if_pos h4, if_pos h5, h6, List.getElem?_set_ne h7]
        · have h5 : ¬ (d ≤ i ∧ i < d + (n + 1)) := by omega
          rw [if_neg h4, if_neg h5, List.getElem?_set_ne hi]

theorem copy_backward_loop_spec : ∀ (n : Nat) (b : List T) (last d_last : Nat),
    n ≤ last → last ≤ d_last → d_last ≤ b.length →
    ∃ b1, copy_backward_loop n { raw_ptr_ := some b } last d_last
        = .ok { raw_ptr_ := some b1 } ∧ b1.length = b.length ∧
      ∀ i, b1[i]? = if d_last - n ≤ i ∧ i < d_last then b[i - (d_last - last)]? else b[i]?
  | 0, b, last, d_last, _, _, _ => ⟨b, rfl, rfl, fun i => by
      have : ¬ (d_last - 0 ≤ i ∧ i < d_last) := by omega
      rw [if_neg this]⟩
  | n + 1, b, last, d_last, hn, hl, hb => by
    have hf : last - 1 < b.length := by omega
    have hd : d_last - 1 < b.length := by omega
    have h0 : ¬ (last = 0 ∨ d_last = 0) := by omega
    obtain ⟨b1, h1, h2, h3⟩ := copy_backward_loop_spec n (b.set (d_last - 1) b[last - 1])
      (last - 1) (d_last - 1) (by omega) (by omega) (by simp; omega)
    refine ⟨b1, ?_, by simpa using h2, fun i => ?_⟩
    · simp only [copy_backward_loop, if_neg h0, read_some b _ hf, write_some b _ _ hd]
      exact h1
    · rw [h3 i]
      by_cases hi : d_last - 1 = i
      · subst hi
        have h4 : ¬ (d_last - 1 - n ≤ d_last - 1 ∧ d_last - 1 < d_last - 1) := by omega
        have h5 : d_last - (n + 1) ≤ d_last - 1 ∧ d_last - 1 < d_last := by omega
        have h6 : d_last - 1 - (d_last - last) = last - 1 := by omega
        simp [h4, h5, h6, hd, List.getElem?_eq_getElem hf]
      · by_cases h4 : d_last - 1 - n ≤ i ∧ i < d_last - 1
        · have h5 : d_last - (n + 1) ≤ i ∧ i < d_last := by omega
          have h6 : i - (d_last - 1 - (last - 1)) = i - (d_last - last) := by omega
          have h7 : d_last - 1 ≠ i - (d_last - last) := by omega
          rw [if_pos h4, if_pos h5, h6, List.getElem?_set_ne h7]
        · have h5 : ¬ (d_last - (n + 1) ≤ i ∧ i < d_last) := by omega
          rw [if_neg h4, if_neg h5, List.getElem?_set_ne hi]

theorem shift_loop_eq : ∀ (n : Nat) (a : ArrayPtr T) (p : Nat),
    shift_loop n a p = copy_backward_loop n a p (p + 1)
  | 0, _, _ => rfl
  | n + 1, a, p => by
    by_cases hp : p = 0
    · simp [shift_loop, copy_backward_loop, hp]
    · have h1 : p - 1 + 1 = p := by omega
      simp only [shift_loop, copy_backward_loop, if_neg hp, Nat.add_sub_cancel,
        Nat.add_one_ne_zero, or_false]
      congr 1
      funext x
      congr 1
      funext a1
      rw [shift_loop_eq n a1 (p - 1), h1]

theorem generate_loop_spec [Inhabited T] : ∀ (n : Nat) (b : List T) (first : Nat),
    first + n ≤ b.length →
    ∃ b1, generate_loop n { raw_ptr_ := some b } first = .ok { raw_ptr_ := some b1 } ∧
      b1.length = b.length ∧
      ∀ i, b1[i]? = if first ≤ i ∧ i < first + n then some default else b[i]?
  | 0, b, first, _ => ⟨b, rfl, rfl, fun i => by
      have : ¬ (first ≤ i ∧ i < first + 0) := by omega
      rw [if_neg this]⟩
  | n + 1, b, first, hb => by
    have hf : first < b.length := by omega
    obtain ⟨b1, h1, h2, h3⟩ := generate_loop_spec n (b.set first default) (first + 1)
      (by simp; omega)
    refine ⟨b1, ?_, by simpa using h2, fun i => ?_⟩
    · simp only [generate_loop, write_some b first _ hf]
      exact h1
    · rw [h3 i]
      by_cases hi : first = i
      · subst hi
        have h4 : ¬ (first + 1 ≤ first ∧ first < first + 1 + n) := by omega
        have h5 : first ≤ first ∧ first < first + (n + 1) := by omega
        simp [h4, h5, hf]
      · by_cases h4 : first + 1 ≤ i ∧ i < first + 1 + n
        · have h5 : first ≤ i ∧ i < first + (n + 1) := by omega
          rw [if_pos h4, if_pos h5]
        · have h5 : ¬ (first ≤ i ∧ i < first + (n + 1)) := by omega
          rw [if_neg h4, if_neg h5, List.getElem?_set_ne hi]

theorem fill_loop_spec (value : T) : ∀ (n : Nat) (b : List T) (first : Nat),
    first + n ≤ b.length →
    ∃ b1, SimpleVector.fill_loop value n { raw_ptr_ := some b } first
        = .ok { raw_ptr_ := some b1 } ∧ b1.length = b.length ∧
      ∀ i, b1[i]? = if first ≤ i ∧ i < first + n then some value else b[i]?
  | 0, b, first, _ => ⟨b, rfl, rfl, fun i => by
      have : ¬ (first ≤ i ∧ i < first + 0) := by omega
      rw [if_neg this]⟩
  | n + 1, b, first, hb => by
    have hf : first < b.length := by omega
    obtain ⟨b1, h1, h2, h3⟩ := fill_loop_spec value n (b.set first value) (first + 1)
      (by simp; omega)
    refine ⟨b1, ?_, by simpa using h2, fun i => ?_⟩
    · simp only [SimpleVector.fill_loop, write_some b first _ hf]
      exact h1
    · rw [h3 i]
      by_cases hi : first = i
      · subst hi
        have h4 : ¬ (first + 1 ≤ first ∧ first < first + 1 + n) := by omega
        have h5 : first ≤ first ∧ first < first + (n + 1) := by omega
        simp [h4, h5, hf]
      · by_cases h4 : first + 1 ≤ i ∧ i < first + 1 + n
        · have h5 : first ≤ i ∧ i < first + (n + 1) := by omega
          rw [if_pos h4, if_pos h5]
        · have h5 : ¬ (first ≤ i ∧ i < first + (n + 1)) := by omega
          rw [if_neg h4, if_neg h5, List.getElem?_set_ne hi]


theorem slots_eq_length (a : ArrayPtr T) : a.slots = a.cells.length := by
  cases a with
  | mk r => cases r <;> rfl

theorem elems_eq_take (v : SimpleVector T) : v.elems = v.array_ptr_.cells.take v.size_ := by
  rcases v with ⟨⟨r⟩, s, c⟩
  cases r <;> simp [SimpleVector.elems, ArrayPtr.cells]

theorem elems_getElem? (v : SimpleVector T) (i : Nat) :
    v.elems[i]? = if i < v.size_ then v.array_ptr_.cells[i]? else none := by
  rw [elems_eq_take, List.getElem?_take]

theorem elems_length (v : SimpleVector T) (h : v.size_ ≤ v.array_ptr_.slots) :
    v.elems.length = v.size_ := by
  rw [elems_eq_take, List.length_take, ← slots_eq_length]
  omega

/-- A vector satisfying the invariant either holds the null buffer with
`size_ = capacity_ = 0`, or a block of exactly `capacity_ > 0` slots. -/
theorem Inv_cases (v : SimpleVector T) (h : v.Inv) :
    (v.array_ptr_.raw_ptr_ = none ∧ v.size_ = 0 ∧ v.capacity_ = 0) ∨
    (∃ b, v.array_ptr_.raw_ptr_ = some b ∧ b.length = v.capacity_ ∧ 0 < v.capacity_) := by
  rcases v with ⟨⟨r⟩, s, c⟩
  obtain ⟨h1, h2, h3, h4⟩ := h
  cases r with
  | none =>
    left
    simp only [ArrayPtr.slots] at h2
    simp only at h1
    subst h2
    exact ⟨rfl, Nat.le_zero.mp h1, rfl⟩
  | some b =>
    right
    simp only [ArrayPtr.slots] at h2
    refine ⟨b, rfl, h2, ?_⟩
    rcases Nat.eq_zero_or_pos c with hc | hc
    · have := h3 hc
      simp at this
    · exact hc

theorem std_copy_zero (src dst : ArrayPtr T) (first d : Nat) :
    std_copy src first first dst d = .ok dst := by
  simp [std_copy, copy_loop]

theorem std_copy_spec (src : ArrayPtr T) (first last : Nat) (b : List T) (d : Nat)
    (h1 : first ≤ last) (h2 : last ≤ src.slots) (h3 : d + (last - first) ≤ b.length) :
    ∃ b1, std_copy src first last { raw_ptr_ := some b } d = .ok { raw_ptr_ := some b1 } ∧
      b1.length = b.length ∧
      ∀ i, b1[i]? = if d ≤ i ∧ i < d + (last - first) then src.cells[first + (i - d)]?
        else b[i]? := by
  rcases src with ⟨r⟩
  cases r with
  | none =>
    simp only [ArrayPtr.slots] at h2
    have hl : last = first := by omega
    subst hl
    refine ⟨b, std_copy_zero _ _ _ _, rfl, fun i => ?_⟩
    have : ¬ (d ≤ i ∧ i < d + (last - last)) := by omega
    rw [if_neg this]
  | some s =>
    simp only [ArrayPtr.slots] at h2
    obtain ⟨b1, e1, e2, e3⟩ := copy_loop_spec s (last - first) first b d (by omega) h3
    refine ⟨b1, ?_, e2, e3⟩
    simp only [std_copy, if_neg (Nat.not_lt.mpr h1)]
    exact e1

@[simp]
theorem fresh_block_length [Fresh T] (n : Nat) : (fresh_block n : List T).length = n := by
  simp [fresh_block]

theorem getElem?_fresh_block [Fresh T] (n i : Nat) :
    (fresh_block n : List T)[i]? = if i < n then some (Fresh.junk i) else none := by
  by_cases h : i < n
  · simp [fresh_block, h, List.getElem?_range h]
  · simp [fresh_block, h]
    omega

theorem ctor_size_some [Fresh T] (n : Nat) (h : 0 < n) :
    (ArrayPtr.ctor_size n : ArrayPtr T) = { raw_ptr_ := some (fresh_block n) } := by
  simp [ArrayPtr.ctor_size, Nat.pos_iff_ne_zero.mp h]

theorem Reserve_grow [Inhabited T] [Fresh T] (v : SimpleVector T) (n : Nat) (h : v.Inv)
    (hn : v.capacity_ < n) :
    ∃ b1, v.Reserve n = .ok (SimpleVector.mk (ArrayPtr.mk (some b1)) v.size_ n) ∧
      b1.length = n ∧
      ∀ i, b1[i]? = if i < v.size_ then v.array_ptr_.cells[i]?
        else if i < n then some (Fresh.junk i) else none := by
  obtain ⟨h1, h2, h3, h4⟩ := h
  obtain ⟨b1, e1, e2, e3⟩ := std_copy_spec v.array_ptr_ 0 v.size_ (fresh_block n) 0
    (Nat.zero_le _) (by omega) (by simp; omega)
  refine ⟨b1, ?_, by simpa using e2, fun i => ?_⟩
  · simp only [SimpleVector.Reserve, gt_iff_lt, if_pos hn, ctor_size_some n (by omega),
      SimpleVector.begin_, SimpleVector.end_, e1, ArrayPtr.swap]
    rfl
  · rw [e3 i]
    by_cases hi : i < v.size_
    · have : 0 ≤ i ∧ i < 0 + (v.size_ - 0) := by omega
      simp [this, hi]
    · have : ¬ (0 ≤ i ∧ i < 0 + (v.size_ - 0)) := by omega
      rw [if_neg this, if_neg hi, getElem?_fresh_block]

theorem Reserve_noop [Inhabited T] [Fresh T] (v : SimpleVector T) (n : Nat) (hn : n ≤ v.capacity_) :
    v.Reserve n = .ok v := by
  simp [SimpleVector.Reserve, Nat.not_lt.mpr hn]

theorem ok_bind {α β : Type} (a : α) (f : α → Res β) : (Except.ok a >>= f) = f a := rfl

theorem error_bind {α β : Type} (e : Fault) (f : α → Res β) :
    ((Except.error e : Res α) >>= f) = Except.error e := rfl

theorem wrap_of_lt (n : Nat) (h : n < SIZE_MOD) : wrap n = n := Nat.mod_eq_of_lt h

theorem wrap_le (n : Nat) : wrap n ≤ n := Nat.mod_le _ _

theorem wrap_lt (n : Nat) : wrap n < SIZE_MOD := Nat.mod_lt _ (by decide)

/-- Appending one element, read off slots. -/
theorem elems_push (v r : SimpleVector T) (x : T) (hsz : r.size_ = v.size_ + 1)
    (hv : v.size_ ≤ v.array_ptr_.slots)
    (h : ∀ i, i < v.size_ → r.array_ptr_.cells[i]? = v.array_ptr_.cells[i]?)
    (hx : r.array_ptr_.cells[v.size_]? = some x) : r.elems = v.elems ++ [x] := by
  apply List.ext_getElem?
  intro i
  rw [elems_getElem?, List.getElem?_append, elems_length v hv, elems_getElem?, hsz]
  by_cases h1 : i < v.size_
  · have h2 : i < v.size_ + 1 := by omega
    rw [if_pos h1, if_pos h2, if_pos h1, h i h1]
  · rw [if_neg h1]
    by_cases h2 : i = v.size_
    · subst h2
      simp [hx]
    · have h3 : ¬ i < v.size_ + 1 := by omega
      have h4 : 1 ≤ i - v.size_ := by omega
      rw [if_neg h3]
      symm
      apply List.getElem?_eq_none
      simpa using h4

theorem PushBack_copy_eq_move [Inhabited T] [Fresh T] (v : SimpleVector T) (x : T)
    (hc : v.capacity_ ≠ 0) : v.PushBack_copy x = v.PushBack_move x := by
  simp [PushBack_copy, PushBack_move, hc]

theorem PushBack_copy_null [Inhabited T] [Fresh T] (v : SimpleVector T) (x : T) (h : v.Inv)
    (hc : v.capacity_ = 0) : v.PushBack_copy x = .error Fault.undefined := by
  rcases Inv_cases v h with ⟨h1, h2, h3⟩ | ⟨b, h1, h2, h3⟩
  · rcases v with ⟨⟨r⟩, s, c⟩
    simp only at h1 h2 h3
    subst h1 h2 h3
    rfl
  · omega

theorem PushBack_move_seed [Inhabited T] [Fresh T] (v : SimpleVector T) (x : T) (h : v.Inv)
    (hc : v.capacity_ = 0) :
    v.PushBack_move x
      = .ok (SimpleVector.mk (ArrayPtr.mk (some ((fresh_block 10).set 0 x))) 1 10) := by
  rcases Inv_cases v h with ⟨h1, h2, h3⟩ | ⟨b, h1, h2, h3⟩
  · rcases v with ⟨⟨r⟩, s, c⟩
    simp only at h1 h2 h3
    subst h1 h2 h3
    rfl
  · omega

theorem PushBack_move_room [Inhabited T] [Fresh T] (b : List T) (s c : Nat) (x : T)
    (hs : s < c) (hb : b.length = c) (hc : c < SIZE_MOD) :
    (SimpleVector.mk (ArrayPtr.mk (some b)) s c).PushBack_move x
      = .ok (SimpleVector.mk (ArrayPtr.mk (some (b.set s x))) (s + 1) c) := by
  have hc0 : c ≠ 0 := by omega
  by_cases h0 : s = 0
  · subst h0
    simp [PushBack_move, SimpleVector.IsEmpty, hc0, write_some b 0 x (by omega), ok_bind]
  · have hw : wrap (s + 1) = s + 1 := wrap_of_lt _ (by omega)
    simp [PushBack_move, SimpleVector.IsEmpty, h0, hs, write_some b s x (by omega), hw, ok_bind]

theorem PushBack_move_full [Inhabited T] [Fresh T] (b : List T) (c : Nat) (x : T)
    (hb : b.length = c) (hc : 0 < c) (hfit : 2 * c < SIZE_MOD) :
    ∃ b1, (SimpleVector.mk (ArrayPtr.mk (some b)) c c).PushBack_move x
        = .ok (SimpleVector.mk (ArrayPtr.mk (some b1)) (c + 1) (2 * c)) ∧
      b1.length = 2 * c ∧
      ∀ i, b1[i]? = if i < c then b[i]? else if i = c then some x
        else if i < 2 * c then some (Fresh.junk i) else none := by
  have hw1 : wrap (c * 2) = 2 * c := by rw [Nat.mul_comm]; exact wrap_of_lt _ hfit
  have hw2 : wrap (c + 1) = c + 1 := wrap_of_lt _ (by omega)
  obtain ⟨b1, e1, e2, e3⟩ := std_copy_spec (ArrayPtr.mk (some b)) 0 c
    (fresh_block (2 * c)) 0 (Nat.zero_le _) (by simp [ArrayPtr.slots, hb])
    (by simp; omega)
  refine ⟨b1.set c x, ?_, by simp [e2], fun i => ?_⟩
  · have hc0 : c ≠ 0 := by omega
    simp [PushBack_move, SimpleVector.IsEmpty, hc0, hw1, hw2,
      ctor_size_some (2 * c) (by omega), e1, ArrayPtr.swap, ok_bind,
      write_some b1 c x (by rw [e2]; simp; omega)]
  · rw [List.getElem?_set, e3 i]
    by_cases h1 : c = i
    · subst h1
      simp [e2]
      omega
    · by_cases h2 : i < c
      · have : 0 ≤ i ∧ i < 0 + (c - 0) := by omega
        simp [h1, h2, this, ArrayPtr.cells]
      · have : ¬ (0 ≤ i ∧ i < 0 + (c - 0)) := by omega
        have h3 : ¬ i = c := fun h => h1 h.symm
        rw [if_neg h1, if_neg this, if_neg h2, if_neg h3, getElem?_fresh_block]

theorem Inv_mk_some (b : List T) (s c : Nat) (h1 : s ≤ c) (h2 : b.length = c) (h3 : 0 < c)
    (h4 : c < SIZE_MOD) : (SimpleVector.mk (ArrayPtr.mk (some b)) s c).Inv :=
  ⟨h1, h2, fun h => by simp only at h; omega, h4⟩

theorem Inv_size_le_slots (v : SimpleVector T) (h : v.Inv) : v.size_ ≤ v.array_ptr_.slots := by
  obtain ⟨h1, h2, _, _⟩ := h
  omega

/-- Behaviour of `PushBack(Type&&)` on a vector satisfying the invariant whose
doubled capacity, if needed, is representable. -/
theorem PushBack_move_spec [Inhabited T] [Fresh T] (v : SimpleVector T) (x : T) (h : v.Inv)
    (hfit : v.size_ = v.capacity_ → 2 * v.capacity_ < SIZE_MOD) :
    ∃ r, v.PushBack_move x = .ok r ∧ r.size_ = v.size_ + 1 ∧
      r.capacity_ = (if v.capacity_ = 0 then 10
        else if v.size_ = v.capacity_ then 2 * v.capacity_ else v.capacity_) ∧
      r.elems = v.elems ++ [x] ∧ r.Inv := by
  have hsl := Inv_size_le_slots v h
  rcases Inv_cases v h with ⟨h1, h2, h3⟩ | ⟨b, h1, h2, h3⟩
  · refine ⟨_, PushBack_move_seed v x h h3, ?_, ?_, ?_, ?_⟩
    · simp [h2]
    · simp [h3]
    · apply elems_push v _ x (by simp [h2]) hsl
      · intro i hi
        omega
      · rw [h2]
        rfl
    · exact Inv_mk_some _ _ _ (by omega) (by simp) (by omega) (by decide)
  · rcases v with ⟨⟨r⟩, s, c⟩
    simp only at h1 h2 h3 hfit hsl
    subst h1
    have hc0 : c ≠ 0 := by omega
    have hsc : s ≤ c := h.1
    have hcm : c < SIZE_MOD := h.2.2.2
    by_cases hs : s < c
    · refine ⟨_, PushBack_move_room b s c x hs h2 hcm, rfl, ?_, ?_, ?_⟩
      · have : s ≠ c := by omega
        simp [hc0, this]
      · apply elems_push _ _ x rfl hsl
        · intro i hi
          have : s ≠ i := by simp only at hi; omega
          simp [ArrayPtr.cells, List.getElem?_set_ne this]
        · simp only [ArrayPtr.cells]
          rw [List.getElem?_set]
          simp
          omega
      · exact Inv_mk_some _ _ _ (by omega) (by simpa using h2) h3 hcm
    · have hsc2 : s = c := by omega
      subst hsc2
      obtain ⟨b1, e1, e2, e3⟩ := PushBack_move_full b s x h2 h3 (hfit rfl)
      refine ⟨_, e1, rfl, ?_, ?_, ?_⟩
      · simp [hc0]
      · apply elems_push _ _ x rfl hsl
        · intro i hi
          simp only at hi
          simp [ArrayPtr.cells, e3 i, hi]
        · simp [ArrayPtr.cells, e3 s]
      · exact Inv_mk_some _ _ _ (by omega) e2 (by omega) (hfit rfl)

/-- Behaviour of `PushBack(const Type&)` on a vector with a nonzero capacity. -/
theorem PushBack_copy_spec [Inhabited T] [Fresh T] (v : SimpleVector T) (x : T) (h : v.Inv)
    (hc : v.capacity_ ≠ 0) (hfit : v.size_ = v.capacity_ → 2 * v.capacity_ < SIZE_MOD) :
    ∃ r, v.PushBack_copy x = .ok r ∧ r.size_ = v.size_ + 1 ∧
      r.capacity_ = (if v.size_ = v.capacity_ then 2 * v.capacity_ else v.capacity_) ∧
      r.elems = v.elems ++ [x] ∧ r.Inv := by
  obtain ⟨r, e1, e2, e3, e4, e5⟩ := PushBack_move_spec v x h hfit
  rw [if_neg hc] at e3
  exact ⟨r, by rw [PushBack_copy_eq_move v x hc]; exact e1, e2, e3, e4, e5⟩

theorem ctor_size_slots [Inhabited T] [Fresh T] (n : Nat) :
    (ArrayPtr.ctor_size n : ArrayPtr T).slots = n := by
  by_cases h : n = 0
  · subst h
    rfl
  · simp [ArrayPtr.ctor_size, h, ArrayPtr.slots]

theorem write_ok_slots (a r : ArrayPtr T) (i : Nat) (x : T) (h : a.write i x = .ok r) :
    i < a.slots ∧ r.slots = a.slots := by
  rcases a with ⟨p⟩
  cases p with
  | none => simp [ArrayPtr.write] at h
  | some b =>
    by_cases hi : i < b.length
    · rw [write_some b i x hi] at h
      injection h with h
      subst h
      simp [ArrayPtr.slots, hi]
    · rw [write_out b i x (by omega)] at h
      simp at h

theorem copy_loop_ok_slots (src : ArrayPtr T) : ∀ (n first : Nat) (dst : ArrayPtr T) (d : Nat)
    (r : ArrayPtr T), copy_loop src n first dst d = .ok r →
    (n = 0 ∨ d + n ≤ dst.slots) ∧ r.slots = dst.slots
  | 0, _, dst, _, r, h => by
    simp only [copy_loop] at h
    injection h with h
    subst h
    exact ⟨Or.inl rfl, rfl⟩
  | n + 1, first, dst, d, r, h => by
    simp only [copy_loop] at h
    cases hr : src.read first with
    | error e => rw [hr, error_bind] at h; simp at h
    | ok x =>
      rw [hr, ok_bind] at h
      cases hw : dst.write d x with
      | error e => rw [hw, error_bind] at h; simp at h
      | ok dst1 =>
        rw [hw, ok_bind] at h
        obtain ⟨w1, w2⟩ := write_ok_slots dst dst1 d x hw
        obtain ⟨c1, c2⟩ := copy_loop_ok_slots src n (first + 1) dst1 (d + 1) r h
        refine ⟨Or.inr ?_, by omega⟩
        rcases c1 with c1 | c1
        · omega
        · omega

theorem std_copy_ok_slots (src : ArrayPtr T) (first last : Nat) (dst : ArrayPtr T) (d : Nat)
    (r : ArrayPtr T) (h : std_copy src first last dst d = .ok r) :
    (last ≤ first ∨ d + (last - first) ≤ dst.slots) ∧ r.slots = dst.slots := by
  unfold std_copy at h
  by_cases hl : last < first
  · simp [hl] at h
  · rw [if_neg hl] at h
    obtain ⟨c1, c2⟩ := copy_loop_ok_slots src _ _ _ _ _ h
    exact ⟨by omega, c2⟩

/-- A successful `PushBack(Type&&)` on a full vector had a representable
doubled capacity. -/
theorem PushBack_move_ok_fit [Inhabited T] [Fresh T] (v : SimpleVector T) (x : T)
    (r : SimpleVector T)
    (h : v.Inv) (hr : v.PushBack_move x = .ok r) :
    v.size_ = v.capacity_ → 2 * v.capacity_ < SIZE_MOD := by
  intro hsc
  obtain ⟨h1, h2, h3, h4⟩ := h
  by_cases hc0 : v.capacity_ = 0
  · rw [hc0]; decide
  · have hs0 : v.size_ ≠ 0 := by omega
    simp only [PushBack_move, SimpleVector.IsEmpty, beq_iff_eq, hs0, if_false, hsc,
      lt_self_iff_false, hc0] at hr
    cases hcp : std_copy v.array_ptr_ 0 (0 + v.capacity_)
        (ArrayPtr.ctor_size (wrap (v.capacity_ * 2))) 0 with
    | error e => rw [hcp, error_bind] at hr; simp at hr
    | ok t =>
      rw [hcp, ok_bind] at hr
      cases hw : t.write v.capacity_ x with
      | error e => rw [hw, error_bind] at hr; simp at hr
      | ok t1 =>
        obtain ⟨w1, _⟩ := write_ok_slots t t1 _ x hw
        obtain ⟨_, c2⟩ := std_copy_ok_slots _ _ _ _ _ _ hcp
        rw [c2, ctor_size_slots] at w1
        simp only [wrap, SIZE_MOD] at w1 h4 ⊢
        omega

theorem PushBack_move_ok_Inv [Inhabited T] [Fresh T] (v : SimpleVector T) (x : T)
    (r : SimpleVector T)
    (h : v.Inv) (hr : v.PushBack_move x = .ok r) : r.Inv := by
  obtain ⟨r1, e1, _, _, _, e5⟩ := PushBack_move_spec v x h (PushBack_move_ok_fit v x r h hr)
  rw [hr] at e1
  injection e1 with e1
  rw [e1]
  exact e5

theorem PushBack_copy_ok_Inv [Inhabited T] [Fresh T] (v : SimpleVector T) (x : T)
    (r : SimpleVector T)
    (h : v.Inv) (hr : v.PushBack_copy x = .ok r) : r.Inv := by
  by_cases hc : v.capacity_ = 0
  · rw [PushBack_copy_null v x h hc] at hr
    simp at hr
  · rw [PushBack_copy_eq_move v x hc] at hr
    exact PushBack_move_ok_Inv v x r h hr

/-- Inserting one element at offset `pos`, read off slots. -/
theorem elems_insert (v r : SimpleVector T) (pos : Nat) (x : T) (hsz : r.size_ = v.size_ + 1)
    (hv : v.size_ ≤ v.array_ptr_.slots) (hp : pos ≤ v.size_)
    (h1 : ∀ i, i < pos → r.array_ptr_.cells[i]? = v.array_ptr_.cells[i]?)
    (hx : r.array_ptr_.cells[pos]? = some x)
    (h2 : ∀ i, pos < i → i ≤ v.size_ → r.array_ptr_.cells[i]? = v.array_ptr_.cells[i - 1]?) :
    r.elems = v.elems.take pos ++ [x] ++ v.elems.drop pos := by
  have hlen := elems_length v hv
  apply List.ext_getElem?
  intro i
  rw [elems_getElem?, hsz, List.append_assoc, List.getElem?_append, List.length_take, hlen,
    Nat.min_eq_left hp, List.getElem?_take]
  by_cases c1 : i < pos
  · have c2 : i < v.size_ + 1 := by omega
    have c3 : i < v.size_ := by omega
    rw [if_pos c1, if_pos c1, if_pos c2, h1 i c1, elems_getElem?, if_pos c3]
  · rw [if_neg c1]
    by_cases c2 : i = pos
    · subst c2
      have c3 : i < v.size_ + 1 := by omega
      rw [if_pos c3, hx]
      simp
    · have c3 : i - pos = (i - pos - 1) + 1 := by omega
      rw [c3, List.singleton_append, List.getElem?_cons_succ, List.getElem?_drop,
        elems_getElem?]
      have c4 : pos + (i - pos - 1) = i - 1 := by omega
      rw [c4]
      by_cases c5 : i < v.size_ + 1
      · have c6 : i - 1 < v.size_ := by omega
        rw [if_pos c5, if_pos c6, h2 i (by omega) (by omega)]
      · have c6 : ¬ i - 1 < v.size_ := by omega
        rw [if_neg c5, if_neg c6]

/-- Removing the element at offset `pos`, read off slots. -/
theorem elems_erase (v r : SimpleVector T) (pos : Nat) (hsz : r.size_ + 1 = v.size_)
    (hv : v.size_ ≤ v.array_ptr_.slots) (hp : pos < v.size_)
    (h1 : ∀ i, i < pos → r.array_ptr_.cells[i]? = v.array_ptr_.cells[i]?)
    (h2 : ∀ i, pos ≤ i → i < r.size_ → r.array_ptr_.cells[i]? = v.array_ptr_.cells[i + 1]?) :
    r.elems = v.elems.take pos ++ v.elems.drop (pos + 1) := by
  have hlen := elems_length v hv
  apply List.ext_getElem?
  intro i
  rw [elems_getElem?, List.getElem?_append, List.length_take, hlen,
    Nat.min_eq_left (Nat.le_of_lt hp), List.getElem?_take]
  by_cases c1 : i < pos
  · have c2 : i < r.size_ := by omega
    have c3 : i < v.size_ := by omega
    rw [if_pos c1, if_pos c1, if_pos c2, h1 i c1, elems_getElem?, if_pos c3]
  · rw [if_neg c1, List.getElem?_drop, elems_getElem?]
    have c4 : pos + 1 + (i - pos) = i + 1 := by omega
    rw [c4]
    by_cases c5 : i < r.size_
    · have c6 : i + 1 < v.size_ := by omega
      rw [if_pos c5, if_pos c6, h2 i (by omega) c5]
    · have c6 : ¬ i + 1 < v.size_ := by omega
      rw [if_neg c5, if_neg c6]

theorem std_move_within_spec (b : List T) (first last d : Nat) (h1 : first ≤ last)
    (h2 : last ≤ b.length) (h3 : d ≤ first) :
    ∃ b1, std_move_within { raw_ptr_ := some b } first last d = .ok { raw_ptr_ := some b1 } ∧
      b1.length = b.length ∧
      ∀ i, b1[i]? = if d ≤ i ∧ i < d + (last - first) then b[first + (i - d)]? else b[i]? := by
  obtain ⟨b1, e1, e2, e3⟩ := move_loop_spec (last - first) b first d h3 (by omega)
  refine ⟨b1, ?_, e2, e3⟩
  simp only [std_move_within, if_neg (Nat.not_lt.mpr h1)]
  exact e1

theorem std_copy_backward_spec (b : List T) (first last d_last : Nat) (h1 : first ≤ last)
    (h2 : last ≤ d_last) (h3 : d_last ≤ b.length) :
    ∃ b1, std_copy_backward { raw_ptr_ := some b } first last d_last
        = .ok { raw_ptr_ := some b1 } ∧ b1.length = b.length ∧
      ∀ i, b1[i]? = if d_last - (last - first) ≤ i ∧ i < d_last then b[i - (d_last - last)]?
        else b[i]? := by
  obtain ⟨b1, e1, e2, e3⟩ := copy_backward_loop_spec (last - first) b last d_last (by omega) h2 h3
  refine ⟨b1, ?_, e2, e3⟩
  simp only [std_copy_backward, if_neg (Nat.not_lt.mpr h1)]
  exact e1

theorem std_generate_spec [Inhabited T] (b : List T) (first last : Nat) (h1 : first ≤ last)
    (h2 : last ≤ b.length) :
    ∃ b1, std_generate { raw_ptr_ := some b } first last = .ok { raw_ptr_ := some b1 } ∧
      b1.length = b.length ∧
      ∀ i, b1[i]? = if first ≤ i ∧ i < last then some default else b[i]? := by
  obtain ⟨b1, e1, e2, e3⟩ := generate_loop_spec (last - first) b first (by omega)
  refine ⟨b1, ?_, e2, fun i => ?_⟩
  · simp only [std_generate, if_neg (Nat.not_lt.mpr h1)]
    exact e1
  · rw [e3 i]
    have : first + (last - first) = last := by omega
    rw [this]

theorem assert_true (ndebug : Bool) (c : Bool) (h : c = true) : assert_ ndebug c = .ok () := by
  subst h
  cases ndebug <;> rfl

theorem wrap_pred (s : Nat) (h1 : 0 < s) (h2 : s < SIZE_MOD) :
    wrap (s + SIZE_MOD - 1) = s - 1 := by
  simp only [wrap, SIZE_MOD] at *
  omega

/-- Behaviour of `Erase` at a position inside the vector. -/
theorem Erase_spec (ndebug : Bool) (v : SimpleVector T) (pos : Nat) (h : v.Inv)
    (hp : pos < v.size_) :
    ∃ r, v.Erase ndebug pos = .ok (pos, r) ∧ r.size_ + 1 = v.size_ ∧
      r.capacity_ = v.capacity_ ∧
      r.elems = v.elems.take pos ++ v.elems.drop (pos + 1) ∧
      (∀ i, pos ≤ i → i < r.size_ → r.array_ptr_.cells[i]? = v.array_ptr_.cells[i + 1]?) ∧
      r.Inv := by
  have hsl := Inv_size_le_slots v h
  rcases Inv_cases v h with ⟨h1, h2, h3⟩ | ⟨b, h1, h2, h3⟩
  · omega
  · rcases v with ⟨⟨p⟩, s, c⟩
    simp only at h1 h2 h3 hp hsl
    subst h1
    have hsc : s ≤ c := h.1
    have hcm : c < SIZE_MOD := h.2.2.2
    obtain ⟨b1, e1, e2, e3⟩ := std_move_within_spec b (pos + 1) s pos (by omega) (by omega)
      (by omega)
    have ha : assert_ ndebug (decide (pos ≥ 0 ∧ pos < s)) = .ok () :=
      assert_true _ _ (by simp [hp])
    have hw : wrap (s + SIZE_MOD - 1) = s - 1 := wrap_pred s (by omega) (by omega)
    have hcell1 : ∀ i, i < pos → b1[i]? = b[i]? := by
      intro i hi
      have : ¬ (pos ≤ i ∧ i < pos + (s - (pos + 1))) := by omega
      rw [e3 i, if_neg this]
    have hcell2 : ∀ i, pos ≤ i → i < s - 1 → b1[i]? = b[i + 1]? := by
      intro i hi1 hi2
      have c1 : pos ≤ i ∧ i < pos + (s - (pos + 1)) := by omega
      have c2 : pos + 1 + (i - pos) = i + 1 := by omega
      rw [e3 i, if_pos c1, c2]
    refine ⟨SimpleVector.mk (ArrayPtr.mk (some b1)) (s - 1) c, ?_, ?_, rfl, ?_, ?_, ?_⟩
    · simp only [SimpleVector.Erase, SimpleVector.begin_, SimpleVector.end_, ha, ok_bind, e1, hw]
    · simp only
      omega
    · apply elems_erase _ _ pos (by simp only; omega) hsl hp
      · exact hcell1
      · exact hcell2
    · exact hcell2
    · exact Inv_mk_some _ _ _ (by omega) (by omega) h3 hcm

/-- `SimpleVector(size_t size)` returns: `std::generate` stays inside the fresh
block and sets every slot of it to `Type()`. -/
theorem SimpleVector_ctor_size_eq [Inhabited T] [Fresh T] (n : Nat) :
    (SimpleVector.ctor_size n : Res (SimpleVector T))
      = .ok (SimpleVector.mk
          (ArrayPtr.mk (if n = 0 then none else some (List.replicate n default))) n n) := by
  by_cases h : n = 0
  · subst h
    rfl
  · have hn : 0 < n := Nat.pos_of_ne_zero h
    obtain ⟨b1, e1, e2, e3⟩ := std_generate_spec (fresh_block n : List T) 0 (0 + n)
      (Nat.zero_le _) (by simp)
    have hb : b1 = List.replicate n default := by
      apply List.ext_getElem?
      intro i
      rw [e3 i, List.getElem?_replicate, getElem?_fresh_block]
      by_cases hi : i < n
      · have : 0 ≤ i ∧ i < 0 + n := by omega
        rw [if_pos this, if_pos hi]
      · have : ¬ (0 ≤ i ∧ i < 0 + n) := by omega
        rw [if_neg this, if_neg hi, if_neg hi]
    subst hb
    simp only [SimpleVector.ctor_size, ctor_size_some n hn, e1, ok_bind, if_neg h]

theorem value_block_slots [Inhabited T] (n : Nat) :
    (ArrayPtr.mk (if n = 0 then none else some (List.replicate n (default : T)))).slots = n := by
  by_cases h : n = 0
  · subst h
    rfl
  · simp [ArrayPtr.slots, h]

theorem value_block_none [Inhabited T] (n : Nat) (h : n = 0) :
    (ArrayPtr.mk (if n = 0 then none else some (List.replicate n (default : T)))).raw_ptr_
      = none := by
  subst h
  rfl

theorem value_block_cells [Inhabited T] (n : Nat) :
    (ArrayPtr.mk (if n = 0 then none else some (List.replicate n (default : T)))).cells
      = List.replicate n default := by
  by_cases h : n = 0
  · subst h
    rfl
  · simp [ArrayPtr.cells, h]

theorem Insert_copy_eq_move [Inhabited T] [Fresh T] (ndebug : Bool) (v : SimpleVector T) (pos : Nat)
    (value : Ref T) (h : pos = v.size_ → v.capacity_ ≠ 0) :
    v.Insert_copy ndebug pos value = v.Insert_move ndebug pos value := by
  unfold SimpleVector.Insert_copy SimpleVector.Insert_move
  by_cases hp : pos = v.end_
  · simp only [if_pos hp]
    cases hg : value.get v.array_ptr_ with
    | error e => simp only [error_bind]
    | ok x =>
      simp only [ok_bind]
      rw [PushBack_copy_eq_move v x (h hp)]
  · simp only [if_neg hp, std_copy_backward, shift_loop_eq]
    by_cases hl : v.end_ < pos
    · simp only [if_pos hl, error_bind]
    · simp only [if_neg hl]

/-- `Insert(pos, Type&&)` strictly inside a vector that has room. -/
theorem Insert_move_room [Inhabited T] [Fresh T] (ndebug : Bool) (b : List T) (s c pos : Nat)
    (x : T)
    (hp : pos < s) (hs : s < c) (hb : b.length = c) (hc : c < SIZE_MOD) :
    ∃ b1, (SimpleVector.mk (ArrayPtr.mk (some b)) s c).Insert_move ndebug pos (Ref.outside x)
        = .ok (pos, SimpleVector.mk (ArrayPtr.mk (some b1)) (s + 1) c) ∧ b1.length = c ∧
      ∀ i, b1[i]? = if i = pos then some x else if pos < i ∧ i ≤ s then b[i - 1]?
        else b[i]? := by
  obtain ⟨b1, e1, e2, e3⟩ := copy_backward_loop_spec (s - pos) b s (s + 1) (by omega) (by omega)
    (by omega)
  have ha : assert_ ndebug (decide (pos ≥ 0 ∧ pos ≤ s)) = .ok () :=
    assert_true _ _ (by simp; omega)
  have hw : wrap (s + 1) = s + 1 := wrap_of_lt _ (by omega)
  have hne : pos ≠ s := by omega
  have hnl : ¬ s < pos := by omega
  refine ⟨b1.set pos x, ?_, by simp [e2, hb], fun i => ?_⟩
  · simp only [SimpleVector.Insert_move, SimpleVector.begin_, SimpleVector.end_, ha, ok_bind,
      if_neg hne, if_pos hs, if_neg hnl, shift_loop_eq, e1, hw, Ref.get,
      write_some b1 pos x (by omega)]
  · rw [List.getElem?_set, e3 i]
    by_cases c1 : pos = i
    · subst c1
      simp
      omega
    · have c2 : ¬ i = pos := fun h => c1 h.symm
      rw [if_neg c1, if_neg c2]
      by_cases c3 : pos < i ∧ i ≤ s
      · have c4 : s + 1 - (s - pos) ≤ i ∧ i < s + 1 := by omega
        have c5 : i - (s + 1 - s) = i - 1 := by omega
        rw [if_pos c3, if_pos c4, c5]
      · have c4 : ¬ (s + 1 - (s - pos) ≤ i ∧ i < s + 1) := by omega
        rw [if_neg c3, if_neg c4]

/-- `Insert(pos, Type&&)` strictly inside a full vector. -/
theorem Insert_move_full [Inhabited T] [Fresh T] (ndebug : Bool) (b : List T) (c pos : Nat) (x : T)
    (hp : pos < c) (hb : b.length = c) (hfit : 2 * c < SIZE_MOD) :
    ∃ b1, (SimpleVector.mk (ArrayPtr.mk (some b)) c c).Insert_move ndebug pos (Ref.outside x)
        = .ok (pos, SimpleVector.mk (ArrayPtr.mk (some b1)) (c + 1) (2 * c)) ∧
      b1.length = 2 * c ∧
      ∀ i, b1[i]? = if i = pos then some x else if i < pos then b[i]?
        else if i ≤ c then b[i - 1]? else if i < 2 * c then some default else none := by
  have ha : assert_ ndebug (decide (pos ≥ 0 ∧ pos ≤ c)) = .ok () :=
    assert_true _ _ (by simp; omega)
  have hw1 : wrap (2 * c) = 2 * c := wrap_of_lt _ hfit
  have hw2 : wrap (c + 1) = c + 1 := wrap_of_lt _ (by omega)
  have hne : pos ≠ c := by omega
  obtain ⟨b1, e1, e2, e3⟩ := std_copy_spec (ArrayPtr.mk (some b)) 0 pos
    (List.replicate (2 * c) default) 0 (Nat.zero_le _) (by simp [ArrayPtr.slots]; omega)
    (by simp; omega)
  have h2c : ¬ (2 * c = 0) := by omega
  obtain ⟨b2, f1, f2, f3⟩ := std_copy_spec (ArrayPtr.mk (some b)) pos c b1 (pos + 1)
    (by omega) (by simp [ArrayPtr.slots]; omega) (by rw [e2]; simp; omega)
  have hl2 : b2.length = 2 * c := by rw [f2, e2]; simp
  refine ⟨b2.set pos x, ?_, by simp [hl2], fun i => ?_⟩
  · simp only [SimpleVector.Insert_move, SimpleVector.begin_, SimpleVector.end_, ha, ok_bind,
      if_neg hne, lt_self_iff_false, if_false, hw1, hw2, SimpleVector_ctor_size_eq,
      if_neg h2c, e1, f1, ArrayPtr.swap, Nat.sub_zero, Nat.zero_add, Ref.get,
      write_some b2 pos x (by omega)]
  · rw [List.getElem?_set, f3 i, e3 i]
    simp only [ArrayPtr.cells, Nat.sub_zero, Nat.zero_add, Nat.zero_le, true_and]
    by_cases c1 : pos = i
    · subst c1
      simp
      omega
    · have c2 : ¬ i = pos := fun h => c1 h.symm
      rw [if_neg c1, if_neg c2]
      by_cases c3 : i < pos
      · have c4 : ¬ (pos + 1 ≤ i ∧ i < pos + 1 + (c - pos)) := by omega
        simp only [if_neg c4, if_pos c3]
      · by_cases c5 : i ≤ c
        · have c4 : pos + 1 ≤ i ∧ i < pos + 1 + (c - pos) := by omega
          have c6 : pos + (i - (pos + 1)) = i - 1 := by omega
          simp only [if_pos c4, if_pos c5, if_neg c3, c6]
        · have c4 : ¬ (pos + 1 ≤ i ∧ i < pos + 1 + (c - pos)) := by omega
          simp only [if_neg c4, if_neg c3, if_neg c5, List.getElem?_replicate]

/-- Behaviour of `Insert(pos, Type&&)` at a position strictly inside the vector. -/
theorem Insert_move_spec [Inhabited T] [Fresh T] (ndebug : Bool) (v : SimpleVector T) (pos : Nat)
    (x : T)
    (h : v.Inv) (hp : pos < v.size_)
    (hfit : v.size_ = v.capacity_ → 2 * v.capacity_ < SIZE_MOD) :
    ∃ r, v.Insert_move ndebug pos (Ref.outside x) = .ok (pos, r) ∧ r.size_ = v.size_ + 1 ∧
      r.capacity_ = (if v.size_ = v.capacity_ then 2 * v.capacity_ else v.capacity_) ∧
      r.elems = v.elems.take pos ++ [x] ++ v.elems.drop pos ∧
      r.array_ptr_.cells[pos]? = some x ∧ r.Inv := by
  have hsl := Inv_size_le_slots v h
  rcases Inv_cases v h with ⟨h1, h2, h3⟩ | ⟨b, h1, h2, h3⟩
  · omega
  · rcases v with ⟨⟨p⟩, s, c⟩
    simp only at h1 h2 h3 hp hsl hfit
    subst h1
    have hsc : s ≤ c := h.1
    have hcm : c < SIZE_MOD := h.2.2.2
    by_cases hs : s < c
    · obtain ⟨b1, e1, e2, e3⟩ := Insert_move_room ndebug b s c pos x hp hs h2 hcm
      have hne : s ≠ c := by omega
      refine ⟨_, e1, rfl, by simp [hne], ?_, ?_, ?_⟩
      · apply elems_insert _ _ pos x rfl hsl (by simp only; omega)
        · intro i hi
          have c1 : ¬ i = pos := by omega
          have c2 : ¬ (pos < i ∧ i ≤ s) := by omega
          simp only [ArrayPtr.cells, e3 i, if_neg c1, if_neg c2]
        · simp only [ArrayPtr.cells, e3 pos, if_true]
        · intro i hi1 hi2
          have c1 : ¬ i = pos := by omega
          have c2 : pos < i ∧ i ≤ s := ⟨hi1, hi2⟩
          simp only [ArrayPtr.cells, e3 i, if_neg c1, if_pos c2]
      · simp only [ArrayPtr.cells, e3 pos, if_true]
      · exact Inv_mk_some _ _ _ (by omega) e2 h3 hcm
    · have hsc2 : s = c := by omega
      subst hsc2
      obtain ⟨b1, e1, e2, e3⟩ := Insert_move_full ndebug b s pos x hp h2 (hfit rfl)
      refine ⟨_, e1, rfl, by simp, ?_, ?_, ?_⟩
      · apply elems_insert _ _ pos x rfl hsl (by simp only; omega)
        · intro i hi
          have c1 : ¬ i = pos := by omega
          simp only [ArrayPtr.cells, e3 i, if_neg c1, if_pos hi]
        · simp only [ArrayPtr.cells, e3 pos, if_true]
        · intro i hi1 hi2
          have c1 : ¬ i = pos := by omega
          have c2 : ¬ i < pos := by omega
          simp only at hi2
          simp only [ArrayPtr.cells, e3 i, if_neg c1, if_neg c2, if_pos hi2]
      · simp only [ArrayPtr.cells, e3 pos, if_true]
      · exact Inv_mk_some _ _ _ (by omega) e2 (by omega) (hfit rfl)

/-- `Insert(end(), Type&&)` is `PushBack(Type&&)` followed by `end() - 1`. -/
theorem Insert_move_end [Inhabited T] [Fresh T] (ndebug : Bool) (v : SimpleVector T) (x : T) :
    v.Insert_move ndebug v.size_ (Ref.outside x) = (do
      let v1 ← v.PushBack_move x
      if v1.size_ = 0 then .error Fault.undefined else .ok (v1.size_ - 1, v1)) := by
  have ha : assert_ ndebug (decide (v.size_ ≥ v.begin_ ∧ v.size_ ≤ v.end_)) = .ok () :=
    assert_true _ _ (by simp [SimpleVector.begin_, SimpleVector.end_])
  unfold SimpleVector.Insert_move
  rw [ha, ok_bind]
  simp only [SimpleVector.end_, if_true, Ref.get, ok_bind]

/-- A successful `Insert(pos, Type&&)` on a full vector had a representable
doubled capacity. -/
theorem Insert_move_ok_fit [Inhabited T] [Fresh T] (ndebug : Bool) (v : SimpleVector T) (pos : Nat)
    (x : T) (r : Nat × SimpleVector T) (h : v.Inv) (hp : pos ≤ v.size_)
    (hr : v.Insert_move ndebug pos (Ref.outside x) = .ok r) :
    v.size_ = v.capacity_ → 2 * v.capacity_ < SIZE_MOD := by
  intro hsc
  by_cases hpe : pos = v.size_
  · subst hpe
    rw [Insert_move_end] at hr
    cases hpb : v.PushBack_move x with
    | error e => rw [hpb, error_bind] at hr; simp at hr
    | ok v1 => exact PushBack_move_ok_fit v x v1 h hpb hsc
  · obtain ⟨h1, h2, h3, h4⟩ := h
    have ha : assert_ ndebug (decide (pos ≥ v.begin_ ∧ pos ≤ v.end_)) = .ok () :=
      assert_true _ _ (by simp [SimpleVector.begin_, SimpleVector.end_, hp])
    have hnl : ¬ v.size_ < v.capacity_ := by omega
    unfold SimpleVector.Insert_move at hr
    rw [ha, ok_bind] at hr
    simp only [ok_bind, SimpleVector.end_, if_neg hpe,
      if_neg hnl, SimpleVector_ctor_size_eq, SimpleVector.begin_, Nat.sub_zero,
      Nat.zero_add] at hr
    cases hc1 : std_copy v.array_ptr_ 0 pos
        (ArrayPtr.mk (if wrap (2 * v.capacity_) = 0 then none
          else some (List.replicate (wrap (2 * v.capacity_)) default))) 0 with
    | error e => rw [hc1, error_bind] at hr; simp at hr
    | ok t =>
      rw [hc1, ok_bind] at hr
      obtain ⟨_, c2⟩ := std_copy_ok_slots _ _ _ _ _ _ hc1
      cases hc2 : std_copy v.array_ptr_ pos v.size_ t (pos + 1) with
      | error e => rw [hc2, error_bind] at hr; simp at hr
      | ok t2 =>
        obtain ⟨d1, _⟩ := std_copy_ok_slots _ _ _ _ _ _ hc2
        rw [c2, value_block_slots] at d1
        simp only [wrap, SIZE_MOD] at d1 h4 ⊢
        omega

theorem Insert_move_ok_Inv [Inhabited T] [Fresh T] (ndebug : Bool) (v : SimpleVector T) (pos : Nat)
    (x : T) (r : Nat × SimpleVector T) (h : v.Inv) (hp : pos ≤ v.size_)
    (hr : v.Insert_move ndebug pos (Ref.outside x) = .ok r) : r.2.Inv := by
  have hfit := Insert_move_ok_fit ndebug v pos x r h hp hr
  by_cases hpe : pos = v.size_
  · subst hpe
    rw [Insert_move_end] at hr
    obtain ⟨r1, e1, e2, _, _, e5⟩ := PushBack_move_spec v x h hfit
    have hne : r1.size_ ≠ 0 := by omega
    rw [e1, ok_bind, if_neg hne] at hr
    injection hr with hr
    rw [← hr]
    exact e5
  · obtain ⟨r1, e1, _, _, _, _, e5⟩ := Insert_move_spec ndebug v pos x h (by omega) hfit
    rw [e1] at hr
    injection hr with hr
    rw [← hr]
    exact e5

theorem Insert_copy_ok_Inv [Inhabited T] [Fresh T] (ndebug : Bool) (v : SimpleVector T) (pos : Nat)
    (x : T) (r : Nat × SimpleVector T) (h : v.Inv) (hp : pos ≤ v.size_)
    (hr : v.Insert_copy ndebug pos (Ref.outside x) = .ok r) : r.2.Inv := by
  by_cases hc : pos = v.size_ ∧ v.capacity_ = 0
  · obtain ⟨hc1, hc2⟩ := hc
    subst hc1
    have ha : assert_ ndebug (decide (v.size_ ≥ v.begin_ ∧ v.size_ ≤ v.end_)) = .ok () :=
      assert_true _ _ (by simp [SimpleVector.begin_, SimpleVector.end_])
    unfold SimpleVector.Insert_copy at hr
    rw [ha, ok_bind] at hr
    simp only [SimpleVector.end_, if_true, Ref.get, ok_bind, PushBack_copy_null v x h hc2,
      error_bind] at hr
    simp at hr
  · rw [Insert_copy_eq_move ndebug v pos (Ref.outside x) (fun h1 h2 => hc ⟨h1, h2⟩)] at hr
    exact Insert_move_ok_Inv ndebug v pos x r h hp hr

theorem Inv_mk_none (T : Type) : (SimpleVector.mk (ArrayPtr.mk (none : Option (List T))) 0 0).Inv :=
  ⟨Nat.le_refl _, rfl, fun _ => rfl, by simp only [SIZE_MOD]; omega⟩

/-- Behaviour of `Reserve` on a vector satisfying the invariant. -/
theorem Reserve_spec [Inhabited T] [Fresh T] (v : SimpleVector T) (n : Nat) (h : v.Inv) :
    ∃ r, v.Reserve n = .ok r ∧ r.size_ = v.size_ ∧ r.elems = v.elems ∧
      (v.capacity_ < n → r.capacity_ = n) ∧ (n ≤ v.capacity_ → r = v) ∧
      (n < SIZE_MOD → r.Inv) := by
  by_cases hn : v.capacity_ < n
  · obtain ⟨b1, e1, e2, e3⟩ := Reserve_grow v n h hn
    refine ⟨_, e1, rfl, ?_, fun _ => rfl, fun h1 => by omega, fun h1 => ?_⟩
    · apply List.ext_getElem?
      intro i
      rw [elems_getElem?, elems_getElem?]
      by_cases hi : i < v.size_
      · simp only [if_pos hi, ArrayPtr.cells, e3 i]
      · simp only [if_neg hi]
    · exact Inv_mk_some _ _ _ (by have := h.1; omega) e2 (by omega) h1
  · have hn1 : n ≤ v.capacity_ := by omega
    exact ⟨v, Reserve_noop v n hn1, rfl, rfl, fun h1 => by omega, fun _ => rfl, fun _ => h⟩

/-- Behaviour of `Resize` on a vector satisfying the invariant. -/
theorem Resize_spec [Inhabited T] [Fresh T] (v : SimpleVector T) (n : Nat) (h : v.Inv) :
    ∃ r, v.Resize n = .ok r ∧ r.size_ = n ∧ r.capacity_ = max v.capacity_ n ∧
      (∀ i, i < v.size_ → i < n → r.array_ptr_.cells[i]? = v.array_ptr_.cells[i]?) ∧
      (∀ i, v.size_ ≤ i → i < n → r.array_ptr_.cells[i]? = some default) ∧
      n ≤ r.array_ptr_.slots ∧ (n < SIZE_MOD → r.Inv) := by
  have hsl := Inv_size_le_slots v h
  obtain ⟨g1, g2, g3, g4⟩ := h
  by_cases hn : n > v.size_
  · by_cases hc : n ≤ v.capacity_
    · rcases Inv_cases v ⟨g1, g2, g3, g4⟩ with ⟨h1, h2, h3⟩ | ⟨b, h1, h2, h3⟩
      · omega
      · rcases v with ⟨⟨p⟩, s, c⟩
        simp only at h1 h2 h3 hn hc hsl g1 g4
        subst h1
        obtain ⟨b1, e1, e2, e3⟩ := std_generate_spec b s n (by omega) (by omega)
        refine ⟨SimpleVector.mk (ArrayPtr.mk (some b1)) n c, ?_, rfl, ?_, ?_, ?_, ?_, ?_⟩
        · simp only [SimpleVector.Resize, gt_iff_lt, if_pos hn, if_pos hc, SimpleVector.end_,
            e1, ok_bind]
        · simp only
          omega
        · intro i hi1 hi2
          have c1 : ¬ (s ≤ i ∧ i < n) := by simp only at hi1; omega
          simp only [ArrayPtr.cells, e3 i, if_neg c1]
        · intro i hi1 hi2
          have c1 : s ≤ i ∧ i < n := ⟨hi1, hi2⟩
          simp only [ArrayPtr.cells, e3 i, if_pos c1]
        · simp only [ArrayPtr.slots]
          omega
        · intro _
          exact Inv_mk_some _ _ _ hc (by omega) h3 g4
    · have hc1 : v.capacity_ < n := by omega
      obtain ⟨b0, d1, d2, d3⟩ := Reserve_grow v n ⟨g1, g2, g3, g4⟩ hc1
      obtain ⟨b1, e1, e2, e3⟩ := std_generate_spec b0 v.size_ n (by omega) (by omega)
      refine ⟨SimpleVector.mk (ArrayPtr.mk (some b1)) n n, ?_, rfl, ?_, ?_, ?_, ?_, ?_⟩
      · simp only [SimpleVector.Resize, gt_iff_lt, if_pos hn, if_neg hc, d1, ok_bind,
          SimpleVector.end_, e1]
      · simp only
        omega
      · intro i hi1 hi2
        have c1 : ¬ (v.size_ ≤ i ∧ i < n) := by omega
        simp only [ArrayPtr.cells, e3 i, if_neg c1, d3 i, if_pos hi1]
      · intro i hi1 hi2
        have c1 : v.size_ ≤ i ∧ i < n := ⟨hi1, hi2⟩
        simp only [ArrayPtr.cells, e3 i, if_pos c1]
      · simp only [ArrayPtr.slots]
        omega
      · intro h1
        exact Inv_mk_some _ _ _ (Nat.le_refl _) (by omega) (by omega) h1
  · have hn1 : n ≤ v.size_ := by omega
    refine ⟨{ v with size_ := n }, ?_, rfl, ?_, ?_, ?_, ?_, ?_⟩
    · simp only [SimpleVector.Resize, gt_iff_lt, if_neg hn, ok_bind]
    · simp only
      omega
    · intro i _ _
      rfl
    · intro i hi1 hi2
      omega
    · simp only
      omega
    · intro _
      exact ⟨by simp only; omega, g2, g3, g4⟩

theorem ctor_size_zero_none [Inhabited T] [Fresh T] (n : Nat) (h : n = 0) :
    (ArrayPtr.ctor_size n : ArrayPtr T).raw_ptr_ = none := by
  subst h
  rfl

/-- Copying the first `n` slots of a block into a block of exactly `n` slots. -/
theorem std_copy_into_full (src dst : ArrayPtr T) (n : Nat) (h : n ≤ src.slots)
    (hd : dst.slots = n) (hz : n = 0 → dst.raw_ptr_ = none) :
    ∃ a, std_copy src 0 n dst 0 = .ok a ∧ a.slots = n ∧
      (n = 0 → a.raw_ptr_ = none) ∧ ∀ i, i < n → a.cells[i]? = src.cells[i]? := by
  by_cases hn : n = 0
  · subst hn
    exact ⟨_, std_copy_zero _ _ _ _, hd, hz, fun i hi => by omega⟩
  · rcases dst with ⟨p⟩
    cases p with
    | none =>
      simp only [ArrayPtr.slots] at hd
      omega
    | some b =>
      simp only [ArrayPtr.slots] at hd
      obtain ⟨b1, e1, e2, e3⟩ := std_copy_spec src 0 n b 0 (Nat.zero_le _) h (by omega)
      refine ⟨_, e1, by simp only [ArrayPtr.slots]; omega, fun h0 => absurd h0 hn,
        fun i hi => ?_⟩
      have c1 : 0 ≤ i ∧ i < 0 + (n - 0) := by omega
      have c2 : (ArrayPtr.mk (some b1)).cells = b1 := rfl
      rw [c2, e3 i, if_pos c1, Nat.sub_zero, Nat.zero_add]

/-- Copying the first `n` slots of a block into a fresh block of `n` slots. -/
theorem std_copy_into_fresh [Inhabited T] [Fresh T] (src : ArrayPtr T) (n : Nat)
    (h : n ≤ src.slots) :
    ∃ a, std_copy src 0 n (ArrayPtr.ctor_size n) 0 = .ok a ∧ a.slots = n ∧
      (n = 0 → a.raw_ptr_ = none) ∧ ∀ i, i < n → a.cells[i]? = src.cells[i]? :=
  std_copy_into_full src _ n h (ctor_size_slots n) (ctor_size_zero_none n)

theorem Inv_of_slots (a : ArrayPtr T) (n : Nat) (h1 : a.slots = n) (h2 : n = 0 → a.raw_ptr_ = none)
    (h3 : n < SIZE_MOD) : (SimpleVector.mk a n n).Inv :=
  ⟨Nat.le_refl _, h1, h2, h3⟩

theorem elems_full (a : ArrayPtr T) (n c : Nat) (h : a.slots ≤ n) :
    (SimpleVector.mk a n c).elems = a.cells := by
  rw [elems_eq_take]
  apply List.take_of_length_le
  rw [← slots_eq_length]
  exact h

theorem swap_eq (v other : SimpleVector T) : v.swap other = (other, v) := rfl

/-- `SimpleVector(size_t size, const Type& value)` returns a block of `size`
copies of `value`. -/
theorem ctor_size_value_spec [Inhabited T] [Fresh T] (n : Nat) (x : T) :
    ∃ a, (SimpleVector.ctor_size_value n x : Res (SimpleVector T)) = .ok (SimpleVector.mk a n n) ∧
      a.slots = n ∧ (n = 0 → a.raw_ptr_ = none) ∧ a.cells = List.replicate n x := by
  by_cases hn : n = 0
  · subst hn
    exact ⟨_, rfl, rfl, fun _ => rfl, rfl⟩
  · obtain ⟨b1, e1, e2, e3⟩ := fill_loop_spec x n (fresh_block n : List T) 0 (by simp)
    refine ⟨ArrayPtr.mk (some b1), ?_, by simpa [ArrayPtr.slots] using e2,
      fun h0 => absurd h0 hn, ?_⟩
    · simp only [SimpleVector.ctor_size_value, ctor_size_some n (by omega), e1, ok_bind]
    · apply List.ext_getElem?
      intro i
      simp only [ArrayPtr.cells, e3 i, List.getElem?_replicate, Nat.zero_le, true_and,
        Nat.zero_add]
      by_cases hi : i < n
      · simp only [if_pos hi]
      · simp only [if_neg hi, getElem?_fresh_block]

/-- `SimpleVector(std::initializer_list<Type> init)` returns a block holding
the list. -/
theorem ctor_init_spec [Inhabited T] [Fresh T] (init : List T) :
    ∃ a, (SimpleVector.ctor_init init : Res (SimpleVector T))
        = .ok (SimpleVector.mk a init.length init.length) ∧
      a.slots = init.length ∧ (init.length = 0 → a.raw_ptr_ = none) ∧ a.cells = init := by
  obtain ⟨a, e1, e2, e3, e4⟩ := std_copy_into_fresh (ArrayPtr.mk (some init)) init.length
    (Nat.le_refl _)
  refine ⟨a, ?_, e2, e3, ?_⟩
  · simp only [SimpleVector.ctor_init, e1, ok_bind]
  · apply List.ext_getElem?
    intro i
    by_cases hi : i < init.length
    · rw [e4 i hi]
      rfl
    · rw [List.getElem?_eq_none (by rw [← slots_eq_length]; omega),
        List.getElem?_eq_none (by omega)]

/-- `SimpleVector(const SimpleVector& other)` returns a vector of size and
capacity `other.size_` holding the elements of `other`. -/
theorem ctor_copy_spec [Inhabited T] [Fresh T] (other : SimpleVector T) (h : other.Inv) :
    ∃ a, SimpleVector.ctor_copy other = .ok (SimpleVector.mk a other.size_ other.size_) ∧
      a.slots = other.size_ ∧ (other.size_ = 0 → a.raw_ptr_ = none) ∧
      a.cells = other.elems := by
  have hsl := Inv_size_le_slots other h
  by_cases hs : other.size_ = 0
  · refine ⟨ArrayPtr.mk none, ?_, by rw [hs]; rfl, fun _ => rfl, ?_⟩
    · simp only [SimpleVector.ctor_copy, SimpleVector.IsEmpty, hs, beq_self_eq_true,
        Bool.not_true, Bool.false_eq_true, if_false]
      rfl
    · rw [elems_eq_take, hs]
      rfl
  · obtain ⟨a, e1, e2, e3, e4⟩ := std_copy_into_full other.array_ptr_ _ other.size_ hsl
      (value_block_slots other.size_) (value_block_none other.size_)
    refine ⟨a, ?_, e2, e3, ?_⟩
    · have hb : (!other.size_ == 0) = true := by simp [hs]
      simp only [if_neg hs] at e1
      simp only [SimpleVector.ctor_copy, SimpleVector.IsEmpty, hb, if_true,
        SimpleVector_ctor_size_eq, ok_bind, SimpleVector.begin_, SimpleVector.end_, if_neg hs,
        e1, swap_eq]
    · apply List.ext_getElem?
      intro i
      rw [elems_getElem?]
      by_cases hi : i < other.size_
      · rw [if_pos hi, e4 i hi]
      · rw [if_neg hi, List.getElem?_eq_none (by rw [← slots_eq_length]; omega)]

theorem assign_copy_eq [Inhabited T] [Fresh T] (v rhs : SimpleVector T) :
    v.assign_copy rhs = SimpleVector.ctor_copy rhs := by
  unfold SimpleVector.assign_copy
  cases SimpleVector.ctor_copy rhs with
  | error e => rfl
  | ok t => rfl

/-- `operator=(SimpleVector&&)` returns: the left-hand side gets a fresh block
of `rhs.size_` slots holding the elements of `rhs`, and `rhs` keeps its buffer
and capacity with size zero. -/
theorem assign_move_spec [Inhabited T] [Fresh T] (v rhs : SimpleVector T) (h : rhs.Inv) :
    ∃ a, v.assign_move rhs
        = .ok (SimpleVector.mk a rhs.size_ rhs.size_, { rhs with size_ := 0 }) ∧
      a.slots = rhs.size_ ∧ (rhs.size_ = 0 → a.raw_ptr_ = none) ∧ a.cells = rhs.elems := by
  have hsl := Inv_size_le_slots rhs h
  obtain ⟨a, e1, e2, e3, e4⟩ := std_copy_into_fresh rhs.array_ptr_ rhs.size_ hsl
  refine ⟨a, ?_, e2, e3, ?_⟩
  · simp only [SimpleVector.assign_move, ArrayPtr.Release, SimpleVector.begin_,
      SimpleVector.end_, e1, ok_bind, ArrayPtr.swap]
  · apply List.ext_getElem?
    intro i
    rw [elems_getElem?]
    by_cases hi : i < rhs.size_
    · rw [if_pos hi, e4 i hi]
    · rw [if_neg hi, List.getElem?_eq_none (by rw [← slots_eq_length]; omega)]

theorem PopBack_ndebug (v : SimpleVector T) :
    v.PopBack true = .ok { v with size_ := wrap (v.size_ + SIZE_MOD - 1) } := rfl

theorem PopBack_debug_nonempty (v : SimpleVector T) (h : v.size_ ≠ 0) :
    v.PopBack false = .error Fault.assertion := by
  simp [SimpleVector.PopBack, SimpleVector.IsEmpty, assert_, h, error_bind]

theorem PopBack_debug_empty (v : SimpleVector T) (h : v.size_ = 0) :
    v.PopBack false = .ok { v with size_ := SIZE_MOD - 1 } := by
  simp [SimpleVector.PopBack, SimpleVector.IsEmpty, assert_, h, ok_bind]
  rfl

theorem read_of_cells (a : ArrayPtr T) (i : Nat) (x : T) (h : a.cells[i]? = some x) :
    a.read i = .ok x := by
  rcases a with ⟨p⟩
  cases p with
  | none => simp [ArrayPtr.cells] at h
  | some b =>
    simp only [ArrayPtr.cells] at h
    simp [ArrayPtr.read, h]

theorem read_in_slots (a : ArrayPtr T) (i : Nat) (h : i < a.slots) :
    ∃ x, a.read i = .ok x ∧ a.cells[i]? = some x := by
  rw [slots_eq_length] at h
  exact ⟨a.cells[i], read_of_cells a i _ (List.getElem?_eq_getElem h), List.getElem?_eq_getElem h⟩

theorem read_ne_out_of_range (a : ArrayPtr T) (i : Nat) :
    a.read i ≠ .error Fault.out_of_range := by
  rcases a with ⟨p⟩
  cases p with
  | none => simp [ArrayPtr.read]
  | some b =>
    cases h : b[i]? with
    | none => simp [ArrayPtr.read, h]
    | some x => simp [ArrayPtr.read, h]

theorem take_insert_drop_erase (e : List T) (p : Nat) (x : T) (hp : p ≤ e.length) :
    (e.take p ++ [x] ++ e.drop p).take p ++ (e.take p ++ [x] ++ e.drop p).drop (p + 1) = e := by
  have h1 : (e.take p).length = p := by simp [hp]
  have h2 : (e.take p ++ [x] ++ e.drop p).take p = e.take p := by
    rw [List.append_assoc, List.take_append_of_le_length (by omega),
      List.take_of_length_le (by omega)]
  have h3 : (e.take p ++ [x] ++ e.drop p).drop (p + 1) = e.drop p := by
    have : (e.take p ++ [x]).length = p + 1 := by simp [h1]
    rw [← this, List.drop_left]
  rw [h2, h3, List.take_append_drop]

/-- Round trip of `Insert(pos, Type&&)` and `Erase(pos)` on a vector satisfying
the invariant whose doubled capacity, if needed, is representable. -/
theorem Insert_move_Erase_roundtrip [Inhabited T] [Fresh T] (nd : Bool) (v : SimpleVector T)
    (p : Nat)
    (x : T) (h : v.Inv) (hp : p ≤ v.size_)
    (hfit : v.size_ = v.capacity_ → 2 * v.capacity_ < SIZE_MOD) :
    ∃ it r1 r2, v.Insert_move nd p (Ref.outside x) = .ok (it, r1) ∧
      r1.Erase nd p = .ok (p, r2) ∧ it = p ∧
      r2.size_ = v.size_ ∧ r2.elems = v.elems := by
  have hsl := Inv_size_le_slots v h
  have hlen := elems_length v hsl
  have key : ∃ r1, v.Insert_move nd p (Ref.outside x) = .ok (p, r1) ∧ r1.size_ = v.size_ + 1 ∧
      r1.elems = v.elems.take p ++ [x] ++ v.elems.drop p ∧ r1.Inv := by
    by_cases hpe : p = v.size_
    · subst hpe
      obtain ⟨r1, e1, e2, _, e4, e5⟩ := PushBack_move_spec v x h hfit
      have hne : r1.size_ ≠ 0 := by omega
      refine ⟨r1, ?_, e2, ?_, e5⟩
      · rw [Insert_move_end, e1, ok_bind, if_neg hne, e2]
        rfl
      · rw [e4, List.take_of_length_le (by omega), List.drop_of_length_le (by omega)]
        simp
    · obtain ⟨r1, e1, e2, _, e4, _, e6⟩ := Insert_move_spec nd v p x h (by omega) hfit
      exact ⟨r1, e1, e2, e4, e6⟩
  obtain ⟨r1, e1, e2, e3, e4⟩ := key
  obtain ⟨r2, f1, f2, _, f4, _, _⟩ := Erase_spec nd r1 p e4 (by omega)
  refine ⟨p, r1, r2, e1, f1, rfl, by omega, ?_⟩
  rw [f4, e3]
  exact take_insert_drop_erase _ _ _ (by omega)

theorem read_cells (a : ArrayPtr T) (i : Nat) (h : i < a.cells.length) :
    a.read i = .ok a.cells[i] :=
  read_of_cells a i _ (List.getElem?_eq_getElem h)

theorem drop_take_succ (l : List T) (f n : Nat) (h : f < l.length) :
    (l.drop f).take (n + 1) = l[f] :: (l.drop (f + 1)).take n := by
  rw [List.drop_eq_getElem_cons h, List.take_succ_cons]

/-- The loop of `std::equal` computes the equality of the two ranges read as
sequences. -/
theorem equal_loop_spec (eqT : T → T → Bool) (a b : ArrayPtr T) : ∀ (n first1 first2 : Nat),
    first1 + n ≤ a.cells.length → first2 + n ≤ b.cells.length →
    equal_loop eqT a b n first1 first2
      = .ok (seq_equal eqT ((a.cells.drop first1).take n) ((b.cells.drop first2).take n))
  | 0, first1, first2, _, _ => by
    simp [equal_loop, seq_equal]
  | n + 1, first1, first2, h1, h2 => by
    have g1 : first1 < a.cells.length := by omega
    have g2 : first2 < b.cells.length := by omega
    rw [drop_take_succ _ _ _ g1, drop_take_succ _ _ _ g2]
    simp only [equal_loop, read_cells a first1 g1, read_cells b first2 g2, ok_bind, seq_equal]
    cases he : eqT a.cells[first1] b.cells[first2] with
    | false => simp
    | true =>
      simp only [Bool.not_true, Bool.false_eq_true, if_false, Bool.true_and]
      exact equal_loop_spec eqT a b n (first1 + 1) (first2 + 1) (by omega) (by omega)

/-- The loop of `std::lexicographical_compare` computes the lexicographic order
of the two ranges read as sequences. -/
theorem lexicographical_loop_spec (ltT : T → T → Bool) (a b : ArrayPtr T) :
    ∀ (n1 n2 first1 first2 : Nat),
    first1 + n1 ≤ a.cells.length → first2 + n2 ≤ b.cells.length →
    lexicographical_loop ltT a b n1 n2 first1 first2
      = .ok (seq_less ltT ((a.cells.drop first1).take n1) ((b.cells.drop first2).take n2))
  | 0, 0, first1, first2, _, _ => by
    simp [lexicographical_loop, seq_less]
  | 0, n2 + 1, first1, first2, _, h2 => by
    have g2 : first2 < b.cells.length := by omega
    rw [drop_take_succ _ _ _ g2]
    simp [lexicographical_loop, seq_less]
  | n1 + 1, 0, first1, first2, h1, _ => by
    have g1 : first1 < a.cells.length := by omega
    rw [drop_take_succ _ _ _ g1]
    simp [lexicographical_loop, seq_less]
  | n1 + 1, n2 + 1, first1, first2, h1, h2 => by
    have g1 : first1 < a.cells.length := by omega
    have g2 : first2 < b.cells.length := by omega
    rw [drop_take_succ _ _ _ g1, drop_take_succ _ _ _ g2]
    simp only [lexicographical_loop, read_cells a first1 g1, read_cells b first2 g2, ok_bind,
      seq_less]
    cases hl : ltT a.cells[first1] b.cells[first2] with
    | true => simp
    | false =>
      cases hg : ltT b.cells[first2] a.cells[first1] with
      | true => simp
      | false =>
        simp only [Bool.false_eq_true, if_false]
        exact lexicographical_loop_spec ltT a b n1 n2 (first1 + 1) (first2 + 1) (by omega)
          (by omega)

theorem seq_equal_length (eqT : T → T → Bool) : ∀ (l1 l2 : List T),
    seq_equal eqT l1 l2 = true → l1.length = l2.length
  | [], [], _ => rfl
  | [], _ :: _, h => by simp [seq_equal] at h
  | _ :: _, [], h => by simp [seq_equal] at h
  | x :: xs, y :: ys, h => by
    simp only [seq_equal, Bool.and_eq_true] at h
    simp [seq_equal_length eqT xs ys h.2]

/-- `operator==` returns the equality of the two logical sequences. -/
theorem op_eq_spec (eqT : T → T → Bool) (a b : SimpleVector T) (ha : a.Inv) (hb : b.Inv) :
    op_eq eqT a b = .ok (seq_equal eqT a.elems b.elems) := by
  have sa := Inv_size_le_slots a ha
  have sb := Inv_size_le_slots b hb
  rw [slots_eq_length] at sa sb
  by_cases hs : a.size_ = b.size_
  · simp only [op_eq, SimpleVector.GetSize, hs, if_true, std_equal, SimpleVector.begin_,
      SimpleVector.end_, Nat.not_lt_zero, if_false, Nat.sub_zero]
    rw [equal_loop_spec eqT _ _ b.size_ 0 0 (by omega) (by omega), elems_eq_take, elems_eq_take,
      hs]
    simp
  · simp only [op_eq, SimpleVector.GetSize, hs, if_false]
    cases he : seq_equal eqT a.elems b.elems with
    | false => rfl
    | true =>
      have := seq_equal_length eqT _ _ he
      rw [elems_length a (by rw [slots_eq_length]; exact sa),
        elems_length b (by rw [slots_eq_length]; exact sb)] at this
      exact absurd this hs

/-- `operator<` returns the lexicographic order of the two logical sequences. -/
theorem op_lt_spec (ltT : T → T → Bool) (a b : SimpleVector T) (ha : a.Inv) (hb : b.Inv) :
    op_lt ltT a b = .ok (seq_less ltT a.elems b.elems) := by
  have sa := Inv_size_le_slots a ha
  have sb := Inv_size_le_slots b hb
  rw [slots_eq_length] at sa sb
  have hn : ¬ (a.size_ < 0 ∨ b.size_ < 0) := by omega
  simp only [op_lt, std_lexicographical_compare, SimpleVector.begin_, SimpleVector.end_,
    if_neg hn, Nat.sub_zero]
  rw [lexicographical_loop_spec ltT _ _ a.size_ b.size_ 0 0 (by omega) (by omega),
    elems_eq_take, elems_eq_take]
  simp

/-- `seq_equal` in words: the lengths match and the elements at every common
index compare equal. -/
theorem seq_equal_iff (eqT : T → T → Bool) : ∀ (l1 l2 : List T),
    seq_equal eqT l1 l2 = true ↔
      l1.length = l2.length ∧
      ∀ (i : Nat) (x y : T), l1[i]? = some x → l2[i]? = some y → eqT x y = true
  | [], [] => by simp [seq_equal]
  | [], _ :: _ => by simp [seq_equal]
  | _ :: _, [] => by simp [seq_equal]
  | x :: xs, y :: ys => by
    simp only [seq_equal, Bool.and_eq_true, seq_equal_iff eqT xs ys, List.length_cons,
      Nat.add_right_cancel_iff]
    constructor
    · rintro ⟨h1, h2, h3⟩
      refine ⟨h2, fun i u w hu hw => ?_⟩
      cases i with
      | zero =>
        simp only [List.getElem?_cons_zero, Option.some.injEq] at hu hw
        subst hu hw
        exact h1
      | succ j =>
        simp only [List.getElem?_cons_succ] at hu hw
        exact h3 j u w hu hw
    · rintro ⟨h1, h2⟩
      refine ⟨h2 0 x y (by simp) (by simp), h1, fun i u w hu hw => ?_⟩
      exact h2 (i + 1) u w (by simpa using hu) (by simpa using hw)

/-- `seq_less` in words: after a common run of positions where neither element
is less than the other, either the first sequence ends and the second goes on,
or the element of the first sequence is less than that of the second. -/
theorem seq_less_iff (ltT : T → T → Bool) : ∀ (l1 l2 : List T),
    seq_less ltT l1 l2 = true ↔
      ∃ k, (∀ (i : Nat), i < k → ∃ (x y : T), l1[i]? = some x ∧ l2[i]? = some y ∧
              ltT x y = false ∧ ltT y x = false) ∧
        ((k = l1.length ∧ k < l2.length) ∨
          ∃ (x y : T), l1[k]? = some x ∧ l2[k]? = some y ∧ ltT x y = true)
  | [], [] => by
    simp only [seq_less, Bool.false_eq_true, false_iff, not_exists, not_and]
    intro k _ h
    rcases h with ⟨_, h⟩ | ⟨x, y, h, _⟩
    · simp at h
    · simp at h
  | [], y :: ys => by
    simp only [seq_less, true_iff]
    exact ⟨0, fun i hi => by omega, Or.inl ⟨rfl, by simp⟩⟩
  | x :: xs, [] => by
    simp only [seq_less, Bool.false_eq_true, false_iff, not_exists, not_and]
    intro k hk h
    rcases h with ⟨_, h⟩ | ⟨u, w, _, h, _⟩
    · simp at h
    · simp at h
  | x :: xs, y :: ys => by
    simp only [seq_less]
    cases hl : ltT x y with
    | true =>
      simp only [if_true, true_iff]
      exact ⟨0, fun i hi => by omega, Or.inr ⟨x, y, by simp, by simp, hl⟩⟩
    | false =>
      simp only [Bool.false_eq_true, if_false]
      cases hg : ltT y x with
      | true =>
        simp only [if_true, Bool.false_eq_true, false_iff, not_exists, not_and]
        intro k hk h
        cases k with
        | zero =>
          rcases h with ⟨h, _⟩ | ⟨u, w, hu, hw, h⟩
          · simp at h
          · simp only [List.getElem?_cons_zero, Option.some.injEq] at hu hw
            subst hu hw
            rw [hl] at h
            simp at h
        | succ j =>
          obtain ⟨u, w, hu, hw, _, h⟩ := hk 0 (by omega)
          simp only [List.getElem?_cons_zero, Option.some.injEq] at hu hw
          subst hu hw
          rw [hg] at h
          simp at h
      | false =>
        simp only [Bool.false_eq_true, if_false, seq_less_iff ltT xs ys]
        constructor
        · rintro ⟨k, hk, h⟩
          refine ⟨k + 1, fun i hi => ?_, ?_⟩
          · cases i with
            | zero => exact ⟨x, y, by simp, by simp, hl, hg⟩
            | succ j =>
              obtain ⟨u, w, hu, hw, h1, h2⟩ := hk j (by omega)
              exact ⟨u, w, by simpa using hu, by simpa using hw, h1, h2⟩
          · rcases h with ⟨h1, h2⟩ | ⟨u, w, hu, hw, h⟩
            · exact Or.inl ⟨by simp [h1], by simp; omega⟩
            · exact Or.inr ⟨u, w, by simpa using hu, by simpa using hw, h⟩
        · rintro ⟨k, hk, h⟩
          cases k with
          | zero =>
            rcases h with ⟨h, _⟩ | ⟨u, w, hu, hw, h⟩
            · simp at h
            · simp only [List.getElem?_cons_zero, Option.some.injEq] at hu hw
              subst hu hw
              rw [hl] at h
              simp at h
          | succ j =>
            refine ⟨j, fun i hi => ?_, ?_⟩
            · obtain ⟨u, w, hu, hw, h1, h2⟩ := hk (i + 1) (by omega)
              exact ⟨u, w, by simpa using hu, by simpa using hw, h1, h2⟩
            · rcases h with ⟨h1, h2⟩ | ⟨u, w, hu, hw, h⟩
              · exact Or.inl ⟨by simpa using h1, by simpa using h2⟩
              · exact Or.inr ⟨u, w, by simpa using hu, by simpa using hw, h⟩

/-- Equal sequences are not ordered, when equal elements are not ordered. -/
theorem seq_equal_not_less (eqT ltT : T → T → Bool)
    (hcons : ∀ x y, eqT x y = true → ltT x y = false ∧ ltT y x = false) :
    ∀ (l1 l2 : List T), seq_equal eqT l1 l2 = true →
      seq_less ltT l1 l2 = false ∧ seq_less ltT l2 l1 = false
  | [], [], _ => ⟨rfl, rfl⟩
  | [], _ :: _, h => by simp [seq_equal] at h
  | _ :: _, [], h => by simp [seq_equal] at h
  | x :: xs, y :: ys, h => by
    simp only [seq_equal, Bool.and_eq_true] at h
    obtain ⟨h1, h2⟩ := hcons x y h.1
    obtain ⟨r1, r2⟩ := seq_equal_not_less eqT ltT hcons xs ys h.2
    simp [seq_less, h1, h2, r1, r2]

/-- Trichotomy of sequences over a strictly totally ordered element type. -/
theorem seq_trichotomy (eqT ltT : T → T → Bool)
    (hasym : ∀ x y, ltT x y = true → ltT y x = false)
    (htri : ∀ x y, eqT x y = true ↔ (ltT x y = false ∧ ltT y x = false)) :
    ∀ (l1 l2 : List T),
      (!(seq_equal eqT l1 l2 || seq_less ltT l1 l2)) = seq_less ltT l2 l1
  | [], [] => rfl
  | [], _ :: _ => rfl
  | _ :: _, [] => rfl
  | x :: xs, y :: ys => by
    have ih := seq_trichotomy eqT ltT hasym htri xs ys
    simp only [seq_equal, seq_less]
    cases hl : ltT x y with
    | true =>
      have hg := hasym x y hl
      simp [hg]
    | false =>
      cases hg : ltT y x with
      | true =>
        have he : eqT x y = false := by
          cases h : eqT x y with
          | false => rfl
          | true =>
            have := ((htri x y).mp h).2
            rw [hg] at this
            simp at this
        simp [he]
      | false =>
        have he : eqT x y = true := (htri x y).mpr ⟨hl, hg⟩
        simp only [he, Bool.true_and, Bool.false_eq_true, if_false]
        exact ih

theorem op_ne_spec (eqT : T → T → Bool) (a b : SimpleVector T) (ha : a.Inv) (hb : b.Inv) :
    op_ne eqT a b = .ok (!seq_equal eqT a.elems b.elems) := by
  simp only [op_ne, op_eq_spec eqT a b ha hb, ok_bind]

theorem op_le_spec (eqT ltT : T → T → Bool) (a b : SimpleVector T) (ha : a.Inv) (hb : b.Inv) :
    op_le eqT ltT a b
      = .ok (seq_equal eqT a.elems b.elems || seq_less ltT a.elems b.elems) := by
  simp only [op_le, op_eq_spec eqT a b ha hb, op_lt_spec ltT a b ha hb, ok_bind]
  cases seq_equal eqT a.elems b.elems <;> simp

theorem op_gt_spec (eqT ltT : T → T → Bool) (a b : SimpleVector T) (ha : a.Inv) (hb : b.Inv) :
    op_gt eqT ltT a b
      = .ok (!(seq_equal eqT a.elems b.elems || seq_less ltT a.elems b.elems)) := by
  simp only [op_gt, op_le_spec eqT ltT a b ha hb, ok_bind]

theorem op_ge_spec (eqT ltT : T → T → Bool) (a b : SimpleVector T) (ha : a.Inv) (hb : b.Inv) :
    op_ge eqT ltT a b
      = .ok (seq_equal eqT a.elems b.elems ||
          !(seq_equal eqT a.elems b.elems || seq_less ltT a.elems b.elems)) := by
  simp only [op_ge, op_eq_spec eqT a b ha hb, op_gt_spec eqT ltT a b ha hb, ok_bind]
  cases seq_equal eqT a.elems b.elems <;> simp

theorem seq_equal_refl (eqT : T → T → Bool) (hrefl : ∀ x, eqT x x = true) :
    ∀ l : List T, seq_equal eqT l l = true
  | [] => rfl
  | x :: xs => by simp [seq_equal, hrefl x, seq_equal_refl eqT hrefl xs]

theorem elems_of_cells (a : ArrayPtr T) (n : Nat) (h : a.slots = n) :
    (SimpleVector.mk a n n).elems = a.cells :=
  elems_full a n n (by omega)

/-- Whenever `PushBack(Type&&)` returns on a vector satisfying the invariant,
the size grew by one, the capacity did not shrink and the last slot of the
logical sequence holds the item. -/
theorem PushBack_move_ok_facts [Inhabited T] [Fresh T] (v : SimpleVector T) (x : T)
    (r : SimpleVector T)
    (h : v.Inv) (hr : v.PushBack_move x = .ok r) :
    r.size_ = v.size_ + 1 ∧ v.capacity_ ≤ r.capacity_ ∧ r.elems = v.elems ++ [x] ∧
      r.array_ptr_.read (r.size_ - 1) = .ok x := by
  obtain ⟨r1, e1, e2, e3, e4, e5⟩ := PushBack_move_spec v x h (PushBack_move_ok_fit v x r h hr)
  rw [hr] at e1
  injection e1 with e1
  subst e1
  refine ⟨e2, ?_, e4, ?_⟩
  · rw [e3]
    split
    · omega
    · split <;> omega
  · have hl := elems_length v (Inv_size_le_slots v h)
    have hx : r.elems[v.size_]? = some x := by
      rw [e4, List.getElem?_append_right (by omega), hl]
      simp
    rw [elems_getElem?, e2, if_pos (by omega)] at hx
    rw [e2, Nat.add_sub_cancel]
    exact read_of_cells _ _ _ hx

theorem PushBack_copy_ok_facts [Inhabited T] [Fresh T] (v : SimpleVector T) (x : T)
    (r : SimpleVector T)
    (h : v.Inv) (hr : v.PushBack_copy x = .ok r) :
    r.size_ = v.size_ + 1 ∧ v.capacity_ ≤ r.capacity_ ∧ r.elems = v.elems ++ [x] ∧
      r.array_ptr_.read (r.size_ - 1) = .ok x := by
  by_cases hc : v.capacity_ = 0
  · rw [PushBack_copy_null v x h hc] at hr
    simp at hr
  · rw [PushBack_copy_eq_move v x hc] at hr
    exact PushBack_move_ok_facts v x r h hr

/-- `Insert(end(), const Type&)` is `PushBack(const Type&)` followed by
`end() - 1`. -/
theorem Insert_copy_end [Inhabited T] [Fresh T] (ndebug : Bool) (v : SimpleVector T) (x : T) :
    v.Insert_copy ndebug v.size_ (Ref.outside x) = (do
      let v1 ← v.PushBack_copy x
      if v1.size_ = 0 then .error Fault.undefined else .ok (v1.size_ - 1, v1)) := by
  have ha : assert_ ndebug (decide (v.size_ ≥ v.begin_ ∧ v.size_ ≤ v.end_)) = .ok () :=
    assert_true _ _ (by simp [SimpleVector.begin_, SimpleVector.end_])
  unfold SimpleVector.Insert_copy
  rw [ha, ok_bind]
  simp only [SimpleVector.end_, if_true, Ref.get, ok_bind]

/-- Whenever `Insert(pos, Type&&)` returns for `pos <= size` on a vector
satisfying the invariant, the capacity did not shrink. -/
theorem Insert_move_ok_capacity [Inhabited T] [Fresh T] (ndebug : Bool) (v : SimpleVector T)
    (pos : Nat)
    (x : T) (r : Nat × SimpleVector T) (h : v.Inv) (hp : pos ≤ v.size_)
    (hr : v.Insert_move ndebug pos (Ref.outside x) = .ok r) : v.capacity_ ≤ r.2.capacity_ := by
  have hfit := Insert_move_ok_fit ndebug v pos x r h hp hr
  by_cases hpe : pos = v.size_
  · subst hpe
    rw [Insert_move_end] at hr
    cases hpb : v.PushBack_move x with
    | error e => rw [hpb, error_bind] at hr; simp at hr
    | ok v1 =>
      obtain ⟨f1, f2, _, _⟩ := PushBack_move_ok_facts v x v1 h hpb
      have hne : v1.size_ ≠ 0 := by omega
      rw [hpb, ok_bind, if_neg hne] at hr
      injection hr with hr
      rw [← hr]
      exact f2
  · obtain ⟨r1, e1, _, e3, _, _, _⟩ := Insert_move_spec ndebug v pos x h (by omega) hfit
    rw [e1] at hr
    injection hr with hr
    rw [← hr, e3]
    split <;> omega

theorem Insert_copy_ok_capacity [Inhabited T] [Fresh T] (ndebug : Bool) (v : SimpleVector T)
    (pos : Nat)
    (x : T) (r : Nat × SimpleVector T) (h : v.Inv) (hp : pos ≤ v.size_)
    (hr : v.Insert_copy ndebug pos (Ref.outside x) = .ok r) : v.capacity_ ≤ r.2.capacity_ := by
  by_cases hc : pos = v.size_ ∧ v.capacity_ = 0
  · obtain ⟨hc1, hc2⟩ := hc
    subst hc1
    rw [Insert_copy_end, PushBack_copy_null v x h hc2, error_bind] at hr
    simp at hr
  · rw [Insert_copy_eq_move ndebug v pos (Ref.outside x) (fun h1 h2 => hc ⟨h1, h2⟩)] at hr
    exact Insert_move_ok_capacity ndebug v pos x r h hp hr

/-- `Insert(pos, Type&&)` returns for every `pos <= size` on a vector
satisfying the invariant whose doubled capacity, if needed, is representable. -/
theorem Insert_move_returns [Inhabited T] [Fresh T] (ndebug : Bool) (v : SimpleVector T) (pos : Nat)
    (x : T) (h : v.Inv) (hp : pos ≤ v.size_)
    (hfit : v.size_ = v.capacity_ → 2 * v.capacity_ < SIZE_MOD) :
    ∃ r, v.Insert_move ndebug pos (Ref.outside x) = .ok r := by
  by_cases hpe : pos = v.size_
  · subst hpe
    obtain ⟨r1, e1, e2, _⟩ := PushBack_move_spec v x h hfit
    have hne : r1.size_ ≠ 0 := by omega
    exact ⟨_, by rw [Insert_move_end, e1, ok_bind, if_neg hne]⟩
  · obtain ⟨r1, e1, _⟩ := Insert_move_spec ndebug v pos x h (by omega) hfit
    exact ⟨_, e1⟩

/-- On a vector satisfying the invariant, `Insert` at an offset `p < size` of a
value `x` that is not stored in the vector (copy and move overload alike)
returns the offset `p` and a vector whose
logical sequence is `e[0..p) ++ [x] ++ e[p..size)`, of size `size + 1`, whose
buffer holds `x` at offset `p`; the capacity is unchanged when `size < capacity`
and `2 * capacity` when `size == capacity`. The product `2 * capacity_` is
`size_t` arithmetic, so for a full vector it is assumed representable. -/
theorem Insert_inside_spec (T : Type) [Inhabited T] [Fresh T] (nd : Bool) (v : SimpleVector T)
    (p : Nat)
    (x : T) (h : v.Inv) (hp : p < v.size_)
    (hfit : v.size_ = v.capacity_ → 2 * v.capacity_ < SIZE_MOD) :
    ∃ r, v.Insert_copy nd p (Ref.outside x) = .ok (p, r) ∧
      v.Insert_move nd p (Ref.outside x) = .ok (p, r) ∧
      r.elems = v.elems.take p ++ [x] ++ v.elems.drop p ∧
      r.size_ = v.size_ + 1 ∧
      r.array_ptr_.read p = .ok x ∧
      (v.size_ < v.capacity_ → r.capacity_ = v.capacity_) ∧
      (v.size_ = v.capacity_ → r.capacity_ = 2 * v.capacity_) := by
  obtain ⟨r, e1, e2, e3, e4, e5, _⟩ := Insert_move_spec nd v p x h hp hfit
  refine ⟨r, ?_, e1, e4, e2, read_of_cells _ _ _ e5, ?_, ?_⟩
  · rw [Insert_copy_eq_move nd v p (Ref.outside x) (fun h0 => by omega)]
    exact e1
  · intro hs
    have : v.size_ ≠ v.capacity_ := by omega
    rw [e3, if_neg this]
  · intro hs
    rw [e3, if_pos hs]

/-- A vector returned by `Insert(pos, Type&&)` called with any reference is
also returned when the call is given some value from outside the vector. -/
theorem Insert_move_ok_outside [Inhabited T] [Fresh T] (ndebug : Bool) (v : SimpleVector T)
    (pos : Nat) (value : Ref T) (r : Nat × SimpleVector T)
    (hr : v.Insert_move ndebug pos value = .ok r) :
    ∃ x, v.Insert_move ndebug pos (Ref.outside x) = .ok r := by
  cases value with
  | outside x => exact ⟨x, hr⟩
  | slot k =>
    unfold SimpleVector.Insert_move at hr ⊢
    cases ha : assert_ ndebug (decide (pos ≥ v.begin_ ∧ pos ≤ v.end_)) with
    | error e => rw [ha, error_bind] at hr; simp at hr
    | ok u =>
      simp only [ha, ok_bind] at hr ⊢
      by_cases hp : pos = v.end_
      · simp only [if_pos hp, Ref.get] at hr ⊢
        cases hg : v.array_ptr_.read k with
        | error e => rw [hg, error_bind] at hr; simp at hr
        | ok x =>
          rw [hg, ok_bind] at hr
          exact ⟨x, by simpa only [ok_bind] using hr⟩
      · simp only [if_neg hp] at hr ⊢
        by_cases hs : v.size_ < v.capacity_
        · simp only [if_pos hs] at hr ⊢
          by_cases hlt : v.end_ < pos
          · simp only [if_pos hlt, error_bind] at hr
            simp at hr
          · simp only [if_neg hlt] at hr ⊢
            cases hsh : SimpleVector.shift_loop (v.end_ - pos) v.array_ptr_ v.end_ with
            | error e => rw [hsh, error_bind] at hr; simp at hr
            | ok a =>
              simp only [hsh, ok_bind, Ref.get] at hr ⊢
              cases hg : a.read k with
              | error e => rw [hg, error_bind] at hr; simp at hr
              | ok x =>
                rw [hg, ok_bind] at hr
                exact ⟨x, hr⟩
        · simp only [if_neg hs] at hr ⊢
          cases h1 : (SimpleVector.ctor_size (wrap (2 * v.capacity_)) : Res (SimpleVector T)) with
          | error e => rw [h1, error_bind] at hr; simp at hr
          | ok sp =>
            simp only [h1, ok_bind] at hr ⊢
            cases h2 : std_copy v.array_ptr_ v.begin_ pos sp.array_ptr_ sp.begin_ with
            | error e => rw [h2, error_bind] at hr; simp at hr
            | ok b =>
              simp only [h2, ok_bind] at hr ⊢
              cases h3 : std_copy v.array_ptr_ pos v.end_ b (sp.begin_ + (pos - v.begin_ + 1)) with
              | error e => rw [h3, error_bind] at hr; simp at hr
              | ok b2 =>
                simp only [h3, ok_bind, Ref.get] at hr ⊢
                cases hg : v.array_ptr_.read k with
                | error e => rw [hg, error_bind] at hr; simp at hr
                | ok x =>
                  rw [hg, ok_bind] at hr
                  exact ⟨x, hr⟩

/-- A vector returned by `Insert(pos, const Type&)` called with any reference is
also returned when the call is given some value from outside the vector. -/
theorem Insert_copy_ok_outside [Inhabited T] [Fresh T] (ndebug : Bool) (v : SimpleVector T)
    (pos : Nat) (value : Ref T) (r : Nat × SimpleVector T)
    (hr : v.Insert_copy ndebug pos value = .ok r) :
    ∃ x, v.Insert_copy ndebug pos (Ref.outside x) = .ok r := by
  cases value with
  | outside x => exact ⟨x, hr⟩
  | slot k =>
    unfold SimpleVector.Insert_copy at hr ⊢
    cases ha : assert_ ndebug (decide (pos ≥ v.begin_ ∧ pos ≤ v.end_)) with
    | error e => rw [ha, error_bind] at hr; simp at hr
    | ok u =>
      simp only [ha, ok_bind] at hr ⊢
      by_cases hp : pos = v.end_
      · simp only [if_pos hp, Ref.get] at hr ⊢
        cases hg : v.array_ptr_.read k with
        | error e => rw [hg, error_bind] at hr; simp at hr
        | ok x =>
          rw [hg, ok_bind] at hr
          exact ⟨x, by simpa only [ok_bind] using hr⟩
      · simp only [if_neg hp] at hr ⊢
        by_cases hs : v.size_ < v.capacity_
        · simp only [if_pos hs] at hr ⊢
          cases hsh : std_copy_backward v.array_ptr_ pos v.end_ (v.end_ + 1) with
          | error e => rw [hsh, error_bind] at hr; simp at hr
          | ok a =>
            simp only [hsh, ok_bind, Ref.get] at hr ⊢
            cases hg : a.read k with
            | error e => rw [hg, error_bind] at hr; simp at hr
            | ok x =>
              rw [hg, ok_bind] at hr
              exact ⟨x, hr⟩
        · simp only [if_neg hs] at hr ⊢
          cases h1 : (SimpleVector.ctor_size (wrap (2 * v.capacity_)) : Res (SimpleVector T)) with
          | error e => rw [h1, error_bind] at hr; simp at hr
          | ok sp =>
            simp only [h1, ok_bind] at hr ⊢
            cases h2 : std_copy v.array_ptr_ v.begin_ pos sp.array_ptr_ sp.begin_ with
            | error e => rw [h2, error_bind] at hr; simp at hr
            | ok b =>
              simp only [h2, ok_bind] at hr ⊢
              cases h3 : std_copy v.array_ptr_ pos v.end_ b (sp.begin_ + (pos - v.begin_ + 1)) with
              | error e => rw [h3, error_bind] at hr; simp at hr
              | ok b2 =>
                simp only [h3, ok_bind, Ref.get] at hr ⊢
                cases hg : v.array_ptr_.read k with
                | error e => rw [hg, error_bind] at hr; simp at hr
                | ok x =>
                  rw [hg, ok_bind] at hr
                  exact ⟨x, hr⟩

/-- `Insert(end(), Type&&)` with any reference is `PushBack(Type&&)` of the
value referred to, followed by `end() - 1`. -/
theorem Insert_move_at_end [Inhabited T] [Fresh T] (ndebug : Bool) (v : SimpleVector T)
    (value : Ref T) (x : T) (hx : value.get v.array_ptr_ = .ok x) :
    v.Insert_move ndebug v.size_ value = (do
      let v1 ← v.PushBack_move x
      if v1.size_ = 0 then .error Fault.undefined else .ok (v1.size_ - 1, v1)) := by
  have ha : assert_ ndebug (decide (v.size_ ≥ v.begin_ ∧ v.size_ ≤ v.end_)) = .ok () :=
    assert_true _ _ (by simp [SimpleVector.begin_, SimpleVector.end_])
  unfold SimpleVector.Insert_move
  rw [ha, ok_bind]
  simp only [SimpleVector.end_, if_true, hx, ok_bind]

/-- The value that `Insert(pos, value)` stores when `value` refers to slot `k`
of the vector itself: inside a vector with room the elements from `pos` on
have moved one slot up before the reference is read, so for `pos < k <= size`
it is the former content of slot `k - 1`; in every other case it is the
content of slot `k`. -/
theorem Insert_move_slot [Inhabited T] [Fresh T] (ndebug : Bool) (v : SimpleVector T)
    (pos k : Nat) (h : v.Inv) (hp : pos ≤ v.size_) (hk : k < v.capacity_) :
    ∃ y, v.Insert_move ndebug pos (Ref.slot k) = v.Insert_move ndebug pos (Ref.outside y) ∧
      some y = (if v.size_ < v.capacity_ ∧ pos < k ∧ k ≤ v.size_
        then v.array_ptr_.cells[k - 1]? else v.array_ptr_.cells[k]?) := by
  rcases Inv_cases v h with ⟨h1, h2, h3⟩ | ⟨b, h1, h2, h3⟩
  · omega
  · rcases v with ⟨⟨p⟩, s, c⟩
    simp only at h1 h2 h3 hp hk
    subst h1
    have hsc : s ≤ c := h.1
    have hread : (ArrayPtr.mk (some b)).read k = .ok b[k] := read_some b k (by omega)
    by_cases hpe : pos = s
    · subst hpe
      refine ⟨b[k], ?_, ?_⟩
      · have e1 := Insert_move_at_end ndebug (SimpleVector.mk (ArrayPtr.mk (some b)) pos c)
          (Ref.slot k) b[k] hread
        have e2 := Insert_move_at_end ndebug (SimpleVector.mk (ArrayPtr.mk (some b)) pos c)
          (Ref.outside b[k]) b[k] rfl
        simp only at e1 e2
        rw [e1, e2]
      · have : ¬ (pos < c ∧ pos < k ∧ k ≤ pos) := by omega
        rw [if_neg this]
        simp only [ArrayPtr.cells]
        rw [List.getElem?_eq_getElem]
    · have hps : pos < s := by omega
      by_cases hroom : s < c
      · obtain ⟨b1, e1, e2, e3⟩ := copy_backward_loop_spec (s - pos) b s (s + 1) (by omega)
          (by omega) (by omega)
        have hk1 : k < b1.length := by omega
        have hnl : ¬ s < pos := by omega
        refine ⟨b1[k], ?_, ?_⟩
        · simp only [SimpleVector.Insert_move, SimpleVector.begin_, SimpleVector.end_,
            if_neg hpe, if_pos hroom, if_neg hnl, shift_loop_eq, e1, ok_bind, Ref.get,
            read_some b1 k hk1]
        · rw [← List.getElem?_eq_getElem hk1, e3 k]
          simp only [ArrayPtr.cells]
          by_cases c3 : pos < k ∧ k ≤ s
          · have c4 : s + 1 - (s - pos) ≤ k ∧ k < s + 1 := by omega
            have c5 : k - (s + 1 - s) = k - 1 := by omega
            rw [if_pos c4, if_pos ⟨hroom, c3⟩, c5]
          · have c4 : ¬ (s + 1 - (s - pos) ≤ k ∧ k < s + 1) := by omega
            have c6 : ¬ (s < c ∧ pos < k ∧ k ≤ s) := fun hh => c3 hh.2
            rw [if_neg c4, if_neg c6]
      · refine ⟨b[k], ?_, ?_⟩
        · simp only [SimpleVector.Insert_move, SimpleVector.begin_, SimpleVector.end_,
            if_neg hpe, if_neg hroom, Ref.get, hread]
        · have : ¬ (s < c ∧ pos < k ∧ k ≤ s) := fun hh => hroom hh.1
          rw [if_neg this]
          simp only [ArrayPtr.cells]
          rw [List.getElem?_eq_getElem]

/-- The same for `Insert(pos, const Type&)`, whose shift is `std::copy_backward`. -/
theorem Insert_copy_slot [Inhabited T] [Fresh T] (ndebug : Bool) (v : SimpleVector T)
    (pos k : Nat) (h : v.Inv) (hp : pos ≤ v.size_) (hk : k < v.capacity_) :
    ∃ y, v.Insert_copy ndebug pos (Ref.slot k) = v.Insert_copy ndebug pos (Ref.outside y) ∧
      some y = (if v.size_ < v.capacity_ ∧ pos < k ∧ k ≤ v.size_
        then v.array_ptr_.cells[k - 1]? else v.array_ptr_.cells[k]?) := by
  obtain ⟨y, e1, e2⟩ := Insert_move_slot ndebug v pos k h hp hk
  refine ⟨y, ?_, e2⟩
  rw [Insert_copy_eq_move ndebug v pos (Ref.slot k) (fun _ => by omega),
    Insert_copy_eq_move ndebug v pos (Ref.outside y) (fun _ => by omega)]
  exact e1

/-- A reference that can be read on entry refers to a value from outside or to
a slot of the block. -/
theorem Ref_get_ok_slot (v : SimpleVector T) (k : Nat) (x : T) (h : v.Inv)
    (hx : (Ref.slot k).get v.array_ptr_ = .ok x) : k < v.capacity_ := by
  rw [← h.2.1, slots_eq_length]
  rcases v with ⟨⟨p⟩, s, c⟩
  cases p with
  | none => simp [Ref.get, ArrayPtr.read] at hx
  | some b =>
    by_contra hk
    simp only [ArrayPtr.cells] at hk
    simp [Ref.get, ArrayPtr.read, List.getElem?_eq_none (Nat.le_of_not_lt hk)] at hx

/-- `Insert(pos, Type&&)` returns for `pos <= size` and a reference readable on
entry, when the doubled capacity, if needed, is representable. -/
theorem Insert_move_returns_ref [Inhabited T] [Fresh T] (ndebug : Bool) (v : SimpleVector T)
    (pos : Nat) (value : Ref T) (x : T) (h : v.Inv) (hp : pos ≤ v.size_)
    (hfit : v.size_ = v.capacity_ → 2 * v.capacity_ < SIZE_MOD)
    (hx : value.get v.array_ptr_ = .ok x) :
    ∃ r, v.Insert_move ndebug pos value = .ok r := by
  cases value with
  | outside y => exact Insert_move_returns ndebug v pos y h hp hfit
  | slot k =>
    obtain ⟨y, e1, _⟩ := Insert_move_slot ndebug v pos k h hp (Ref_get_ok_slot v k x h hx)
    rw [e1]
    exact Insert_move_returns ndebug v pos y h hp hfit

/-- `Insert(pos, const Type&)` returns under the same conditions when, at the
end position, the capacity is nonzero. -/
theorem Insert_copy_returns_ref [Inhabited T] [Fresh T] (ndebug : Bool) (v : SimpleVector T)
    (pos : Nat) (value : Ref T) (x : T) (h : v.Inv) (hp : pos ≤ v.size_)
    (hc : pos = v.size_ → v.capacity_ ≠ 0)
    (hfit : v.size_ = v.capacity_ → 2 * v.capacity_ < SIZE_MOD)
    (hx : value.get v.array_ptr_ = .ok x) :
    ∃ r, v.Insert_copy ndebug pos value = .ok r := by
  rw [Insert_copy_eq_move ndebug v pos value hc]
  exact Insert_move_returns_ref ndebug v pos value x h hp hfit hx

/-- Whenever `Insert(pos, Type&&)` returns for `pos <= size` on a vector
satisfying the invariant, whatever the reference, the result satisfies the
invariant and its capacity is not smaller. -/
theorem Insert_move_ok_ref [Inhabited T] [Fresh T] (ndebug : Bool) (v : SimpleVector T)
    (pos : Nat) (value : Ref T) (r : Nat × SimpleVector T) (h : v.Inv) (hp : pos ≤ v.size_)
    (hr : v.Insert_move ndebug pos value = .ok r) :
    r.2.Inv ∧ v.capacity_ ≤ r.2.capacity_ := by
  obtain ⟨x, hx⟩ := Insert_move_ok_outside ndebug v pos value r hr
  exact ⟨Insert_move_ok_Inv ndebug v pos x r h hp hx,
    Insert_move_ok_capacity ndebug v pos x r h hp hx⟩

/-- The same for `Insert(pos, const Type&)`. -/
theorem Insert_copy_ok_ref [Inhabited T] [Fresh T] (ndebug : Bool) (v : SimpleVector T)
    (pos : Nat) (value : Ref T) (r : Nat × SimpleVector T) (h : v.Inv) (hp : pos ≤ v.size_)
    (hr : v.Insert_copy ndebug pos value = .ok r) :
    r.2.Inv ∧ v.capacity_ ≤ r.2.capacity_ := by
  obtain ⟨x, hx⟩ := Insert_copy_ok_outside ndebug v pos value r hr
  exact ⟨Insert_copy_ok_Inv ndebug v pos x r h hp hx,
    Insert_copy_ok_capacity ndebug v pos x r h hp hx⟩

/-- The invariant `Inv` (size at most capacity, a buffer of exactly
`capacity` slots, null when the capacity is zero) holds for every vector a
constructor returns and for every vector a mutating operation returns when
called on vectors satisfying it within its precondition; arguments of type
`size_t` are below `SIZE_MOD`. `Clear`, `Reserve`, `Resize`, `Erase`, `swap` and
the assignments always return; `PushBack`, `Insert` and `PopBack` are covered
whenever they return, and they return under the stated conditions. -/
theorem Inv_established_and_preserved (T : Type) [Inhabited T] [Fresh T] :
    (SimpleVector.ctor_default : SimpleVector T).Inv ∧
    (∀ n, n < SIZE_MOD →
      ∃ r, (SimpleVector.ctor_reserve n : Res (SimpleVector T)) = .ok r ∧ r.Inv) ∧
    (∀ n, n < SIZE_MOD →
      ∃ r, (SimpleVector.ctor_size n : Res (SimpleVector T)) = .ok r ∧ r.Inv) ∧
    (∀ n (x : T), n < SIZE_MOD → ∃ r, SimpleVector.ctor_size_value n x = .ok r ∧ r.Inv) ∧
    (∀ init : List T, init.length < SIZE_MOD →
      ∃ r, SimpleVector.ctor_init init = .ok r ∧ r.Inv) ∧
    (∀ other : SimpleVector T, other.Inv →
      ∃ r, SimpleVector.ctor_copy other = .ok r ∧ r.Inv) ∧
    (∀ other : SimpleVector T, other.Inv →
      (SimpleVector.ctor_move other).1.Inv ∧ (SimpleVector.ctor_move other).2.Inv) ∧
    (∀ v : SimpleVector T, v.Inv → v.Clear.Inv) ∧
    (∀ (v : SimpleVector T) n, v.Inv → n < SIZE_MOD → ∃ r, v.Reserve n = .ok r ∧ r.Inv) ∧
    (∀ (v : SimpleVector T) n, v.Inv → n < SIZE_MOD → ∃ r, v.Resize n = .ok r ∧ r.Inv) ∧
    (∀ (v : SimpleVector T) x r, v.Inv → v.PushBack_copy x = .ok r → r.Inv) ∧
    (∀ (v : SimpleVector T) x, v.Inv → v.capacity_ ≠ 0 →
      (v.size_ = v.capacity_ → 2 * v.capacity_ < SIZE_MOD) →
      ∃ r, v.PushBack_copy x = .ok r ∧ r.Inv) ∧
    (∀ (v : SimpleVector T) x r, v.Inv → v.PushBack_move x = .ok r → r.Inv) ∧
    (∀ (v : SimpleVector T) x, v.Inv →
      (v.size_ = v.capacity_ → 2 * v.capacity_ < SIZE_MOD) →
      ∃ r, v.PushBack_move x = .ok r ∧ r.Inv) ∧
    (∀ nd (v : SimpleVector T) pos value r, v.Inv → pos ≤ v.size_ →
      v.Insert_copy nd pos value = .ok r → r.2.Inv) ∧
    (∀ nd (v : SimpleVector T) pos value r, v.Inv → pos ≤ v.size_ →
      v.Insert_move nd pos value = .ok r → r.2.Inv) ∧
    (∀ nd (v : SimpleVector T) pos value (x : T), v.Inv → pos < v.size_ →
      (v.size_ = v.capacity_ → 2 * v.capacity_ < SIZE_MOD) →
      value.get v.array_ptr_ = .ok x →
      ∃ r, v.Insert_copy nd pos value = .ok r ∧ v.Insert_move nd pos value = .ok r ∧
        r.2.Inv) ∧
    (∀ nd (v : SimpleVector T) r, v.Inv → v.size_ ≠ 0 → v.PopBack nd = .ok r → r.Inv) ∧
    (∀ v : SimpleVector T, v.Inv → v.size_ ≠ 0 → ∃ r, v.PopBack true = .ok r ∧ r.Inv) ∧
    (∀ nd (v : SimpleVector T) pos, v.Inv → pos < v.size_ →
      ∃ r, v.Erase nd pos = .ok (pos, r) ∧ r.Inv) ∧
    (∀ v other : SimpleVector T, v.Inv → other.Inv →
      (v.swap other).1.Inv ∧ (v.swap other).2.Inv) ∧
    (∀ v rhs : SimpleVector T, rhs.Inv → ∃ r, v.assign_copy rhs = .ok r ∧ r.Inv) ∧
    (∀ v : SimpleVector T, v.Inv → v.assign_copy_self.Inv) ∧
    (∀ v rhs : SimpleVector T, v.Inv → rhs.Inv →
      ∃ r, v.assign_move rhs = .ok r ∧ r.1.Inv ∧ r.2.Inv) := by
  have hpop : ∀ (v : SimpleVector T), v.Inv → v.size_ ≠ 0 →
      ({ v with size_ := wrap (v.size_ + SIZE_MOD - 1) } : SimpleVector T).Inv := by
    intro v h hs
    obtain ⟨h1, h2, h3, h4⟩ := h
    have hw : wrap (v.size_ + SIZE_MOD - 1) = v.size_ - 1 := wrap_pred _ (by omega) (by omega)
    exact ⟨by simp only [hw]; omega, h2, h3, h4⟩
  refine ⟨Inv_mk_none T, ?_, ?_, ?_, ?_, ?_, ?_, ?_, ?_, ?_, ?_, ?_, ?_, ?_, ?_, ?_, ?_, ?_, ?_,
    ?_, ?_, ?_, ?_, ?_⟩
  · intro n hn
    obtain ⟨r, e1, _, _, _, _, e6⟩ := Reserve_spec (SimpleVector.ctor_default : SimpleVector T) n
      (Inv_mk_none T)
    exact ⟨r, e1, e6 hn⟩
  · intro n hn
    exact ⟨_, SimpleVector_ctor_size_eq n,
      Inv_of_slots _ n (value_block_slots n) (value_block_none n) hn⟩
  · intro n x hn
    obtain ⟨a, e1, e2, e3, _⟩ := ctor_size_value_spec n x
    exact ⟨_, e1, Inv_of_slots a n e2 e3 hn⟩
  · intro init hn
    obtain ⟨a, e1, e2, e3, _⟩ := ctor_init_spec init
    exact ⟨_, e1, Inv_of_slots a _ e2 e3 hn⟩
  · intro other h
    obtain ⟨a, e1, e2, e3, _⟩ := ctor_copy_spec other h
    exact ⟨_, e1, Inv_of_slots a _ e2 e3 (by have := h.1; have := h.2.2.2; omega)⟩
  · intro other h
    exact ⟨h, Inv_mk_none T⟩
  · intro v h
    exact ⟨Nat.zero_le _, h.2.1, h.2.2.1, h.2.2.2⟩
  · intro v n h hn
    obtain ⟨r, e1, _, _, _, _, e6⟩ := Reserve_spec v n h
    exact ⟨r, e1, e6 hn⟩
  · intro v n h hn
    obtain ⟨r, e1, _, _, _, _, _, e7⟩ := Resize_spec v n h
    exact ⟨r, e1, e7 hn⟩
  · intro v x r h hr
    exact PushBack_copy_ok_Inv v x r h hr
  · intro v x h hc hfit
    obtain ⟨r, e1, _, _, _, e5⟩ := PushBack_copy_spec v x h hc hfit
    exact ⟨r, e1, e5⟩
  · intro v x r h hr
    exact PushBack_move_ok_Inv v x r h hr
  · intro v x h hfit
    obtain ⟨r, e1, _, _, _, e5⟩ := PushBack_move_spec v x h hfit
    exact ⟨r, e1, e5⟩
  · intro nd v pos value r h hp hr
    exact (Insert_copy_ok_ref nd v pos value r h hp hr).1
  · intro nd v pos value r h hp hr
    exact (Insert_move_ok_ref nd v pos value r h hp hr).1
  · intro nd v pos value x h hp hfit hx
    obtain ⟨r, e1⟩ := Insert_move_returns_ref nd v pos value x h (by omega) hfit hx
    refine ⟨r, ?_, e1, (Insert_move_ok_ref nd v pos value r h (by omega) e1).1⟩
    rw [Insert_copy_eq_move nd v pos value (fun h0 => by omega)]
    exact e1
  · intro nd v r h hs hr
    cases nd with
    | false => rw [PopBack_debug_nonempty v hs] at hr; simp at hr
    | true =>
      rw [PopBack_ndebug] at hr
      injection hr with hr
      rw [← hr]
      exact hpop v h hs
  · intro v h hs
    exact ⟨_, PopBack_ndebug v, hpop v h hs⟩
  · intro nd v pos h hp
    obtain ⟨r, e1, _, _, _, _, e6⟩ := Erase_spec nd v pos h hp
    exact ⟨r, e1, e6⟩
  · intro v other h1 h2
    exact ⟨h2, h1⟩
  · intro v rhs h
    obtain ⟨a, e1, e2, e3, _⟩ := ctor_copy_spec rhs h
    exact ⟨_, by rw [assign_copy_eq]; exact e1,
      Inv_of_slots a _ e2 e3 (by have := h.1; have := h.2.2.2; omega)⟩
  · intro v h
    exact h
  · intro v rhs _ h
    obtain ⟨a, e1, e2, e3, _⟩ := assign_move_spec v rhs h
    exact ⟨_, e1, Inv_of_slots a _ e2 e3 (by have := h.1; have := h.2.2.2; omega),
      ⟨Nat.zero_le _, h.2.1, h.2.2.1, h.2.2.2⟩⟩

theorem deref_some_iff (h : Heap T) (a : Nat) (b : List T) :
    h.deref (some a) = some b ↔ h.blocks[a]? = some (some b) := by
  simp only [Heap.deref]
  cases hb : h.blocks[a]? with
  | none => simp
  | some o =>
    cases o with
    | none => simp
    | some b1 => simp

theorem deref_live_lt (h : Heap T) (a : Nat) (b : List T) (hd : h.deref (some a) = some b) :
    a < h.blocks.length := by
  rw [deref_some_iff] at hd
  by_contra hlt
  rw [List.getElem?_eq_none (Nat.le_of_not_lt hlt)] at hd
  exact Option.noConfusion hd

/-- Replacing the block at `q` leaves what every other pointer points to. -/
theorem deref_set_ne (bs : List (Option (List T))) (q : Nat) (c : Option (List T))
    (p : Option Nat) (hp : p ≠ some q) :
    (Heap.mk (bs.set q c)).deref p = (Heap.mk bs).deref p := by
  cases p with
  | none => rfl
  | some a =>
    have hne : q ≠ a := fun e => hp (by rw [e])
    simp only [Heap.deref, List.getElem?_set_ne hne]

theorem deref_set_eq (bs : List (Option (List T))) (q : Nat) (c : Option (List T))
    (hq : q < bs.length) : (Heap.mk (bs.set q c)).deref (some q) = c := by
  simp only [Heap.deref, List.getElem?_set_self hq]
  cases c <;> rfl

/-- A block appended to the store leaves what the pointers to live blocks
point to. -/
theorem deref_append (bs : List (Option (List T))) (c : Option (List T)) (p : Option Nat)
    (hp : ∀ a, p = some a → a < bs.length) :
    (Heap.mk (bs ++ [c])).deref p = (Heap.mk bs).deref p := by
  cases p with
  | none => rfl
  | some a =>
    simp only [Heap.deref, List.getElem?_append_left (hp a rfl)]

theorem deref_append_new (bs : List (Option (List T))) (c : Option (List T)) :
    (Heap.mk (bs ++ [c])).deref (some bs.length) = c := by
  simp only [Heap.deref, List.getElem?_concat_length]
  cases c <;> rfl

theorem set_append_new (bs : List (Option (List T))) (c d : Option (List T)) :
    (bs ++ [c]).set bs.length d = bs ++ [d] := by
  rw [List.set_append_right _ _ (Nat.le_refl _)]
  simp

/-- The loop of `std::copy` over the store, from the block at `p` into the
live block at another address `q`, is the loop over the two blocks as values;
only the block at `q` changes. -/
theorem heap_copy_loop_sim : ∀ (n : Nat) (h : Heap T) (p : Option Nat) (q : Nat) (bq : List T)
    (i j : Nat), p ≠ some q → h.deref (some q) = some bq →
    Heap.copy_loop n h p i (some q) j
      = (copy_loop (ArrayPtr.mk (h.deref p)) n i (ArrayPtr.mk (some bq)) j).map
          (fun a => Heap.mk (h.blocks.set q a.raw_ptr_))
  | 0, h, p, q, bq, i, j, _, hq => by
    have hlt := deref_live_lt h q bq hq
    rw [deref_some_iff] at hq
    simp only [Heap.copy_loop, copy_loop, Except.map]
    congr 1
    rcases h with ⟨bs⟩
    congr 1
    apply List.ext_getElem?
    intro k
    by_cases hk : q = k
    · subst hk
      rw [List.getElem?_set_self hlt]
      exact hq
    · rw [List.getElem?_set_ne hk]
  | n + 1, h, p, q, bq, i, j, hp, hq => by
    have hlt := deref_live_lt h q bq hq
    simp only [Heap.copy_loop, copy_loop, Heap.read]
    cases hr : (ArrayPtr.mk (h.deref p)).read i with
    | error e => rfl
    | ok x =>
      simp only [ok_bind, Heap.write, hq]
      by_cases hj : j < bq.length
      · rw [write_some bq j x hj]
        simp only [ok_bind]
        have ih := heap_copy_loop_sim n (Heap.mk (h.blocks.set q (some (bq.set j x)))) p q
          (bq.set j x) (i + 1) (j + 1) hp (deref_set_eq _ _ _ hlt)
        rw [ih, deref_set_ne _ _ _ _ hp]
        simp only [List.set_set]
      · rw [write_out bq j x (Nat.le_of_not_lt hj)]
        rfl

/-- The loop of `std::generate` over the store on the live block at `q` is the
loop over that block as a value. -/
theorem heap_generate_loop_sim [Inhabited T] : ∀ (n : Nat) (h : Heap T) (q : Nat) (bq : List T)
    (i : Nat), h.deref (some q) = some bq →
    Heap.generate_loop n h (some q) i
      = (generate_loop n (ArrayPtr.mk (some bq)) i).map
          (fun a => Heap.mk (h.blocks.set q a.raw_ptr_))
  | 0, h, q, bq, i, hq => by
    have hlt := deref_live_lt h q bq hq
    rw [deref_some_iff] at hq
    simp only [Heap.generate_loop, generate_loop, Except.map]
    congr 1
    rcases h with ⟨bs⟩
    congr 1
    apply List.ext_getElem?
    intro k
    by_cases hk : q = k
    · subst hk
      rw [List.getElem?_set_self hlt]
      exact hq
    · rw [List.getElem?_set_ne hk]
  | n + 1, h, q, bq, i, hq => by
    have hlt := deref_live_lt h q bq hq
    simp only [Heap.generate_loop, generate_loop, Heap.write, hq]
    by_cases hj : i < bq.length
    · rw [write_some bq i default hj]
      simp only [ok_bind]
      have ih := heap_generate_loop_sim n (Heap.mk (h.blocks.set q (some (bq.set i default)))) q
        (bq.set i default) (i + 1) (deref_set_eq _ _ _ hlt)
      rw [ih]
      simp only [List.set_set]
    · rw [write_out bq i default (Nat.le_of_not_lt hj)]
      rfl

theorem heap_std_copy_sim (h : Heap T) (p : Option Nat) (q : Nat) (bq : List T)
    (first last d : Nat) (hp : p ≠ some q) (hq : h.deref (some q) = some bq) :
    h.std_copy p first last (some q) d
      = (std_copy (ArrayPtr.mk (h.deref p)) first last (ArrayPtr.mk (some bq)) d).map
          (fun a => Heap.mk (h.blocks.set q a.raw_ptr_)) := by
  unfold Heap.std_copy std_copy
  by_cases hl : last < first
  · simp only [if_pos hl]
    rfl
  · simp only [if_neg hl]
    exact heap_copy_loop_sim _ h p q bq first d hp hq

theorem heap_std_generate_sim [Inhabited T] (h : Heap T) (q : Nat) (bq : List T)
    (first last : Nat) (hq : h.deref (some q) = some bq) :
    h.std_generate (some q) first last
      = (std_generate (ArrayPtr.mk (some bq)) first last).map
          (fun a => Heap.mk (h.blocks.set q a.raw_ptr_)) := by
  unfold Heap.std_generate std_generate
  by_cases hl : last < first
  · simp only [if_pos hl]
    rfl
  · simp only [if_neg hl]
    exact heap_generate_loop_sim _ h q bq first hq

/-- `std::generate` over the whole of a fresh block sets every slot to
`Type()`. -/
theorem std_generate_fresh [Inhabited T] [Fresh T] (n : Nat) :
    std_generate (ArrayPtr.mk (some (fresh_block n : List T))) 0 (0 + n)
      = .ok (ArrayPtr.mk (some (List.replicate n default))) := by
  obtain ⟨b1, e1, e2, e3⟩ := std_generate_spec (fresh_block n : List T) 0 (0 + n)
    (Nat.zero_le _) (by simp)
  have hb : b1 = List.replicate n default := by
    apply List.ext_getElem?
    intro i
    rw [e3 i, List.getElem?_replicate, getElem?_fresh_block]
    by_cases hi : i < n
    · have : 0 ≤ i ∧ i < 0 + n := by omega
      rw [if_pos this, if_pos hi]
    · have : ¬ (0 ≤ i ∧ i < 0 + n) := by omega
      rw [if_neg this, if_neg hi, if_neg hi]
  rw [e1, hb]

/-- `SimpleVector(size_t size)` over the store, `size != 0`: the new block has
the next address of the store and holds `size` copies of `Type()`. -/
theorem heap_ctor_size [Inhabited T] [Fresh T] (h : Heap T) (n : Nat) (hn : n ≠ 0) :
    StoredVector.ctor_size h n
      = .ok (Heap.mk (h.blocks ++ [some (List.replicate n default)]),
          StoredVector.mk (some h.blocks.length) n n) := by
  simp only [StoredVector.ctor_size, if_neg hn, Heap.new_array]
  rw [heap_std_generate_sim _ h.blocks.length (fresh_block n) 0 (0 + n)
    (deref_append_new _ _), std_generate_fresh]
  simp only [Except.map, ok_bind, set_append_new]

/-- A write through a pointer leaves what a vector with another pointer
holds. -/
theorem heap_write_view (h h2 : Heap T) (q : Option Nat) (i : Nat) (y : T) (v : StoredVector)
    (hne : v.raw_ptr_ ≠ q) (hw : h.write q i y = .ok h2) : v.view h2 = v.view h := by
  cases q with
  | none => simp [Heap.write] at hw
  | some a =>
    simp only [Heap.write] at hw
    cases hb : (ArrayPtr.mk (h.deref (some a))).write i y with
    | error e => rw [hb, error_bind] at hw; simp at hw
    | ok b =>
      rw [hb, ok_bind] at hw
      injection hw with hw
      subst hw
      simp only [StoredVector.view, deref_set_ne _ _ _ _ hne]

/-- `delete[]` of a live block leaves what a vector with another pointer
holds. -/
theorem heap_delete_view (h : Heap T) (q : Option Nat)
    (hq : q = none ∨ ∃ b, h.deref q = some b) :
    ∃ h2, h.delete_array q = .ok h2 ∧
      ∀ v : StoredVector, v.raw_ptr_ ≠ q ∨ q = none → v.view h2 = v.view h := by
  cases q with
  | none => exact ⟨h, rfl, fun _ _ => rfl⟩
  | some a =>
    rcases hq with hq | ⟨b, hb⟩
    · exact Option.noConfusion hq
    · rw [deref_some_iff] at hb
      refine ⟨Heap.mk (h.blocks.set a none), by simp only [Heap.delete_array, hb], fun v hv => ?_⟩
      rcases hv with hv | hv
      · simp only [StoredVector.view, deref_set_ne _ _ _ _ hv]
      · exact Option.noConfusion hv

/-- What a vector satisfying the invariant with a nonzero size points to. -/
theorem view_live (h : Heap T) (v : StoredVector) (hinv : (v.view h).Inv) (hs : v.size_ ≠ 0) :
    ∃ a b, v.raw_ptr_ = some a ∧ h.deref (some a) = some b ∧ a < h.blocks.length ∧
      v.size_ ≤ b.length := by
  have hsl := Inv_size_le_slots _ hinv
  simp only [StoredVector.view, ArrayPtr.slots] at hsl
  cases hp : v.raw_ptr_ with
  | none =>
    rw [hp] at hsl
    simp only [Heap.deref] at hsl
    omega
  | some a =>
    rw [hp] at hsl
    cases hd : h.deref (some a) with
    | none =>
      rw [hd] at hsl
      simp only at hsl
      omega
    | some b =>
      rw [hd] at hsl
      exact ⟨a, b, rfl, hd, deref_live_lt h a b hd, hsl⟩

/-- `SimpleVector(const SimpleVector& other)` over the store: for an empty
`src` the store is unchanged and the copy holds `nullptr`; otherwise the store
has one more block, at an address that was not in use, and the copy points to
it. The copy seen as a value is what the copy constructor over values
returns. -/
theorem heap_ctor_copy_spec [Inhabited T] [Fresh T] (h : Heap T) (src : StoredVector)
    (hinv : (src.view h).Inv) :
    ∃ h1 c, StoredVector.ctor_copy h src = .ok (h1, c) ∧
      SimpleVector.ctor_copy (src.view h) = .ok (c.view h1) ∧
      ((src.size_ = 0 ∧ h1 = h ∧ c = StoredVector.ctor_default) ∨
        (src.size_ ≠ 0 ∧ c = StoredVector.mk (some h.blocks.length) src.size_ src.size_ ∧
          ∃ b1, h1 = Heap.mk (h.blocks ++ [some b1]))) ∧
      src.view h1 = src.view h := by
  by_cases hs : src.size_ = 0
  · refine ⟨h, StoredVector.ctor_default, ?_, ?_, Or.inl ⟨hs, rfl, rfl⟩, rfl⟩
    · simp [StoredVector.ctor_copy, StoredVector.IsEmpty, hs]
    · simp [SimpleVector.ctor_copy, SimpleVector.IsEmpty, StoredVector.view, hs]
      rfl
  · obtain ⟨a, b, hp, hd, hlt, hlen⟩ := view_live h src hinv hs
    have hne : (some a : Option Nat) ≠ some h.blocks.length := by
      intro e
      injection e with e
      omega
    have hd1 : (Heap.mk (h.blocks ++ [some (List.replicate src.size_ (default : T))])).deref
        (some a) = some b := by
      rw [deref_append _ _ _ (fun a1 e => by injection e with e; omega)]
      exact hd
    obtain ⟨b1, e1, e2, e3⟩ := std_copy_spec (ArrayPtr.mk (some b)) 0 src.size_
      (List.replicate src.size_ default) 0 (Nat.zero_le _) hlen (by simp)
    have hb : (!src.IsEmpty) = true := by simp [StoredVector.IsEmpty, hs]
    have hb2 : (!(src.view h).IsEmpty) = true := by
      simp [SimpleVector.IsEmpty, StoredVector.view, hs]
    refine ⟨Heap.mk (h.blocks ++ [some b1]),
      StoredVector.mk (some h.blocks.length) src.size_ src.size_, ?_, ?_, Or.inr ⟨hs, rfl, b1, rfl⟩,
      ?_⟩
    · simp only [StoredVector.ctor_copy, hb, if_true, heap_ctor_size h src.size_ hs, ok_bind, hp]
      rw [heap_std_copy_sim _ (some a) h.blocks.length (List.replicate src.size_ default) 0
        src.size_ 0 hne (deref_append_new _ _), hd1, e1]
      simp only [Except.map, ok_bind, set_append_new, StoredVector.swap, StoredVector.dtor,
        StoredVector.ctor_default, Heap.delete_array]
    · simp only [SimpleVector.ctor_copy, hb2, if_true, SimpleVector_ctor_size_eq, ok_bind,
        if_neg hs, SimpleVector.begin_, SimpleVector.end_, swap_eq]
      simp only [StoredVector.view, hp, hd, if_neg hs, e1, ok_bind, deref_append_new]
    · simp only [StoredVector.view, hp]
      rw [deref_append _ _ _ (fun a1 e => by injection e with e; omega)]

end Lemmas

/-! ## The claims -/

section Claims

open SimpleVector

variable {T : Type}

/-- C1: a sequence of `PushBack` calls on a default-constructed vector should
succeed call by call. The first call of the copy overload `PushBack(const Type&)`
does not: its growth step is `Reserve(capacity_ * 2)` with `capacity_ == 0`,
which allocates nothing, and the following `array_ptr_[0] = item` writes through
the null pointer. The move overload, whose growth step is `Reserve(10)`,
returns on the same input the vector `[1]` of size 1, in a block of ten slots
of which the other nine are as `new Type[10]` left them. -/
theorem C1_PushBack_copy_first_call_writes_through_null :
    (SimpleVector.ctor_default : SimpleVector Nat).PushBack_copy 1
      = Except.error Fault.undefined ∧
    (SimpleVector.ctor_default : SimpleVector Nat).PushBack_move 1
      = Except.ok (SimpleVector.mk (ArrayPtr.mk (some ((fresh_block 10).set 0 1))) 1 10) ∧
    (SimpleVector.mk (ArrayPtr.mk (some ((fresh_block 10).set 0 1))) 1 10
      : SimpleVector Nat).elems = [1] := by
  decide

/-- C2: with `capacity == 0` the growth policy should seed a nonzero capacity.
In the copy overload the growth step `Reserve(capacity_ * 2)` returns the
vector unchanged, capacity still zero, and the call then ends in a write
through the null pointer, for every element type and every item. -/
theorem C2_PushBack_copy_zero_capacity_seed (T : Type) [Inhabited T] [Fresh T] (item : T) :
    (SimpleVector.ctor_default : SimpleVector T).Reserve
        (wrap ((SimpleVector.ctor_default : SimpleVector T).capacity_ * 2))
      = Except.ok SimpleVector.ctor_default ∧
    (SimpleVector.ctor_default : SimpleVector T).PushBack_copy item
      = Except.error Fault.undefined :=
  ⟨rfl, rfl⟩

/-- C3: the invariant should hold after every mutating operation called within
its precondition. The default-constructed vector satisfies it, and on that
vector `PushBack(const Type&)` and `Insert(end(), const Type&)` return no
vector: the growth step `Reserve(0 * 2)` allocates nothing and the write
`array_ptr_[0] = item` goes through the null pointer; the assignment
`size_ = 1` that follows it in the source gives size 1 over capacity 0, a
state outside the invariant. `PopBack` on a non-empty vector stops at its
assertion `assert(IsEmpty())` whenever assertions are compiled in. -/
theorem C3_invariant_lost_on_default_vector (T : Type) [Inhabited T] [Fresh T] (item : T) :
    (SimpleVector.ctor_default : SimpleVector T).Inv ∧
    (SimpleVector.ctor_default : SimpleVector T).PushBack_copy item
      = .error Fault.undefined ∧
    (∀ nd value, (SimpleVector.ctor_default : SimpleVector T).Insert_copy nd 0 value
      = .error Fault.undefined) ∧
    ¬ ({ (SimpleVector.ctor_default : SimpleVector T) with size_ := 1 } : SimpleVector T).Inv ∧
    (∀ (a : ArrayPtr T) (s c : Nat),
      (SimpleVector.mk a (s + 1) c).PopBack false = .error Fault.assertion) := by
  refine ⟨Inv_mk_none T, PushBack_copy_null _ item (Inv_mk_none T) rfl, fun nd value => ?_, ?_,
    fun a s c => ?_⟩
  · cases nd <;> cases value <;> rfl
  · intro h
    have h1 := h.1
    simp [SimpleVector.ctor_default] at h1
  · exact PopBack_debug_nonempty _ (by simp)

/-- C4: `Insert(begin() + p, v)` should leave `e[0..p) ++ [v] ++ e[p..size)`.
Both overloads take `v` by reference and, when `size < capacity`, read it only
after the elements from `p` on have been shifted one slot up. On `[1, 2, 3]`
held in six slots, `Insert(begin(), v[2])` refers to the slot holding `3`; the
shift puts `2` there, and the vector returned is `[2, 1, 2, 3]`, not
`[3, 1, 2, 3]`. On the full vector `[1, 2, 3]` the same call reads the
reference from the old block, which the copy into the new block leaves as it
was, and returns `[3, 1, 2, 3]`. -/
theorem C4_Insert_inside_reads_argument_after_shift :
    (SimpleVector.mk (ArrayPtr.mk (some [1, 2, 3, 0, 0, 0])) 3 6 : SimpleVector Nat).Inv ∧
    (Ref.slot 2 : Ref Nat).get (ArrayPtr.mk (some [1, 2, 3, 0, 0, 0])) = .ok 3 ∧
    (SimpleVector.mk (ArrayPtr.mk (some [1, 2, 3, 0, 0, 0])) 3 6 : SimpleVector Nat).Insert_copy
        false 0 (Ref.slot 2)
      = .ok (0, SimpleVector.mk (ArrayPtr.mk (some [2, 1, 2, 3, 0, 0])) 4 6) ∧
    (SimpleVector.mk (ArrayPtr.mk (some [1, 2, 3, 0, 0, 0])) 3 6 : SimpleVector Nat).Insert_move
        false 0 (Ref.slot 2)
      = .ok (0, SimpleVector.mk (ArrayPtr.mk (some [2, 1, 2, 3, 0, 0])) 4 6) ∧
    (SimpleVector.mk (ArrayPtr.mk (some [2, 1, 2, 3, 0, 0])) 4 6 : SimpleVector Nat).elems
      = [2, 1, 2, 3] ∧
    (SimpleVector.mk (ArrayPtr.mk (some [1, 2, 3])) 3 3 : SimpleVector Nat).Insert_copy
        false 0 (Ref.slot 2)
      = .ok (0, SimpleVector.mk (ArrayPtr.mk (some [3, 1, 2, 3, 0, 0])) 4 6) := by
  decide

/-- C5: on a vector satisfying the invariant, `Erase` at an offset `p < size`
returns the offset `p` and a vector whose logical sequence is
`e[0..p) ++ e[p+1..size)`, of size `size - 1` and unchanged capacity; the slot
at `p` then holds the former `e[p+1]`, and `p` is `end()` when `p` was the last
index. -/
theorem C5_Erase (T : Type) (nd : Bool) (v : SimpleVector T) (p : Nat) (h : v.Inv)
    (hp : p < v.size_) :
    ∃ r, v.Erase nd p = .ok (p, r) ∧
      r.elems = v.elems.take p ++ v.elems.drop (p + 1) ∧
      r.size_ + 1 = v.size_ ∧ r.capacity_ = v.capacity_ ∧
      (p + 1 < v.size_ → ∃ y, v.elems[p + 1]? = some y ∧ r.array_ptr_.read p = .ok y ∧
        r.elems[p]? = some y) ∧
      (p + 1 = v.size_ → p = r.end_) := by
  have hsl := Inv_size_le_slots v h
  obtain ⟨r, e1, e2, e3, e4, e5, _⟩ := Erase_spec nd v p h hp
  refine ⟨r, e1, e4, e2, e3, ?_, ?_⟩
  · intro hlt
    obtain ⟨y, _, hy⟩ := read_in_slots v.array_ptr_ (p + 1) (by omega)
    have hc : r.array_ptr_.cells[p]? = some y := by
      rw [e5 p (Nat.le_refl _) (by omega)]
      exact hy
    refine ⟨y, ?_, read_of_cells _ _ _ hc, ?_⟩
    · rw [elems_getElem?, if_pos hlt]
      exact hy
    · rw [elems_getElem?, if_pos (by omega)]
      exact hc
  · intro hlast
    simp only [SimpleVector.end_]
    omega

/-- Witness for C5: erasing offset 0 of `[1, 9, 2, 3]` held in six slots. -/
theorem C5_Erase_witness :
    ∃ r, (SimpleVector.mk (ArrayPtr.mk (some [1, 9, 2, 3, 0, 0])) 4 6 : SimpleVector Nat).Erase
        false 0 = .ok (0, r) ∧
      r.elems = [9, 2, 3] ∧ r.size_ + 1 = 4 ∧ r.capacity_ = 6 := by
  obtain ⟨r, e1, e2, e3, e4, _⟩ := C5_Erase Nat false
    (SimpleVector.mk (ArrayPtr.mk (some [1, 9, 2, 3, 0, 0])) 4 6) 0 (by decide) (by decide)
  exact ⟨r, e1, e2, e3, e4⟩

/-- C6: `Insert` at offset `p` followed by `Erase` at `p` should succeed and
restore the sequence for every vector, a default-constructed one included. On
the default-constructed vector the copy overload `Insert(end(), const Type&)`
calls `PushBack(const Type&)`, which writes through the null pointer, in debug
and in `NDEBUG` builds alike and whatever the argument refers to. -/
theorem C6_Insert_copy_on_default_vector_faults (T : Type) [Inhabited T] [Fresh T]
    (value : Ref T) (nd : Bool) :
    (SimpleVector.ctor_default : SimpleVector T).Insert_copy nd 0 value
      = Except.error Fault.undefined := by
  cases nd <;> cases value <;> rfl

/-- C7: `At(i)` throws `std::out_of_range` exactly when `i >= size`; for
`i < size` it is the same read as `operator[]`, and on a vector satisfying the
invariant it returns the element of the logical sequence at `i`. `At` is a
read: it produces no new vector state. `At(5)` on a two-element vector throws. -/
theorem C7_At (T : Type) [Inhabited T] [Fresh T] (v : SimpleVector T) (i : Nat) :
    (v.At i = .error Fault.out_of_range ↔ i ≥ v.size_) ∧
    (∀ nd, i < v.size_ → v.At i = v.index nd i) ∧
    (v.Inv → i < v.size_ → ∃ x, v.At i = .ok x ∧ v.elems[i]? = some x) ∧
    (∀ (a b : T) (w : SimpleVector T), SimpleVector.ctor_init [a, b] = .ok w →
      w.At 5 = .error Fault.out_of_range) := by
  refine ⟨⟨fun h => ?_, fun h => ?_⟩, fun nd hi => ?_, fun h hi => ?_, fun a b w hw => ?_⟩
  · by_contra hlt
    simp only [SimpleVector.At, if_neg hlt] at h
    exact read_ne_out_of_range _ _ h
  · simp only [SimpleVector.At, if_pos h]
  · have hn : ¬ i ≥ v.size_ := by omega
    have ha : assert_ nd (decide (i < v.size_)) = .ok () := assert_true _ _ (by simp [hi])
    simp only [SimpleVector.At, if_neg hn, SimpleVector.index, ha, ok_bind]
  · have hn : ¬ i ≥ v.size_ := by omega
    obtain ⟨x, hx1, hx2⟩ := read_in_slots v.array_ptr_ i (by have := Inv_size_le_slots v h; omega)
    refine ⟨x, ?_, ?_⟩
    · simp only [SimpleVector.At, if_neg hn]
      exact hx1
    · rw [elems_getElem?, if_pos hi]
      exact hx2
  · injection hw with hw
    subst hw
    rfl

/-- Witness for C7 on the vector `[9, 2]`: `At(5)` throws and `At(1)` returns
the element `2`. -/
theorem C7_At_witness :
    (SimpleVector.mk (ArrayPtr.mk (some [9, 2])) 2 2 : SimpleVector Nat).At 5
      = .error Fault.out_of_range ∧
    ∃ x, (SimpleVector.mk (ArrayPtr.mk (some [9, 2])) 2 2 : SimpleVector Nat).At 1 = .ok x ∧
      (SimpleVector.mk (ArrayPtr.mk (some [9, 2])) 2 2 : SimpleVector Nat).elems[1]? = some x :=
  ⟨(C7_At Nat (SimpleVector.mk (ArrayPtr.mk (some [9, 2])) 2 2) 5).1.mpr (by decide),
    (C7_At Nat (SimpleVector.mk (ArrayPtr.mk (some [9, 2])) 2 2) 1).2.2.1 (by decide)
      (by decide)⟩

/-- C8: `PopBack` on a non-empty vector should pass its assertion and drop the
last element. The assertion in the code is `assert(IsEmpty())`: on `[9, 2, 3]`
a debug build stops at it; only with `NDEBUG` does the call return `[9, 2]`
with the capacity unchanged. On an empty vector the assertion passes and
`--size_` wraps to `SIZE_MOD - 1`. -/
theorem C8_PopBack_assertion_is_inverted :
    (SimpleVector.mk (ArrayPtr.mk (some [9, 2, 3])) 3 3 : SimpleVector Nat).PopBack false
      = Except.error Fault.assertion ∧
    (SimpleVector.mk (ArrayPtr.mk (some [9, 2, 3])) 3 3 : SimpleVector Nat).PopBack true
      = Except.ok (SimpleVector.mk (ArrayPtr.mk (some [9, 2, 3])) 2 3) ∧
    (SimpleVector.mk (ArrayPtr.mk (some [9, 2, 3])) 2 3 : SimpleVector Nat).elems = [9, 2] ∧
    (SimpleVector.ctor_default : SimpleVector Nat).PopBack false
      = Except.ok (SimpleVector.mk (ArrayPtr.mk none) 18446744073709551615 0) := by
  decide

/-- C9: on a vector satisfying the invariant, `Reserve(new_cap)` returns a
vector with the same size and the same logical sequence; its capacity is
`new_cap` when `new_cap > capacity`, and the whole state is unchanged when
`new_cap <= capacity`. -/
theorem C9_Reserve (T : Type) [Inhabited T] [Fresh T] (v : SimpleVector T) (new_cap : Nat)
    (h : v.Inv) :
    ∃ r, v.Reserve new_cap = .ok r ∧ r.size_ = v.size_ ∧ r.elems = v.elems ∧
      (new_cap > v.capacity_ → r.capacity_ = new_cap) ∧
      (new_cap ≤ v.capacity_ → r = v) := by
  obtain ⟨r, e1, e2, e3, e4, e5, _⟩ := Reserve_spec v new_cap h
  exact ⟨r, e1, e2, e3, e4, e5⟩

/-- Witness for C9: `Reserve(5)` on `[1, 2, 3]` of capacity 3. -/
theorem C9_Reserve_witness :
    ∃ r, (SimpleVector.mk (ArrayPtr.mk (some [1, 2, 3])) 3 3 : SimpleVector Nat).Reserve 5
        = .ok r ∧ r.size_ = 3 ∧ r.elems = [1, 2, 3] ∧ r.capacity_ = 5 := by
  obtain ⟨r, e1, e2, e3, e4, _⟩ := C9_Reserve Nat
    (SimpleVector.mk (ArrayPtr.mk (some [1, 2, 3])) 3 3) 5 (by decide)
  exact ⟨r, e1, e2, e3, e4 (by decide)⟩

/-- C10: on a vector satisfying the invariant, `Resize(new_size)` returns a
vector of size `new_size` and capacity `max(capacity, new_size)`; the elements
below `min(size, new_size)` are unchanged and every element at an index in
`[size, new_size)` is `Type()`. `Reserve(10)` then `Resize(3)` on an empty
vector gives size 3, capacity 10 and three default elements. -/
theorem C10_Resize (T : Type) [Inhabited T] [Fresh T] :
    (∀ (v : SimpleVector T) (new_size : Nat), v.Inv →
      ∃ r, v.Resize new_size = .ok r ∧ r.size_ = new_size ∧
        r.capacity_ = max v.capacity_ new_size ∧
        (∀ i, i < min v.size_ new_size → ∃ y, v.elems[i]? = some y ∧ r.elems[i]? = some y) ∧
        (∀ i, v.size_ ≤ i → i < new_size → r.elems[i]? = some default)) ∧
    (∃ r1 r2, (SimpleVector.ctor_default : SimpleVector T).Reserve 10 = .ok r1 ∧
      r1.size_ = 0 ∧ r1.capacity_ = 10 ∧ r1.Resize 3 = .ok r2 ∧ r2.size_ = 3 ∧
      r2.capacity_ = 10 ∧ r2.elems = [default, default, default]) := by
  refine ⟨fun v n h => ?_, ⟨_, _, rfl, rfl, rfl, rfl, rfl, rfl, rfl⟩⟩
  have hsl := Inv_size_le_slots v h
  obtain ⟨r, e1, e2, e3, e4, e5, _, _⟩ := Resize_spec v n h
  refine ⟨r, e1, e2, e3, fun i hi => ?_, fun i hi1 hi2 => ?_⟩
  · have hi1 : i < v.size_ := by omega
    have hi2 : i < n := by omega
    obtain ⟨y, _, hy⟩ := read_in_slots v.array_ptr_ i (by omega)
    refine ⟨y, ?_, ?_⟩
    · rw [elems_getElem?, if_pos hi1]
      exact hy
    · rw [elems_getElem?, e2, if_pos hi2, e4 i hi1 hi2]
      exact hy
  · rw [elems_getElem?, e2, if_pos hi2]
    exact e5 i hi1 hi2

/-- Witness for C10: `Resize(5)` on `[1, 2, 3]` of capacity 3. -/
theorem C10_Resize_witness :
    ∃ r, (SimpleVector.mk (ArrayPtr.mk (some [1, 2, 3])) 3 3 : SimpleVector Nat).Resize 5
        = .ok r ∧ r.size_ = 5 ∧ r.capacity_ = 5 ∧ r.elems[4]? = some 0 := by
  obtain ⟨r, e1, e2, e3, _, e5⟩ := (C10_Resize Nat).1
    (SimpleVector.mk (ArrayPtr.mk (some [1, 2, 3])) 3 3) 5 (by decide)
  exact ⟨r, e1, e2, e3, e5 4 (by decide) (by decide)⟩

/-- C11, as stated, fails for an element type whose `==` is not reflexive, as
`double` is at NaN. With `x == y` false whenever `x` is `0`, the copy of the
vector `[0]` holds `[0]` and yet `operator==` between the copy and the source
returns false. -/
theorem C11_copy_counterexample :
    SimpleVector.ctor_copy (SimpleVector.mk (ArrayPtr.mk (some [0])) 1 1 : SimpleVector Nat)
      = .ok (SimpleVector.mk (ArrayPtr.mk (some [0])) 1 1) ∧
    op_eq (fun x y => decide (x = y) && decide (x ≠ 0))
      (SimpleVector.mk (ArrayPtr.mk (some [0])) 1 1 : SimpleVector Nat)
      (SimpleVector.mk (ArrayPtr.mk (some [0])) 1 1) = .ok false := by
  decide

/-- C11, amended: for an element type whose `==` is reflexive, copy
construction from a vector `src` satisfying the invariant returns a vector `c`
that compares equal to `src` under `operator==`, holds the elements of `src`,
and has size and capacity both equal to the size of `src`; `src` is as before.
The block of `c` is none of the blocks that were live before the call, and no
write through the pointer of `c` changes what `src` holds. Copy assignment
from `src` into a distinct live vector `dst` returns the same `c`, with the
same properties, after releasing the former block of `dst`. Seen as values,
`c` is what the operations embedded over values return. -/
theorem C11_copy (T : Type) [Inhabited T] [Fresh T] (eqT : T → T → Bool) (h : Heap T)
    (src : StoredVector) (hinv : (src.view h).Inv) (hrefl : ∀ x, eqT x x = true) :
    ∃ h1 c, StoredVector.ctor_copy h src = .ok (h1, c) ∧
      SimpleVector.ctor_copy (src.view h) = .ok (c.view h1) ∧
      op_eq eqT (c.view h1) (src.view h1) = .ok true ∧
      (c.view h1).elems = (src.view h).elems ∧
      c.size_ = src.size_ ∧ c.capacity_ = src.size_ ∧ (c.view h1).Inv ∧
      src.view h1 = src.view h ∧
      (∀ a b, h.deref (some a) = some b → c.raw_ptr_ ≠ some a) ∧
      (∀ i y h2, h1.write c.raw_ptr_ i y = .ok h2 → src.view h2 = src.view h) ∧
      (∀ dst : StoredVector,
        (dst.raw_ptr_ = none ∨ (dst.raw_ptr_ ≠ src.raw_ptr_ ∧ ∃ b, h.deref dst.raw_ptr_ = some b)) →
        ∃ h3, StoredVector.assign_copy h dst src = .ok (h3, c) ∧
          SimpleVector.assign_copy (dst.view h) (src.view h) = .ok (c.view h3) ∧
          c.view h3 = c.view h1 ∧ src.view h3 = src.view h ∧
          (∀ i y h4, h3.write c.raw_ptr_ i y = .ok h4 → src.view h4 = src.view h)) := by
  obtain ⟨h1, c, e1, e2, e3, e4⟩ := heap_ctor_copy_spec h src hinv
  obtain ⟨a, f1, f2, f3, f4⟩ := ctor_copy_spec (src.view h) hinv
  have hv : c.view h1 = SimpleVector.mk a src.size_ src.size_ := by
    rw [f1] at e2
    injection e2 with e2
    exact e2.symm
  have hI : (c.view h1).Inv := by
    rw [hv]
    exact Inv_of_slots a _ f2 f3 (Nat.lt_of_le_of_lt hinv.1 hinv.2.2.2)
  have hE : (c.view h1).elems = (src.view h).elems := by
    rw [hv]
    exact (elems_of_cells a _ f2).trans f4
  have hc : (c.raw_ptr_ = none ∧ h1 = h) ∨
      (c.raw_ptr_ = some h.blocks.length ∧ ∃ b1, h1 = Heap.mk (h.blocks ++ [some b1])) := by
    rcases e3 with ⟨_, g2, g3⟩ | ⟨_, g2, g3⟩
    · exact Or.inl ⟨by rw [g3]; rfl, g2⟩
    · exact Or.inr ⟨by rw [g2], g3⟩
  have hfresh : ∀ a b, h.deref (some a) = some b → c.raw_ptr_ ≠ some a := by
    intro a b hd hca
    have hlt := deref_live_lt h a b hd
    rcases hc with ⟨g, _⟩ | ⟨g, _⟩
    · rw [g] at hca
      exact Option.noConfusion hca
    · rw [g] at hca
      injection hca with hca
      omega
  have hsrc : c.raw_ptr_ = none ∨ src.raw_ptr_ ≠ c.raw_ptr_ := by
    rcases e3 with ⟨_, _, g3⟩ | ⟨g1, g2, _⟩
    · exact Or.inl (by rw [g3]; rfl)
    · obtain ⟨a1, b1, hp, hd, _, _⟩ := view_live h src hinv g1
      exact Or.inr (fun e => hfresh a1 b1 hd (by rw [← e, hp]))
  have hwrite : ∀ (h0 : Heap T) i y h2, h0.write c.raw_ptr_ i y = .ok h2 →
      src.view h2 = src.view h0 := by
    intro h0 i y h2 hw
    rcases hsrc with g | g
    · rw [g] at hw
      simp [Heap.write] at hw
    · exact heap_write_view h0 h2 c.raw_ptr_ i y src g hw
  have hsize : c.size_ = src.size_ ∧ c.capacity_ = src.size_ := by
    rcases e3 with ⟨g1, _, g3⟩ | ⟨_, g2, _⟩
    · rw [g3, g1]
      exact ⟨rfl, rfl⟩
    · rw [g2]
      exact ⟨rfl, rfl⟩
  refine ⟨h1, c, e1, e2, ?_, hE, hsize.1, hsize.2, hI, e4, hfresh, ?_, ?_⟩
  · rw [e4, op_eq_spec eqT _ _ hI hinv, hE, seq_equal_refl eqT hrefl]
  · intro i y h2 hw
    rw [hwrite h1 i y h2 hw, e4]
  · intro dst hdst
    have hq : dst.raw_ptr_ = none ∨ ∃ b, h1.deref dst.raw_ptr_ = some b := by
      rcases hdst with g | ⟨_, b, hb⟩
      · exact Or.inl g
      · right
        rcases hc with ⟨_, g⟩ | ⟨_, b1, g⟩
        · rw [g]
          exact ⟨b, hb⟩
        · refine ⟨b, ?_⟩
          rw [g]
          cases hp : dst.raw_ptr_ with
          | none => rw [hp] at hb; exact Option.noConfusion hb
          | some q =>
            rw [hp] at hb
            rw [deref_append _ _ _ (fun a1 e => by
              injection e with e
              rw [← e]
              exact deref_live_lt h q b hb)]
            exact hb
    obtain ⟨h3, d1, d2⟩ := heap_delete_view h1 dst.raw_ptr_ hq
    have hcd : c.raw_ptr_ ≠ dst.raw_ptr_ ∨ dst.raw_ptr_ = none := by
      rcases hdst with g | ⟨_, b, hb⟩
      · exact Or.inr g
      · left
        intro e
        cases hp : dst.raw_ptr_ with
        | none => rw [hp] at hb; exact Option.noConfusion hb
        | some q =>
          rw [hp] at hb e
          exact hfresh q b hb e
    have hsd : src.raw_ptr_ ≠ dst.raw_ptr_ ∨ dst.raw_ptr_ = none := by
      rcases hdst with g | ⟨g, _⟩
      · exact Or.inr g
      · exact Or.inl (fun e => g e.symm)
    have hc3 : c.view h3 = c.view h1 := d2 c hcd
    have hs3 : src.view h3 = src.view h := by rw [d2 src hsd, e4]
    refine ⟨h3, ?_, ?_, hc3, hs3, ?_⟩
    · simp only [StoredVector.assign_copy, e1, ok_bind, StoredVector.swap, StoredVector.dtor, d1]
    · rw [assign_copy_eq, hc3]
      exact e2
    · intro i y h4 hw
      rw [hwrite h3 i y h4 hw, hs3]

/-- Witness for C11: `[1, 2, 3]` held in six slots at address 0 is copied into
a block of three slots at address 1, and a write through the copy leaves the
source as it was. -/
theorem C11_copy_witness :
    ∃ h1 c, StoredVector.ctor_copy (Heap.mk [some [1, 2, 3, 0, 0, 0]])
        (StoredVector.mk (some 0) 3 6) = .ok (h1, c) ∧
      op_eq (fun x y => decide (x = y)) (c.view h1)
        ((StoredVector.mk (some 0) 3 6).view h1) = .ok true ∧
      c.size_ = 3 ∧ c.capacity_ = 3 ∧
      (StoredVector.mk (some 0) 3 6).view h1
        = SimpleVector.mk (ArrayPtr.mk (some [1, 2, 3, 0, 0, 0])) 3 6 ∧
      ∀ i y h2, h1.write c.raw_ptr_ i y = .ok h2 →
        (StoredVector.mk (some 0) 3 6).view h2
          = SimpleVector.mk (ArrayPtr.mk (some [1, 2, 3, 0, 0, 0])) 3 6 := by
  obtain ⟨h1, c, e1, _, e3, _, e5, e6, _, e8, _, e10, _⟩ := C11_copy Nat
    (fun x y => decide (x = y)) (Heap.mk [some [1, 2, 3, 0, 0, 0]]) (StoredVector.mk (some 0) 3 6)
    (by decide) (by simp)
  exact ⟨h1, c, e1, e3, e5, e6, e8, e10⟩

/-- C12: move construction from `src` and move assignment from a distinct
`src` satisfying the invariant leave `src` with size 0, and the destination,
whatever it held, ends with the size and the logical sequence of `src`. -/
theorem C12_move (T : Type) [Inhabited T] [Fresh T] (src : SimpleVector T) (h : src.Inv) :
    ((SimpleVector.ctor_move src).1.size_ = src.size_ ∧
      (SimpleVector.ctor_move src).1.elems = src.elems ∧
      (SimpleVector.ctor_move src).2.size_ = 0) ∧
    ∀ dst : SimpleVector T, ∃ d s, dst.assign_move src = .ok (d, s) ∧
      d.size_ = src.size_ ∧ d.elems = src.elems ∧ s.size_ = 0 := by
  refine ⟨⟨rfl, rfl, rfl⟩, fun dst => ?_⟩
  obtain ⟨a, e1, e2, e3, e4⟩ := assign_move_spec dst src h
  exact ⟨_, _, e1, rfl, by rw [elems_of_cells a _ e2, e4], rfl⟩

/-- Witness for C12: moving `[1, 2, 3]` held in six slots into the vector `[7]`. -/
theorem C12_move_witness :
    ∃ d s, (SimpleVector.mk (ArrayPtr.mk (some [7])) 1 1 : SimpleVector Nat).assign_move
        (SimpleVector.mk (ArrayPtr.mk (some [1, 2, 3, 0, 0, 0])) 3 6) = .ok (d, s) ∧
      d.size_ = 3 ∧ d.elems = [1, 2, 3] ∧ s.size_ = 0 :=
  (C12_move Nat (SimpleVector.mk (ArrayPtr.mk (some [1, 2, 3, 0, 0, 0])) 3 6) (by decide)).2
    (SimpleVector.mk (ArrayPtr.mk (some [7])) 1 1)

/-- C13, as stated, fails: move assignment from `[1, 2, 3]` held in six slots
(size 3, capacity 6, satisfying the invariant) into the vector `[7]` leaves the
destination with capacity 3, not 6. -/
theorem C13_move_assign_capacity_counterexample :
    (SimpleVector.mk (ArrayPtr.mk (some [1, 2, 3, 0, 0, 0])) 3 6 : SimpleVector Nat).Inv ∧
    (SimpleVector.mk (ArrayPtr.mk (some [7])) 1 1 : SimpleVector Nat).assign_move
        (SimpleVector.mk (ArrayPtr.mk (some [1, 2, 3, 0, 0, 0])) 3 6)
      = .ok (SimpleVector.mk (ArrayPtr.mk (some [1, 2, 3])) 3 3,
          SimpleVector.mk (ArrayPtr.mk (some [1, 2, 3, 0, 0, 0])) 0 6) ∧
    ¬ (∀ dst src d s : SimpleVector Nat, src.Inv → dst.assign_move src = .ok (d, s) →
        d.capacity_ = src.capacity_) := by
  refine ⟨by decide, by decide, fun hall => ?_⟩
  have := hall (SimpleVector.mk (ArrayPtr.mk (some [7])) 1 1)
    (SimpleVector.mk (ArrayPtr.mk (some [1, 2, 3, 0, 0, 0])) 3 6)
    (SimpleVector.mk (ArrayPtr.mk (some [1, 2, 3])) 3 3)
    (SimpleVector.mk (ArrayPtr.mk (some [1, 2, 3, 0, 0, 0])) 0 6) (by decide) (by decide)
  simp at this

/-- C13, amended: move assignment from a distinct `src` satisfying the
invariant gives the destination a buffer of its own with exactly `src.size`
slots, so the destination's capacity equals the size `src` had; `src` keeps
its buffer and its capacity, with size 0. -/
theorem C13_move_assign_capacity (T : Type) [Inhabited T] [Fresh T] (dst src : SimpleVector T)
    (h : src.Inv) :
    ∃ d s, dst.assign_move src = .ok (d, s) ∧ d.capacity_ = src.size_ ∧
      d.array_ptr_.slots = src.size_ ∧ d.Inv ∧
      s.capacity_ = src.capacity_ ∧ s.array_ptr_ = src.array_ptr_ ∧ s.size_ = 0 := by
  obtain ⟨a, e1, e2, e3, e4⟩ := assign_move_spec dst src h
  exact ⟨_, _, e1, rfl, e2,
    Inv_of_slots a _ e2 e3 (by have := h.1; have := h.2.2.2; omega), rfl, rfl, rfl⟩

/-- Witness for the amended C13 on `[1, 2, 3]` held in six slots. -/
theorem C13_move_assign_capacity_witness :
    ∃ d s, (SimpleVector.mk (ArrayPtr.mk (some [7])) 1 1 : SimpleVector Nat).assign_move
        (SimpleVector.mk (ArrayPtr.mk (some [1, 2, 3, 0, 0, 0])) 3 6) = .ok (d, s) ∧
      d.capacity_ = 3 ∧ s.capacity_ = 6 := by
  obtain ⟨d, s, e1, e2, _, _, e5, _⟩ := C13_move_assign_capacity Nat
    (SimpleVector.mk (ArrayPtr.mk (some [7])) 1 1)
    (SimpleVector.mk (ArrayPtr.mk (some [1, 2, 3, 0, 0, 0])) 3 6) (by decide)
  exact ⟨d, s, e1, e2, e5⟩

/-- C14: for vectors `a`, `b` satisfying the invariant over an element type
whose `==` is consistent with its `<` (equal elements are not ordered either
way): the operators return, `a == b` implies `!(a < b)` and `!(b < a)`, and
`a <= b` holds exactly when `a < b` or `a == b`. -/
theorem C14_operator_consistency (T : Type) (eqT ltT : T → T → Bool) (a b : SimpleVector T)
    (ha : a.Inv) (hb : b.Inv)
    (hcons : ∀ x y, eqT x y = true → ltT x y = false ∧ ltT y x = false) :
    (∃ e l g le, op_eq eqT a b = .ok e ∧ op_lt ltT a b = .ok l ∧ op_lt ltT b a = .ok g ∧
      op_le eqT ltT a b = .ok le) ∧
    (op_eq eqT a b = .ok true → op_lt ltT a b = .ok false ∧ op_lt ltT b a = .ok false) ∧
    (op_le eqT ltT a b = .ok true ↔ (op_lt ltT a b = .ok true ∨ op_eq eqT a b = .ok true)) := by
  rw [op_eq_spec eqT a b ha hb, op_lt_spec ltT a b ha hb, op_lt_spec ltT b a hb ha,
    op_le_spec eqT ltT a b ha hb]
  refine ⟨⟨_, _, _, _, rfl, rfl, rfl, rfl⟩, fun he => ?_, ?_⟩
  · injection he with he
    obtain ⟨r1, r2⟩ := seq_equal_not_less eqT ltT hcons _ _ he
    rw [r1, r2]
    exact ⟨rfl, rfl⟩
  · cases seq_equal eqT a.elems b.elems <;> cases seq_less ltT a.elems b.elems <;> simp

/-- Witness for C14 on `[1, 2, 3]` compared with itself over the natural
numbers. -/
theorem C14_operator_consistency_witness :
    op_eq (fun x y => decide (x = y))
        (SimpleVector.mk (ArrayPtr.mk (some [1, 2, 3])) 3 3 : SimpleVector Nat)
        (SimpleVector.mk (ArrayPtr.mk (some [1, 2, 3])) 3 3) = .ok true ∧
    op_lt (fun x y => decide (x < y))
        (SimpleVector.mk (ArrayPtr.mk (some [1, 2, 3])) 3 3 : SimpleVector Nat)
        (SimpleVector.mk (ArrayPtr.mk (some [1, 2, 3])) 3 3) = .ok false :=
  ⟨by decide,
    ((C14_operator_consistency Nat (fun x y => decide (x = y)) (fun x y => decide (x < y))
      (SimpleVector.mk (ArrayPtr.mk (some [1, 2, 3])) 3 3)
      (SimpleVector.mk (ArrayPtr.mk (some [1, 2, 3])) 3 3) (by decide) (by decide)
      (fun x y h => by simp at h; subst h; simp)).2.1 (by decide)).1⟩

/-- C15: for vectors `a`, `b` satisfying the invariant, the relational
operators return the ordinary comparison of the logical sequences (the first
`size` slots), so slots beyond the size never matter: `a == b` is `seq_equal`,
true exactly when the sizes match and the elements at every index compare
equal; `a < b` is `seq_less`, the lexicographic order with a proper prefix
counting as less; `a != b` is the negation of `a == b`; and over a strictly
totally ordered element type `a > b` is `b < a` and `a >= b` is the negation
of `a < b`. -/
theorem C15_operators_compare_sequences (T : Type) (eqT ltT : T → T → Bool)
    (a b : SimpleVector T) (ha : a.Inv) (hb : b.Inv) :
    op_eq eqT a b = .ok (seq_equal eqT a.elems b.elems) ∧
    (op_eq eqT a b = .ok true ↔
      a.size_ = b.size_ ∧
      ∀ (i : Nat) (x y : T), a.elems[i]? = some x → b.elems[i]? = some y → eqT x y = true) ∧
    op_lt ltT a b = .ok (seq_less ltT a.elems b.elems) ∧
    (op_lt ltT a b = .ok true ↔
      ∃ k, (∀ (i : Nat), i < k → ∃ (x y : T), a.elems[i]? = some x ∧ b.elems[i]? = some y ∧
              ltT x y = false ∧ ltT y x = false) ∧
        ((k = a.size_ ∧ k < b.size_) ∨
          ∃ (x y : T), a.elems[k]? = some x ∧ b.elems[k]? = some y ∧ ltT x y = true)) ∧
    op_ne eqT a b = .ok (!seq_equal eqT a.elems b.elems) ∧
    ((∀ x y, ltT x y = true → ltT y x = false) →
      (∀ x y, eqT x y = true ↔ (ltT x y = false ∧ ltT y x = false)) →
      op_gt eqT ltT a b = op_lt ltT b a ∧
      op_ge eqT ltT a b = .ok (!seq_less ltT a.elems b.elems)) := by
  have la := elems_length a (Inv_size_le_slots a ha)
  have lb := elems_length b (Inv_size_le_slots b hb)
  refine ⟨op_eq_spec eqT a b ha hb, ?_, op_lt_spec ltT a b ha hb, ?_, op_ne_spec eqT a b ha hb,
    fun hasym htri => ⟨?_, ?_⟩⟩
  · rw [op_eq_spec eqT a b ha hb]
    constructor
    · intro h
      injection h with h
      have := (seq_equal_iff eqT _ _).mp h
      rw [la, lb] at this
      exact this
    · intro h
      rw [← la, ← lb] at h
      rw [(seq_equal_iff eqT _ _).mpr h]
  · rw [op_lt_spec ltT a b ha hb]
    constructor
    · intro h
      injection h with h
      have := (seq_less_iff ltT _ _).mp h
      rw [la, lb] at this
      exact this
    · intro h
      rw [← la, ← lb] at h
      rw [(seq_less_iff ltT _ _).mpr h]
  · rw [op_gt_spec eqT ltT a b ha hb, op_lt_spec ltT b a hb ha,
      seq_trichotomy eqT ltT hasym htri]
  · rw [op_ge_spec eqT ltT a b ha hb]
    cases he : seq_equal eqT a.elems b.elems with
    | false => simp
    | true =>
      have := (seq_equal_not_less eqT ltT (fun x y h => (htri x y).mp h) _ _ he).1
      simp [this]

/-- Witness for C15: `[1, 2]` against `[1, 2, 3]` over the natural numbers,
each held in four slots with differing contents beyond the size. -/
theorem C15_operators_compare_sequences_witness :
    op_lt (fun x y => decide (x < y))
        (SimpleVector.mk (ArrayPtr.mk (some [1, 2, 9, 9])) 2 4 : SimpleVector Nat)
        (SimpleVector.mk (ArrayPtr.mk (some [1, 2, 3, 0])) 3 4) = .ok true ∧
    op_gt (fun x y => decide (x = y)) (fun x y => decide (x < y))
        (SimpleVector.mk (ArrayPtr.mk (some [1, 2, 3, 0])) 3 4 : SimpleVector Nat)
        (SimpleVector.mk (ArrayPtr.mk (some [1, 2, 9, 9])) 2 4)
      = op_lt (fun x y => decide (x < y))
        (SimpleVector.mk (ArrayPtr.mk (some [1, 2, 9, 9])) 2 4 : SimpleVector Nat)
        (SimpleVector.mk (ArrayPtr.mk (some [1, 2, 3, 0])) 3 4) :=
  ⟨by decide,
    ((C15_operators_compare_sequences Nat (fun x y => decide (x = y))
      (fun x y => decide (x < y))
      (SimpleVector.mk (ArrayPtr.mk (some [1, 2, 3, 0])) 3 4)
      (SimpleVector.mk (ArrayPtr.mk (some [1, 2, 9, 9])) 2 4) (by decide) (by decide)).2.2.2.2.2
      (fun x y h => by simp at h ⊢; omega)
      (fun x y => by simp; omega)).1⟩

/-- C16: every constructor returns, with the documented state: `SimpleVector()`
has size and capacity 0; `SimpleVector(count)` has size and capacity `count`
and every element `Type()`; `SimpleVector(count, value)` has size and capacity
`count` and every element `value`; the constructor from an initializer list of
length `n` has size and capacity `n` and the elements in list order;
`SimpleVector(Reserve(n))` has size 0 and capacity `n`. -/
theorem C16_constructors (T : Type) [Inhabited T] [Fresh T] :
    ((SimpleVector.ctor_default : SimpleVector T).size_ = 0 ∧
      (SimpleVector.ctor_default : SimpleVector T).capacity_ = 0) ∧
    (∀ count, ∃ r, (SimpleVector.ctor_size count : Res (SimpleVector T)) = .ok r ∧
      r.size_ = count ∧ r.capacity_ = count ∧ r.elems = List.replicate count default) ∧
    (∀ count (value : T), ∃ r, SimpleVector.ctor_size_value count value = .ok r ∧
      r.size_ = count ∧ r.capacity_ = count ∧ r.elems = List.replicate count value) ∧
    (∀ init : List T, ∃ r, SimpleVector.ctor_init init = .ok r ∧
      r.size_ = init.length ∧ r.capacity_ = init.length ∧ r.elems = init) ∧
    (∀ n, ∃ r, (SimpleVector.ctor_reserve n : Res (SimpleVector T)) = .ok r ∧
      r.size_ = 0 ∧ r.capacity_ = n) := by
  refine ⟨⟨rfl, rfl⟩, fun count => ?_, fun count value => ?_, fun init => ?_, fun n => ?_⟩
  · refine ⟨_, SimpleVector_ctor_size_eq count, rfl, rfl, ?_⟩
    rw [elems_of_cells _ _ (value_block_slots count), value_block_cells]
  · obtain ⟨a, e1, e2, _, e4⟩ := ctor_size_value_spec count value
    exact ⟨_, e1, rfl, rfl, by rw [elems_of_cells a _ e2, e4]⟩
  · obtain ⟨a, e1, e2, _, e4⟩ := ctor_init_spec init
    exact ⟨_, e1, rfl, rfl, by rw [elems_of_cells a _ e2, e4]⟩
  · obtain ⟨r, e1, e2, _, e4, e5, _⟩ := Reserve_spec (SimpleVector.ctor_default : SimpleVector T) n
      (Inv_mk_none T)
    refine ⟨r, e1, e2, ?_⟩
    by_cases hn : 0 < n
    · exact e4 hn
    · have h0 : n = 0 := by omega
      subst h0
      rw [e5 (Nat.le_refl _)]
      rfl

/-- C17: on a vector satisfying the invariant whose doubled capacity is
representable in `size_t`, none of `Clear`, `Reserve`, `Resize`, `PushBack`,
`Insert`, `PopBack` and `Erase`, called within its precondition, returns a
vector of smaller capacity. `Clear`, `Reserve`, `Resize`, `PushBack(Type&&)`,
`Insert(pos, Type&&)` and `Erase` always return; the copy overloads return
when the capacity is nonzero (or the position is not the end), and `PopBack`
on a non-empty vector returns under `NDEBUG`. The argument of `Insert` is any
reference that can be read on entry, into the vector itself or not. -/
theorem C17_capacity_never_decreases (T : Type) [Inhabited T] [Fresh T] (v : SimpleVector T)
    (h : v.Inv) (hfit : 2 * v.capacity_ < SIZE_MOD) :
    v.capacity_ ≤ v.Clear.capacity_ ∧
    (∀ n, ∃ r, v.Reserve n = .ok r ∧ v.capacity_ ≤ r.capacity_) ∧
    (∀ n, ∃ r, v.Resize n = .ok r ∧ v.capacity_ ≤ r.capacity_) ∧
    (∀ x, ∃ r, v.PushBack_move x = .ok r ∧ v.capacity_ ≤ r.capacity_) ∧
    (∀ x r, v.PushBack_copy x = .ok r → v.capacity_ ≤ r.capacity_) ∧
    (∀ x, v.capacity_ ≠ 0 → ∃ r, v.PushBack_copy x = .ok r ∧ v.capacity_ ≤ r.capacity_) ∧
    (∀ nd pos value (x : T), pos ≤ v.size_ → value.get v.array_ptr_ = .ok x →
      ∃ r, v.Insert_move nd pos value = .ok r ∧ v.capacity_ ≤ r.2.capacity_) ∧
    (∀ nd pos value r, pos ≤ v.size_ → v.Insert_copy nd pos value = .ok r →
      v.capacity_ ≤ r.2.capacity_) ∧
    (∀ nd pos value (x : T), pos ≤ v.size_ → (pos = v.size_ → v.capacity_ ≠ 0) →
      value.get v.array_ptr_ = .ok x →
      ∃ r, v.Insert_copy nd pos value = .ok r ∧ v.capacity_ ≤ r.2.capacity_) ∧
    (∀ nd r, v.size_ ≠ 0 → v.PopBack nd = .ok r → v.capacity_ ≤ r.capacity_) ∧
    (v.size_ ≠ 0 → ∃ r, v.PopBack true = .ok r ∧ v.capacity_ ≤ r.capacity_) ∧
    (∀ nd pos, pos < v.size_ →
      ∃ r, v.Erase nd pos = .ok (pos, r) ∧ v.capacity_ ≤ r.capacity_) := by
  refine ⟨Nat.le_refl _, fun n => ?_, fun n => ?_, fun x => ?_, fun x r hr => ?_,
    fun x hc => ?_, fun nd pos value x hp hx => ?_, fun nd pos value r hp hr => ?_,
    fun nd pos value x hp hc hx => ?_, fun nd r hs hr => ?_, fun hs => ?_, fun nd pos hp => ?_⟩
  · obtain ⟨r, e1, _, _, e4, e5, _⟩ := Reserve_spec v n h
    refine ⟨r, e1, ?_⟩
    by_cases hn : v.capacity_ < n
    · rw [e4 hn]
      omega
    · rw [e5 (by omega)]
  · obtain ⟨r, e1, _, e3, _⟩ := Resize_spec v n h
    exact ⟨r, e1, by rw [e3]; exact Nat.le_max_left _ _⟩
  · obtain ⟨r, e1, _⟩ := PushBack_move_spec v x h (fun _ => hfit)
    exact ⟨r, e1, (PushBack_move_ok_facts v x r h e1).2.1⟩
  · exact (PushBack_copy_ok_facts v x r h hr).2.1
  · obtain ⟨r, e1, _⟩ := PushBack_copy_spec v x h hc (fun _ => hfit)
    exact ⟨r, e1, (PushBack_copy_ok_facts v x r h e1).2.1⟩
  · obtain ⟨r, e1⟩ := Insert_move_returns_ref nd v pos value x h hp (fun _ => hfit) hx
    exact ⟨r, e1, (Insert_move_ok_ref nd v pos value r h hp e1).2⟩
  · exact (Insert_copy_ok_ref nd v pos value r h hp hr).2
  · obtain ⟨r, e1⟩ := Insert_copy_returns_ref nd v pos value x h hp hc (fun _ => hfit) hx
    exact ⟨r, e1, (Insert_copy_ok_ref nd v pos value r h hp e1).2⟩
  · cases nd with
    | false => rw [PopBack_debug_nonempty v hs] at hr; simp at hr
    | true =>
      rw [PopBack_ndebug] at hr
      injection hr with hr
      rw [← hr]
  · exact ⟨_, PopBack_ndebug v, Nat.le_refl _⟩
  · obtain ⟨r, e1, _, e3, _⟩ := Erase_spec nd v pos h hp
    exact ⟨r, e1, by rw [e3]⟩

/-- Witness for C17 on the full vector `[1, 2, 3]` of capacity 3:
`PushBack(Type&&)` returns a vector of capacity at least 3. -/
theorem C17_capacity_never_decreases_witness :
    ∃ r, (SimpleVector.mk (ArrayPtr.mk (some [1, 2, 3])) 3 3 : SimpleVector Nat).PushBack_move 4
        = .ok r ∧ 3 ≤ r.capacity_ :=
  (C17_capacity_never_decreases Nat (SimpleVector.mk (ArrayPtr.mk (some [1, 2, 3])) 3 3)
    (by decide) (by decide)).2.2.2.1 4

/-- C18: with the held block as an optional handle, `ArrayPtr(size_t 0)` and
`ArrayPtr()` hold `nullptr`; `operator bool` is true exactly when the handle is
not null; `Release()` returns the handle `Get()` returned before the call and
leaves the `ArrayPtr` holding `nullptr`, with `operator bool` false; `swap`
exchanges the two handles, and swapping twice restores both. -/
theorem C18_ArrayPtr_ownership (T : Type) [Inhabited T] [Fresh T] :
    (ArrayPtr.ctor_size 0 : ArrayPtr T).Get = none ∧
    (ArrayPtr.ctor_default : ArrayPtr T).Get = none ∧
    (∀ a : ArrayPtr T, a.toBool = true ↔ a.Get ≠ none) ∧
    (∀ a : ArrayPtr T, a.Release.1 = a.Get ∧ a.Release.2.Get = none ∧
      a.Release.2.toBool = false) ∧
    (∀ a b : ArrayPtr T, (a.swap b).1.Get = b.Get ∧ (a.swap b).2.Get = a.Get) ∧
    (∀ a b : ArrayPtr T, (a.swap b).1.swap (a.swap b).2 = (a, b)) := by
  refine ⟨rfl, rfl, fun a => ?_, fun a => ⟨rfl, rfl, rfl⟩, fun a b => ⟨rfl, rfl⟩,
    fun a b => rfl⟩
  rcases a with ⟨p⟩
  cases p <;> simp [ArrayPtr.toBool, ArrayPtr.Get]

/-- C20: on a vector satisfying the invariant with a nonzero capacity the two
`PushBack` overloads end the same way, and when the doubled capacity, if
needed, is representable they return the same vector, one element longer. With
capacity zero the growth step of the copy overload is `Reserve(0)`, which
returns the vector unchanged, and the call ends in a write through the null
pointer; the growth step of the move overload, `Reserve(10)`, gives capacity
10 and the call returns with capacity 10. -/
theorem C20_PushBack_overloads (T : Type) [Inhabited T] [Fresh T] (v : SimpleVector T) (x : T)
    (h : v.Inv) :
    (v.capacity_ > 0 →
      v.PushBack_copy x = v.PushBack_move x ∧
      ((v.size_ = v.capacity_ → 2 * v.capacity_ < SIZE_MOD) →
        ∃ r, v.PushBack_copy x = .ok r ∧ v.PushBack_move x = .ok r ∧
          r.size_ = v.size_ + 1 ∧ r.elems = v.elems ++ [x])) ∧
    (v.capacity_ = 0 →
      wrap (v.capacity_ * 2) = 0 ∧ v.Reserve (wrap (v.capacity_ * 2)) = .ok v ∧
      (∃ r, v.Reserve 10 = .ok r ∧ r.capacity_ = 10) ∧
      v.PushBack_copy x = .error Fault.undefined ∧
      ∃ r, v.PushBack_move x = .ok r ∧ r.capacity_ = 10) := by
  refine ⟨fun hc => ⟨PushBack_copy_eq_move v x (by omega), fun hfit => ?_⟩, fun hc => ?_⟩
  · obtain ⟨r, e1, e2, _, e4, _⟩ := PushBack_move_spec v x h hfit
    exact ⟨r, by rw [PushBack_copy_eq_move v x (by omega)]; exact e1, e1, e2, e4⟩
  · have hw : wrap (v.capacity_ * 2) = 0 := by rw [hc]; rfl
    refine ⟨hw, ?_, ?_, PushBack_copy_null v x h hc, ?_⟩
    · rw [hw]
      exact Reserve_noop v 0 (Nat.zero_le _)
    · obtain ⟨r, e1, _, _, e4, _⟩ := Reserve_spec v 10 h
      exact ⟨r, e1, e4 (by omega)⟩
    · exact ⟨_, PushBack_move_seed v x h hc, rfl⟩

/-- Witness for C20: on `[1, 2, 3]` held in four slots both overloads return
the same vector, and on the default-constructed vector the copy overload
faults while the move overload returns with capacity 10. -/
theorem C20_PushBack_overloads_witness :
    (SimpleVector.mk (ArrayPtr.mk (some [1, 2, 3, 0])) 3 4 : SimpleVector Nat).PushBack_copy 7
      = (SimpleVector.mk (ArrayPtr.mk (some [1, 2, 3, 0])) 3 4 : SimpleVector Nat).PushBack_move 7 ∧
    (SimpleVector.ctor_default : SimpleVector Nat).PushBack_copy 7 = .error Fault.undefined :=
  ⟨((C20_PushBack_overloads Nat (SimpleVector.mk (ArrayPtr.mk (some [1, 2, 3, 0])) 3 4) 7
      (by decide)).1 (by decide)).1,
    ((C20_PushBack_overloads Nat SimpleVector.ctor_default 7 (by decide)).2 rfl).2.2.2.1⟩

end Claims

end SimpleVec
